import Mathlib

/-!
# mi-programoptions: option registry, value store, config-file and command-line parsers

A shallow embedding of `src/mi_po_parse.cc` (the hand-written tokenizer, i.e. the
branch compiled when `USE_REGEX_FOR_PARSE_COMMAND_LINE` is not defined) together
with the parts of `mi_programoptions.h` it calls.  The header is not part of the
sources at hand, so `option`, `option_set::find_option` and the `value_set`
operations are modelled from the specification; every such definition says so.

A `std::string` is a list of characters (one `Char` per C++ `char`), a
`std::vector<std::string>` a list of such lists.  `size_t` arithmetic is done on
`Nat` modulo `2 ^ 64` where the source adds two `size_t` values.
-/

namespace program_options

/-- A `std::string`. -/
abbrev Str := List Char

/-- A `string_v`, i.e. `std::vector<std::string>`. -/
abbrev string_v := List Str

instance instDecidableEqStringV : DecidableEq string_v := inferInstance

/-! ## Errors -/

/-- What a call can throw.  `option_error what` is the library's own exception
with its message; `std_exception` stands for an exception of the C++ standard
library raised by a container (`std::out_of_range` from `vector::at`,
`std::length_error` from `vector::reserve`), which is not an `option_error`. -/
inductive error where
  | option_error (what : Str)
  | std_exception
  deriving DecidableEq, Repr

deriving instance DecidableEq for Except

/-! ## Option descriptors and the registry -/

/-- Modelled from the spec: the class `option` of `mi_programoptions.h` (absent
from the sources), with the fields of the specification's data model: primary
key, aliases added with `add_key`, short keys, help text, arity (default 1),
optional default and implicit values, composing and overwriting flags. -/
structure option where
  key : Str
  aliases : List Str := []
  shortkeys : List Str := []
  help : Str := []
  narg : Nat := 1
  default_value : Option Str := none
  implicit_value : Option Str := none
  composing : Bool := false
  overwriting : Bool := false
  deriving DecidableEq, Repr

/-- Modelled from the spec: `option::has_implicit_value()`. -/
def option.has_implicit_value (o : option) : Bool := o.implicit_value.isSome

/-- Modelled from the spec: every long key that resolves to the option, the
primary key first and then the aliases. -/
def option.keys (o : option) : List Str := o.key :: o.aliases

/-- An `option_cx` (`const option*`): the identity under which the value store
files an option, here its index in the registry, together with the descriptor
it points to. -/
structure option_cx where
  id : Nat
  opt : option
  deriving DecidableEq, Repr

/-- Modelled from the spec: `option_set`, the ordered collection of registered
options. -/
abbrev option_set := List option

/-- Modelled from the spec: message of the `UnknownOption` failure of
`option_set::find_option` (the text itself is not specified). -/
def unknown_option_what (key : Str) (is_short : Bool) : Str :=
  (if is_short then "unknown short option '".toList else "unknown option '".toList)
    ++ key ++ "'".toList

/-- Search of the registry from index `i` on: the first option one of whose
long keys (short keys when `is_short`) is `key`. -/
def find_from (key : Str) (is_short : Bool) : Nat → option_set → Option option_cx
  | _, [] => none
  | i, o :: rest =>
    if (if is_short then decide (key ∈ o.shortkeys) else decide (key ∈ o.keys))
    then some ⟨i, o⟩
    else find_from key is_short (i + 1) rest

/-- Modelled from the spec: `value_set::find` / the lookup of the registry,
non-throwing variant. -/
def find (options : option_set) (key : Str) (is_short : Bool) : Option option_cx :=
  find_from key is_short 0 options

/-- Modelled from the spec: `option_set::find_option(key, is_short)` resolves a
key or short key to its option and fails with `UnknownOption` when there is no
match. -/
def find_option (options : option_set) (key : Str) (is_short : Bool) :
    Except error option_cx :=
  match find options key is_short with
  | some o => .ok o
  | none => .error (.option_error (unknown_option_what key is_short))

/-! ## The value store -/

/-- Modelled from the spec: `value_set`, a mapping from option identity to the
ordered sequence of supplied values, kept as an association list in order of
first insertion. -/
abbrev value_set := List (Nat × string_v)

instance instDecidableEqValueSet : DecidableEq value_set := inferInstance

/-- Modelled from the spec: `value_set::values(option)`, the stored sequence
(empty when nothing is recorded). -/
def values (vs : value_set) (id : Nat) : string_v :=
  match vs with
  | [] => []
  | (k, g) :: rest => if k = id then g else values rest id

/-- Modelled from the spec: `value_set::is_set(option)`: the option has a
recorded value. -/
def is_set (vs : value_set) (id : Nat) : Bool := !(values vs id).isEmpty

/-- Replace the sequence filed under `id`, or file it at the end. -/
def assign (vs : value_set) (id : Nat) (g : string_v) : value_set :=
  match vs with
  | [] => [(id, g)]
  | (k, old) :: rest => if k = id then (k, g) :: rest else (k, old) :: assign rest id g

/-- Modelled from the spec: message of the `DuplicateOption` failure of
`value_set::put` (the text itself is not specified). -/
def duplicate_option_what (key : Str) : Str :=
  "option '".toList ++ key ++ "' already set".toList

/-- Modelled from the spec: `value_set::put(option, values)`; `put(option,
value)` is the case of a one-element group.  A composing option appends (the
specification: repeated occurrences of a composing option accumulate, in
encounter order).  For a non-composing option the group is stored when nothing
is recorded yet; a second `put` replaces the recorded values when the option is
overwriting and fails with `DuplicateOption` otherwise. -/
def put (vs : value_set) (opt : option_cx) (group : string_v) : Except error value_set :=
  if opt.opt.composing then
    .ok (assign vs opt.id (values vs opt.id ++ group))
  else if !is_set vs opt.id then
    .ok (assign vs opt.id group)
  else if opt.opt.overwriting then
    .ok (assign vs opt.id group)
  else
    .error (.option_error (duplicate_option_what opt.opt.key))

/-- Modelled from the spec: `value_set::put_implicit(option)` stores the
option's implicit value under the same duplicate/overwrite rule as `put`. -/
def put_implicit (vs : value_set) (opt : option_cx) : Except error value_set :=
  put vs opt [opt.opt.implicit_value.getD []]

/-- Modelled from the spec: message of the `ValueNotSet` failure of
`value_set::value` (the text itself is not specified). -/
def value_not_set_what (key : Str) : Str :=
  "option '".toList ++ key ++ "' not set".toList

/-- Modelled from the spec: `value_set::value(option, index)` returns the stored
value at `index`; if the option is unset it falls back to the default value when
there is one; it fails with `ValueNotSet` otherwise. -/
def value (vs : value_set) (opt : option_cx) (index : Nat := 0) : Except error Str :=
  match (values vs opt.id)[index]? with
  | some v => .ok v
  | none =>
    match is_set vs opt.id, opt.opt.default_value with
    | false, some d => .ok d
    | _, _ => .error (.option_error (value_not_set_what opt.opt.key))

/-! ## Strings -/

/-- The test `arg.rfind(p, 0) == 0`: `arg` starts with `p`. -/
def starts_with : Str → Str → Bool
  | [], _ => true
  | _ :: _, [] => false
  | p :: ps, c :: cs => p == c && starts_with ps cs

/-- The call `arg.find(ch)`: position of the first `ch`, `none` for `npos`. -/
def find_char (ch : Char) : Str → Option Nat
  | [] => none
  | c :: cs => if c = ch then some 0 else (find_char ch cs).map (· + 1)

/-- The call `s.substr(pos, len)` for `pos <= s.size()`. -/
def substr (s : Str) (pos len : Nat) : Str := (s.drop pos).take len

/-- The call `s.substr(pos)` for `pos <= s.size()`. -/
def substr_from (s : Str) (pos : Nat) : Str := s.drop pos

/-! ## The command-line parser -/

/-- Number of values of `std::size_t`; sums of two `size_t` are taken modulo it. -/
def SIZE_MOD : Nat := 2 ^ 64

/-- The local variables of `parse_command_line` that change in its loop: the
index `a`, the store `values`, the output `positional` and the flag
`end_of_options_marker`. -/
structure cl_state where
  a : Nat
  values : value_set
  positional : string_v
  end_of_options_marker : Bool
  deriving DecidableEq, Repr

/-- The loop `for (i = 0; i < narg; ++i) args.push_back(argv.at(++a));` run for
`n` rounds from index `a` with `args` collected so far; `argv.at` throws when
the index is past the end.  (The `args.reserve(narg)` before it allocates only;
when it throws, that is a `std_exception` as well.) -/
def collect (argv : string_v) : Nat → Nat → string_v → Except error (string_v × Nat)
  | 0, a, args => .ok (args, a)
  | n + 1, a, args =>
    match argv[a + 1]? with
    | none => .error .std_exception
    | some x => collect argv n (a + 1) (args ++ [x])

/-- The message thrown when a long option lacks its arguments. -/
def missing_long_what (key : Str) : Str :=
  "Missing argument for long option '".toList ++ key ++ "'".toList

/-- The message thrown when a short option lacks its arguments. -/
def missing_short_what (key : Str) : Str :=
  "Missing argument for short option '".toList ++ key ++ "'".toList

/-- The key named by an option token whose dash prefix has length `dashes`:
`arg.substr(dashes, eq_pos - dashes)` when there is an `=`, else
`arg.substr(dashes)`. -/
def token_key (arg : Str) (dashes : Nat) : Str :=
  match find_char '=' arg with
  | some eq_pos => substr arg dashes (eq_pos - dashes)
  | none => substr_from arg dashes

/-- The value attached to an option token: `arg.substr(eq_pos + 1)` when there is
an `=`, the empty string otherwise. -/
def token_value (arg : Str) : Str :=
  match find_char '=' arg with
  | some eq_pos => substr_from arg (eq_pos + 1)
  | none => []

/-- Body of the branch `arg.rfind("--", 0) == 0` of `parse_command_line`
(lines 171-204), up to but excluding the `++a` of the `for` statement. -/
def long_option (argv : string_v) (options : option_set) (st : cl_state) (arg : Str) :
    Except error cl_state :=
  let eq_pos := find_char '=' arg
  let key := token_key arg 2
  let value := token_value arg
  match find_option options key false with
  | .error e => .error e
  | .ok opt =>
    if opt.opt.narg = 0 then
      (put st.values opt [[]]).map fun vs => { st with values := vs }
    else if eq_pos.isSome then
      (put st.values opt [value]).map fun vs => { st with values := vs }
    else if opt.opt.has_implicit_value then
      (put_implicit st.values opt).map fun vs => { st with values := vs }
    else if opt.opt.composing && decide (st.a + 1 < argv.length) then
      match argv[st.a + 1]? with
      | none => .error .std_exception
      | some x => (put st.values opt [x]).map fun vs => { st with values := vs, a := st.a + 1 }
    else if !opt.opt.composing && decide ((st.a + opt.opt.narg) % SIZE_MOD < argv.length) then
      match collect argv opt.opt.narg st.a [] with
      | .error e => .error e
      | .ok (args, a1) => (put st.values opt args).map fun vs => { st with values := vs, a := a1 }
    else
      .error (.option_error (missing_long_what opt.opt.key))

/-- Body of the branch for short options of `parse_command_line` (lines
208-237), up to but excluding the `++a` of the `for` statement. -/
def short_option (argv : string_v) (options : option_set) (st : cl_state) (arg : Str) :
    Except error cl_state :=
  let eq_pos := find_char '=' arg
  let key := token_key arg 1
  let value := token_value arg
  match find_option options key true with
  | .error e => .error e
  | .ok opt =>
    if opt.opt.narg = 0 then
      (put st.values opt [[]]).map fun vs => { st with values := vs }
    else if eq_pos.isSome then
      (put st.values opt [value]).map fun vs => { st with values := vs }
    else if (st.a + opt.opt.narg) % SIZE_MOD < argv.length then
      match collect argv opt.opt.narg st.a [] with
      | .error e => .error e
      | .ok (args, a1) => (put st.values opt args).map fun vs => { st with values := vs, a := a1 }
    else
      .error (.option_error (missing_short_what opt.opt.key))

/-- One round of the `for` loop of `parse_command_line` at index `st.a`,
including the `++a` that ends the round. -/
def step (argv : string_v) (options : option_set) (st : cl_state) : Except error cl_state :=
  match argv[st.a]? with
  | none => .error .std_exception
  | some arg =>
    if arg = ['-', '-'] then
      .ok { st with end_of_options_marker := true, a := st.a + 1 }
    else if !st.end_of_options_marker then
      if starts_with ['-', '-'] arg then
        (long_option argv options st arg).map fun s => { s with a := s.a + 1 }
      else if starts_with ['-'] arg && decide (arg.length > 1) then
        (short_option argv options st arg).map fun s => { s with a := s.a + 1 }
      else
        .ok { st with positional := st.positional ++ [arg], a := st.a + 1 }
    else
      .ok { st with positional := st.positional ++ [arg], a := st.a + 1 }

/-- The `for (a = 0; a < argc; ++a)` loop, at most `fuel` rounds: `none` when the
rounds are used up before the loop condition fails, otherwise the state at the
loop exit or the exception that left the loop. -/
def run (argv : string_v) (options : option_set) : Nat → cl_state → Option (Except error cl_state)
  | 0, st => if st.a < argv.length then none else some (.ok st)
  | fuel + 1, st =>
    if st.a < argv.length then
      match step argv options st with
      | .error e => some (.error e)
      | .ok st1 => run argv options fuel st1
    else some (.ok st)

/-- The function `parse_command_line(argv, options, positional)` on a vector of
arguments: the returned store together with the final content of the in-out
parameter `positional`.  (The overload on `argc`, `argv` calls it with the
arguments after the program name.) -/
def parse_command_line (argv : string_v) (options : option_set) (positional : string_v) :
    Option (Except error (value_set × string_v)) :=
  (run argv options argv.length ⟨0, [], positional, false⟩).map
    fun r => r.map fun st => (st.values, st.positional)

/-! ## The config-file parser

The three regular expressions are matched with `std::regex_match`, which asks
for a match of the whole line.  Each is written out as the scan it amounts to:
in all three, a repetition is followed by something its own characters cannot
begin (`#`, `=`, `]` are neither whitespace nor key characters), so the greedy
scan and the backtracking matcher agree; for the value group of `re_value` see
`match_value`. -/

/-- The class `\s` (the `space` class of the classic locale). -/
def isspace (c : Char) : Bool :=
  c == ' ' || c == '\t' || c == '\n' || c == '\x0b' || c == '\x0c' || c == '\r'

/-- The characters `.` stands for in an ECMAScript regular expression: all but
the line terminators. -/
def is_dot (c : Char) : Bool := !(c == '\n' || c == '\r')

/-- The class `[a-zA-Z0-9._]` that starts `OPTION_CHARS`. -/
def option_char_first (c : Char) : Bool := c.isAlphanum || c == '.' || c == '_'

/-- The class `[a-zA-Z0-9._-]` that continues `OPTION_CHARS`. -/
def option_char_rest (c : Char) : Bool := option_char_first c || c == '-'

/-- The longest start of `s` matching `OPTION_CHARS`, with what follows it. -/
def take_option_chars : Str → Option (Str × Str)
  | [] => none
  | c :: cs =>
    if option_char_first c then
      some (c :: cs.takeWhile option_char_rest, cs.dropWhile option_char_rest)
    else none

/-- Whether the line matches `re_comment`, the expression `\s*#.*`. -/
def match_comment (line : Str) : Bool :=
  match line.dropWhile isspace with
  | '#' :: rest => rest.all is_dot
  | _ => false

/-- The group `GS_KEY` when the line matches `re_section`, the expression
`\[(OPTION_CHARS)\]$`. -/
def match_section (line : Str) : Option Str :=
  match line with
  | '[' :: rest =>
    match take_option_chars rest with
    | some (name, [']']) => some name
    | _ => none
  | _ => none

/-- The groups `GV_KEY` and `GV_VALUE` when the line matches `re_value`, the
expression `\s*(OPTION_CHARS)\s*=\s*(.*)?\s*`.  After the `=` the matcher
first gives `\s*` all the whitespace, then `.*` every character up to the next
line terminator, and what is left has to be whitespace; when that fails no
shorter choice succeeds either. -/
def match_value (line : Str) : Option (Str × Str) :=
  match take_option_chars (line.dropWhile isspace) with
  | none => none
  | some (key, s2) =>
    match s2.dropWhile isspace with
    | '=' :: s4 =>
      let s5 := s4.dropWhile isspace
      if (s5.dropWhile is_dot).all isspace then some (key, s5.takeWhile is_dot) else none
    | _ => none

/-- Lines 76-77: a value of at least two characters that starts with `'` or `"`
and ends with the same character loses both. -/
def strip_quotes (value : Str) : Str :=
  if value.length ≥ 2 ∧ (value.head? = some '\'' ∨ value.head? = some '"')
      ∧ value.head? = value.getLast? then
    substr value 1 (value.length - 2)
  else value

/-- The local variables of `parse_config_file` that change in its loop. -/
structure cf_state where
  cur_section : Str
  values : value_set
  deriving DecidableEq, Repr

/-- Decimal digits of a number, as `operator<<` prints an `int`. -/
def decimal (n : Nat) : Str := (Nat.repr n).toList

/-- The message of the failure on a line of no known shape. -/
def bad_line_what (lineno : Nat) (line : Str) : Str :=
  "bad line ".toList ++ decimal lineno ++ ": ".toList ++ line

/-- The message with which an `option_error` caught on a key-value line is
thrown again. -/
def lineno_what (line : Str) (what : Str) : Str :=
  "lineno ".toList ++ line ++ ": ".toList ++ what

/-- One round of the loop of `parse_config_file` (lines 67-89) on the line
`line` numbered `lineno`. -/
def config_line (options : option_set) (lineno : Nat) (line : Str) (st : cf_state) :
    Except error cf_state :=
  if line = [] then .ok st
  else if match_comment line then .ok st
  else
    match match_section line with
    | some name => .ok { st with cur_section := name ++ ['.'] }
    | none =>
      match match_value line with
      | some (key, v) =>
        match (find_option options (st.cur_section ++ key) false).bind
            fun opt => put st.values opt [strip_quotes v] with
        | .ok vs => .ok { st with values := vs }
        | .error (.option_error what) => .error (.option_error (lineno_what line what))
        | .error e => .error e
      | none => .error (.option_error (bad_line_what lineno line))

/-- The loop of `parse_config_file` over the lines still to read, the first of
them numbered `lineno`. -/
def config_lines (options : option_set) : Nat → cf_state → List Str → Except error cf_state
  | _, st, [] => .ok st
  | lineno, st, line :: rest =>
    match config_line options lineno line st with
    | .error e => .error e
    | .ok st1 => config_lines options (lineno + 1) st1 rest

/-- The lines `std::getline` yields from the rest of a stream, `cur` being the
characters of the current line read so far: a line ends at `'\n'`, and the end
of the stream ends a last line only if it has a character. -/
def getlines_from : Str → Str → List Str
  | [], cur => if cur = [] then [] else [cur]
  | c :: cs, cur => if c = '\n' then cur :: getlines_from cs [] else getlines_from cs (cur ++ [c])

/-- The lines `std::getline` yields from a stream holding `infile`. -/
def getlines (infile : Str) : List Str := getlines_from infile []

/-- The function `parse_config_file(infile, options)` on a stream that holds the
text `infile` and delivers it without a read error. -/
def parse_config_file (infile : Str) (options : option_set) : Except error value_set :=
  (config_lines options 1 ⟨[], []⟩ (getlines infile)).map fun st => st.values

/-! ## The positional-argument consumer -/

/-- How a call of `positional_args_consumer::operator>>` ends: it returns with
the object in a new state, it throws with the object left in a state, or its
behaviour is undefined (an iterator is moved or read outside the positional
sequence). -/
inductive outcome (α : Type) where
  | returns (a : α)
  | throws (e : error) (a : α)
  | undefined
  deriving DecidableEq, Repr

/-- The data members of `positional_args_consumer`: the value store `values_`
it writes to, the positional sequence `positional_` it reads, and the iterator
`pbegin_`, kept as its distance from `positional_.begin()`.  (The class is
declared in the absent header; the members are those `operator>>` and `dump`
use.) -/
structure positional_args_consumer where
  values_ : value_set
  positional_ : string_v
  pbegin_ : Nat
  deriving DecidableEq, Repr

/-- Modelled from the spec: `positional_args_consumer::done()`, true iff the
cursor has reached the end of the positional sequence. -/
def positional_args_consumer.done (c : positional_args_consumer) : Bool :=
  c.pbegin_ == c.positional_.length

/-- The value of `std::distance(begin(), end())`, the number of positional
tokens from the cursor to the end. -/
def positional_args_consumer.distance (c : positional_args_consumer) : Int :=
  (c.positional_.length : Int) - (c.pbegin_ : Int)

/-- The cast `(int)n` of a `size_t`: the value modulo `2 ^ 32`, read as a signed
32-bit number. -/
def to_int (n : Nat) : Int :=
  if n % 2 ^ 32 < 2 ^ 31 then ((n % 2 ^ 32 : Nat) : Int) else ((n % 2 ^ 32 : Nat) : Int) - 2 ^ 32

/-- The message of the failure of `operator>>` for lack of positional tokens. -/
def positional_arg_what (key : Str) : Str :=
  "positional arg error for option '".toList ++ key ++ "'".toList

/-- The function `positional_args_consumer::operator>>(opt)` (lines 259-273).
A composing option takes the token under the cursor and advances the cursor,
without a test that a token is left.  A non-composing option that is not set
takes `narg` tokens when `distance >= (int)narg`; the iterator `begin() + narg`
and the range up to it exist only if `narg` fits the iterator's difference
type and that many tokens are left.  A non-composing option that is set leaves
everything as it is. -/
def consume (c : positional_args_consumer) (opt : option_cx) :
    outcome positional_args_consumer :=
  if opt.opt.composing then
    match c.positional_[c.pbegin_]? with
    | none => .undefined
    | some x =>
      match put c.values_ opt [x] with
      | .ok vs => .returns { c with values_ := vs, pbegin_ := c.pbegin_ + 1 }
      | .error e => .throws e { c with pbegin_ := c.pbegin_ + 1 }
  else if !is_set c.values_ opt.id then
    if c.distance ≥ to_int opt.opt.narg then
      if opt.opt.narg < 2 ^ 63 ∧ c.pbegin_ + opt.opt.narg ≤ c.positional_.length then
        match put c.values_ opt ((c.positional_.drop c.pbegin_).take opt.opt.narg) with
        | .ok vs => .returns { c with values_ := vs, pbegin_ := c.pbegin_ + opt.opt.narg }
        | .error e => .throws e c
      else .undefined
    else .throws (.option_error (positional_arg_what opt.opt.key)) c
  else .returns c

/-! ## Merging two stores -/

/-- Modelled from the spec: whether the option filed under `id` is overwriting
(the store files values under the option itself, here under its index in the
registry). -/
def is_overwriting (options : option_set) (id : Nat) : Bool :=
  match options[id]? with
  | some o => o.overwriting
  | none => false

/-- Modelled from the spec: what `value_set::add` does with one entry of the
other store: it is taken over when this store has no value for the option, it
replaces this store's values when the option is overwriting, and it is dropped
otherwise (first store wins). -/
def merge_entry (options : option_set) (vs : value_set) (id : Nat) (g : string_v) : value_set :=
  if !is_set vs id then assign vs id g
  else if is_overwriting options id then assign vs id g
  else vs

/-- Modelled from the spec: `value_set::add(other)`, which merges the entries of
`other` into this store one by one. -/
def add (options : option_set) : value_set → value_set → value_set
  | vs, [] => vs
  | vs, (id, g) :: rest => add options (merge_entry options vs id g) rest

/-! ## Vocabulary of the claims -/

/-- The token `--k`. -/
def long_form (k : Str) : Str := '-' :: '-' :: k

/-- The token `--k=v`. -/
def long_form_eq (k v : Str) : Str := '-' :: '-' :: (k ++ '=' :: v)

/-- The token `-k`. -/
def short_form (k : Str) : Str := '-' :: k

/-- The token `-k=v`. -/
def short_form_eq (k v : Str) : Str := '-' :: (k ++ '=' :: v)

/-- The name of the most recent section line among the lines `pre`, if any. -/
def last_section (pre : List Str) : Option Str := (pre.filterMap match_section).getLast?

/-- The effective key the specification gives a key met after the lines `pre`:
the key itself when no section line precedes, and otherwise the name of the most
recent section line, a dot, and the key. -/
def effective_key (pre : List Str) (key : Str) : Str :=
  match last_section pre with
  | none => key
  | some name => name ++ ['.'] ++ key

/-- The state in which `parse_config_file` enters its loop. -/
def cf_init : cf_state := ⟨[], []⟩

/-- What the round of `parse_config_file` on a key-value line does once the
key is resolved: store the value, or throw again with the line as context. -/
def store_line (line : Str) (st : cf_state) (r : Except error value_set) : Except error cf_state :=
  match r with
  | .ok vs => .ok { st with values := vs }
  | .error (.option_error what) => .error (.option_error (lineno_what line what))
  | .error e => .error e

/-- The token `arg`, met before the end-of-options marker, names the option `o`:
it is not the marker, and either starts with `--` and its key resolves to `o`
as a long key, or is a short-option token whose key resolves to `o` as a short
key. -/
def names (options : option_set) (arg : Str) (o : option_cx) : Prop :=
  arg ≠ ['-', '-'] ∧
  ((starts_with ['-', '-'] arg = true ∧ find_option options (token_key arg 2) false = .ok o) ∨
   (starts_with ['-', '-'] arg = false ∧
    (starts_with ['-'] arg && decide (arg.length > 1)) = true ∧
    find_option options (token_key arg 1) true = .ok o))

instance instDecidableNames (options : option_set) (arg : Str) (o : option_cx) :
    Decidable (names options arg o) := by
  unfold names
  infer_instance

/-- The value group that the token `arg` at index `st.a`, naming `o`, gives to
`put` when the round gets that far: the empty string for arity 0, the attached
value, the implicit value of a long option, the next token of a composing long
option, and the next `narg` tokens otherwise. -/
def supplied (argv : string_v) (st : cl_state) (arg : Str) (o : option_cx) : string_v :=
  if o.opt.narg = 0 then [[]]
  else if (find_char '=' arg).isSome then [token_value arg]
  else if starts_with ['-', '-'] arg && o.opt.has_implicit_value then
    [o.opt.implicit_value.getD []]
  else if starts_with ['-', '-'] arg && o.opt.composing then (argv.drop (st.a + 1)).take 1
  else (argv.drop (st.a + 1)).take o.opt.narg

/-- The token `arg` at index `st.a`, naming `o`, comes with its value or values:
the option has arity 0, or a value is attached with `=`, or the token is a long
option with an implicit value, or the tokens to consume follow it (one for a
composing long option, `narg` otherwise). -/
def comes_with_values (argv : string_v) (st : cl_state) (arg : Str) (o : option_cx) : Prop :=
  o.opt.narg = 0 ∨ (find_char '=' arg).isSome = true ∨
  (starts_with ['-', '-'] arg = true ∧ o.opt.has_implicit_value = true) ∨
  (if starts_with ['-', '-'] arg = true ∧ o.opt.composing = true
   then st.a + 1 < argv.length else st.a + o.opt.narg < argv.length)

instance instDecidableComesWithValues (argv : string_v) (st : cl_state) (arg : Str)
    (o : option_cx) : Decidable (comes_with_values argv st arg o) := by
  unfold comes_with_values
  infer_instance

/-- The four ways in which one occurrence of an option supplies one value:
`--key=value`, `--key value`, `-short=value`, `-short value`. -/
inductive occ_form where
  | long_eq
  | long_next
  | short_eq
  | short_next
  deriving DecidableEq, Repr

/-- One occurrence of an option: its form, the key written and the value
supplied. -/
structure occurrence where
  form : occ_form
  key : Str
  value : Str
  deriving DecidableEq, Repr

/-- The tokens of an occurrence. -/
def occurrence.tokens (c : occurrence) : string_v :=
  match c.form with
  | .long_eq => [long_form_eq c.key c.value]
  | .long_next => [long_form c.key, c.value]
  | .short_eq => [short_form_eq c.key c.value]
  | .short_next => [short_form c.key, c.value]

/-- The argument list made of the given occurrences, in order. -/
def command_line_of : List occurrence → string_v
  | [] => []
  | c :: cs => c.tokens ++ command_line_of cs

/-- The occurrence `c` is an occurrence of the option `o`: its key holds no
`=` and resolves to `o`, as a long key in the long forms and as a short key in
the short forms; a key written as a token of its own is not empty, and a short
key does not start with a dash (the token would be a long option). -/
def occurrence.of (options : option_set) (o : option_cx) (c : occurrence) : Prop :=
  '=' ∉ c.key ∧
  match c.form with
  | .long_eq => find_option options c.key false = .ok o
  | .long_next => c.key ≠ [] ∧ find_option options c.key false = .ok o
  | .short_eq => c.key.head? ≠ some '-' ∧ find_option options c.key true = .ok o
  | .short_next =>
    c.key ≠ [] ∧ c.key.head? ≠ some '-' ∧ find_option options c.key true = .ok o

instance instDecidableOccurrenceOf (options : option_set) (o : option_cx) (c : occurrence) :
    Decidable (c.of options o) := by
  unfold occurrence.of
  cases c.form <;> infer_instance

/-- The state in which `parse_command_line` enters its loop. -/
def cl_init (positional : string_v) : cl_state := ⟨0, [], positional, false⟩

/-- The first `j` rounds of the loop of `parse_command_line` from a state. -/
def rounds (argv : string_v) (options : option_set) : Nat → cl_state → Except error cl_state
  | 0, st => .ok st
  | j + 1, st =>
    match step argv options st with
    | .error e => .error e
    | .ok st1 => rounds argv options j st1

/-- The token `arg`, met in the state `st`, is classified as positional: it is
not the marker `--`, and either the marker has been seen, or the token neither
starts with `--` nor is a token of more than one character starting with `-`. -/
def classified_positional (st : cl_state) (arg : Str) : Bool :=
  decide (arg ≠ ['-', '-']) &&
    (st.end_of_options_marker ||
      (!starts_with ['-', '-'] arg && !(starts_with ['-'] arg && decide (arg.length > 1))))

/-- The token does not start with `-`, or is the bare token `-`. -/
def plain_token (arg : Str) : Bool := !starts_with ['-'] arg || decide (arg = ['-'])

/-- The key is not registered: no option of the registry has it among its long
keys (for a long lookup) or short keys (for a short lookup). -/
def unregistered (options : option_set) (key : Str) (is_short : Bool) : Prop :=
  ∀ o ∈ options, key ∉ (if is_short then o.shortkeys else o.keys)

instance instDecidableUnregistered (options : option_set) (key : Str) (is_short : Bool) :
    Decidable (unregistered options key is_short) := by
  unfold unregistered
  infer_instance

/-- The shape of a key-value line as the claims describe it: optional
whitespace, an `OPTION_CHARS` key, optional whitespace, `=`, and any rest. -/
def key_value_shape (line : Str) : Bool :=
  match take_option_chars (line.dropWhile isspace) with
  | none => false
  | some (_, s2) => (s2.dropWhile isspace).head? == some '='

/-- A line that `parse_config_file` passes over: an empty line or a line
matching `re_comment`. -/
def neutral_line (line : Str) : Bool := decide (line = []) || match_comment line

/-- What a caller can observe of a result when it is not an exception. -/
def returned {α : Type} (r : Except error α) : Option α :=
  match r with
  | .ok a => some a
  | .error _ => none

/-- No key-value line comes before the first section line of the lines: what
precedes that section line is empty lines and comment lines (and all lines are
such when there is no section line). -/
def section_before_values : List Str → Bool
  | [] => true
  | line :: rest =>
    if neutral_line line then section_before_values rest else (match_section line).isSome

/-- The shape of the stores the parsers build: an option is filed once, and
never with an empty sequence. -/
def filed_once (vs : value_set) : Prop :=
  (vs.map Prod.fst).Nodup ∧ ∀ e ∈ vs, e.2 ≠ []

/-! ## Strings: lemmas -/

theorem find_char_none {ch : Char} {k : Str} (h : ch ∉ k) : find_char ch k = none := by
  induction k with
  | nil => rfl
  | cons c cs ih =>
    simp only [List.mem_cons, not_or] at h
    simp [find_char, Ne.symm h.1, ih h.2]

theorem find_char_append {ch : Char} {k : Str} (v : Str) (h : ch ∉ k) :
    find_char ch (k ++ ch :: v) = some k.length := by
  induction k with
  | nil => simp [find_char]
  | cons c cs ih =>
    simp only [List.mem_cons, not_or] at h
    simp [find_char, Ne.symm h.1, ih h.2]

theorem find_char_long_form_eq {k : Str} (v : Str) (h : '=' ∉ k) :
    find_char '=' (long_form_eq k v) = some (k.length + 2) := by
  simp [long_form_eq, find_char, find_char_append v h]

theorem find_char_short_form_eq {k : Str} (v : Str) (h : '=' ∉ k) :
    find_char '=' (short_form_eq k v) = some (k.length + 1) := by
  simp [short_form_eq, find_char, find_char_append v h]

theorem find_char_long_form {k : Str} (h : '=' ∉ k) : find_char '=' (long_form k) = none := by
  simp [long_form, find_char, find_char_none h]

theorem find_char_short_form {k : Str} (h : '=' ∉ k) : find_char '=' (short_form k) = none := by
  simp [short_form, find_char, find_char_none h]

theorem token_key_long_form_eq {k : Str} (v : Str) (h : '=' ∉ k) :
    token_key (long_form_eq k v) 2 = k := by
  unfold token_key
  rw [find_char_long_form_eq v h]
  simp [substr, long_form_eq]

theorem token_value_long_form_eq {k : Str} (v : Str) (h : '=' ∉ k) :
    token_value (long_form_eq k v) = v := by
  unfold token_value
  rw [find_char_long_form_eq v h]
  simp [substr_from, long_form_eq]

theorem token_key_short_form_eq {k : Str} (v : Str) (h : '=' ∉ k) :
    token_key (short_form_eq k v) 1 = k := by
  unfold token_key
  rw [find_char_short_form_eq v h]
  simp [substr, short_form_eq]

theorem token_value_short_form_eq {k : Str} (v : Str) (h : '=' ∉ k) :
    token_value (short_form_eq k v) = v := by
  unfold token_value
  rw [find_char_short_form_eq v h]
  simp [substr_from, short_form_eq]

theorem token_key_long_form {k : Str} (h : '=' ∉ k) : token_key (long_form k) 2 = k := by
  unfold token_key
  rw [find_char_long_form h]
  simp [substr_from, long_form]

theorem token_key_short_form {k : Str} (h : '=' ∉ k) : token_key (short_form k) 1 = k := by
  unfold token_key
  rw [find_char_short_form h]
  simp [substr_from, short_form]

/-! ## The loop body: one lemma per branch -/

theorem collect_ok (argv : string_v) (n a : Nat) (args : string_v) (h : a + n < argv.length) :
    collect argv n a args = .ok (args ++ (argv.drop (a + 1)).take n, a + n) := by
  induction n generalizing a args with
  | zero => simp [collect]
  | succ n ih =>
    have h1 : a + 1 < argv.length := by omega
    have h2 : argv[a + 1]? = some argv[a + 1] := List.getElem?_eq_getElem h1
    have h3 : argv.drop (a + 1) = argv[a + 1] :: argv.drop (a + 1 + 1) :=
      List.drop_eq_getElem_cons h1
    rw [collect, h2]
    simp only
    rw [ih (a + 1) (args ++ [argv[a + 1]]) (by omega), h3]
    simp only [List.take_succ_cons, List.append_assoc, List.singleton_append, Nat.add_assoc,
      Nat.add_comm 1 n]

theorem collect_error (argv : string_v) (n a : Nat) (args : string_v) (hn : n ≠ 0)
    (h : ¬ a + n < argv.length) : collect argv n a args = .error .std_exception := by
  induction n generalizing a args with
  | zero => exact absurd rfl hn
  | succ n ih =>
    rw [collect]
    by_cases h1 : a + 1 < argv.length
    · rw [List.getElem?_eq_getElem h1]
      simp only
      have hn0 : n ≠ 0 := by
        intro h0
        subst h0
        exact h h1
      exact ih (a + 1) _ hn0 (by omega)
    · rw [List.getElem?_eq_none (by omega)]

theorem step_marker (argv : string_v) (options : option_set) (st : cl_state)
    (harg : argv[st.a]? = some ['-', '-']) :
    step argv options st = .ok { st with end_of_options_marker := true, a := st.a + 1 } := by
  simp [step, harg]

theorem step_after_marker (argv : string_v) (options : option_set) (st : cl_state) (arg : Str)
    (harg : argv[st.a]? = some arg) (hne : arg ≠ ['-', '-'])
    (hm : st.end_of_options_marker = true) :
    step argv options st = .ok { st with positional := st.positional ++ [arg], a := st.a + 1 } := by
  simp [step, harg, hne, hm]

theorem step_positional (argv : string_v) (options : option_set) (st : cl_state) (arg : Str)
    (harg : argv[st.a]? = some arg) (hne : arg ≠ ['-', '-'])
    (hd : starts_with ['-', '-'] arg = false)
    (hs : (starts_with ['-'] arg && decide (arg.length > 1)) = false) :
    step argv options st = .ok { st with positional := st.positional ++ [arg], a := st.a + 1 } := by
  rcases Bool.eq_false_or_eq_true st.end_of_options_marker with hm | hm
  · exact step_after_marker argv options st arg harg hne hm
  · simp [step, harg, hne, hm, hd, hs]

theorem step_long (argv : string_v) (options : option_set) (st : cl_state) (arg : Str)
    (harg : argv[st.a]? = some arg) (hne : arg ≠ ['-', '-'])
    (hm : st.end_of_options_marker = false) (hd : starts_with ['-', '-'] arg = true) :
    step argv options st =
      (long_option argv options st arg).map fun s => { s with a := s.a + 1 } := by
  simp [step, harg, hne, hm, hd]

theorem step_short (argv : string_v) (options : option_set) (st : cl_state) (arg : Str)
    (harg : argv[st.a]? = some arg) (hne : arg ≠ ['-', '-'])
    (hm : st.end_of_options_marker = false) (hd : starts_with ['-', '-'] arg = false)
    (hs : (starts_with ['-'] arg && decide (arg.length > 1)) = true) :
    step argv options st =
      (short_option argv options st arg).map fun s => { s with a := s.a + 1 } := by
  simp [step, harg, hne, hm, hd, hs]

theorem step_long_flag (argv : string_v) (options : option_set) (st : cl_state) (arg : Str)
    (o : option_cx) (harg : argv[st.a]? = some arg) (hne : arg ≠ ['-', '-'])
    (hm : st.end_of_options_marker = false) (hd : starts_with ['-', '-'] arg = true)
    (hf : find_option options (token_key arg 2) false = .ok o) (hn : o.opt.narg = 0) :
    step argv options st =
      (put st.values o [[]]).map fun vs => { st with values := vs, a := st.a + 1 } := by
  rw [step_long argv options st arg harg hne hm hd]
  simp only [long_option, hf, hn, if_true]
  cases put st.values o [[]] <;> rfl

theorem step_long_attached (argv : string_v) (options : option_set) (st : cl_state) (arg : Str)
    (o : option_cx) (p : Nat) (harg : argv[st.a]? = some arg) (hne : arg ≠ ['-', '-'])
    (hm : st.end_of_options_marker = false) (hd : starts_with ['-', '-'] arg = true)
    (hf : find_option options (token_key arg 2) false = .ok o) (hn : o.opt.narg ≠ 0)
    (hp : find_char '=' arg = some p) :
    step argv options st =
      (put st.values o [token_value arg]).map
        fun vs => { st with values := vs, a := st.a + 1 } := by
  rw [step_long argv options st arg harg hne hm hd]
  simp only [long_option, hf, hn, hp, if_false, Option.isSome_some, if_true]
  cases put st.values o [token_value arg] <;> rfl

theorem step_long_implicit (argv : string_v) (options : option_set) (st : cl_state) (arg : Str)
    (o : option_cx) (harg : argv[st.a]? = some arg) (hne : arg ≠ ['-', '-'])
    (hm : st.end_of_options_marker = false) (hd : starts_with ['-', '-'] arg = true)
    (hf : find_option options (token_key arg 2) false = .ok o) (hn : o.opt.narg ≠ 0)
    (hp : find_char '=' arg = none) (hi : o.opt.has_implicit_value = true) :
    step argv options st =
      (put_implicit st.values o).map fun vs => { st with values := vs, a := st.a + 1 } := by
  rw [step_long argv options st arg harg hne hm hd]
  simp only [long_option, hf, hn, hp, hi, if_false, Option.isSome_none, if_true]
  simp only [Bool.false_eq_true, if_false]
  cases put_implicit st.values o <;> rfl

theorem step_long_composing (argv : string_v) (options : option_set) (st : cl_state) (arg : Str)
    (o : option_cx) (x : Str) (harg : argv[st.a]? = some arg) (hne : arg ≠ ['-', '-'])
    (hm : st.end_of_options_marker = false) (hd : starts_with ['-', '-'] arg = true)
    (hf : find_option options (token_key arg 2) false = .ok o) (hn : o.opt.narg ≠ 0)
    (hp : find_char '=' arg = none) (hi : o.opt.has_implicit_value = false)
    (hc : o.opt.composing = true) (hx : argv[st.a + 1]? = some x) :
    step argv options st =
      (put st.values o [x]).map fun vs => { st with values := vs, a := st.a + 1 + 1 } := by
  have hlt : st.a + 1 < argv.length := by
    rcases List.getElem?_eq_some.mp hx with ⟨h, _⟩
    exact h
  rw [step_long argv options st arg harg hne hm hd]
  simp only [long_option, hf, hn, hp, hi, hc, hx, hlt, if_false, Option.isSome_none,
    Bool.false_eq_true, Bool.true_and, decide_True, if_true]
  cases put st.values o [x] <;> rfl

theorem step_long_composing_missing (argv : string_v) (options : option_set) (st : cl_state)
    (arg : Str) (o : option_cx) (harg : argv[st.a]? = some arg) (hne : arg ≠ ['-', '-'])
    (hm : st.end_of_options_marker = false) (hd : starts_with ['-', '-'] arg = true)
    (hf : find_option options (token_key arg 2) false = .ok o) (hn : o.opt.narg ≠ 0)
    (hp : find_char '=' arg = none) (hi : o.opt.has_implicit_value = false)
    (hc : o.opt.composing = true) (hx : ¬ st.a + 1 < argv.length) :
    step argv options st = .error (.option_error (missing_long_what o.opt.key)) := by
  rw [step_long argv options st arg harg hne hm hd]
  simp [long_option, hf, hn, hp, hi, hc, hx]
  rfl

theorem step_long_args (argv : string_v) (options : option_set) (st : cl_state) (arg : Str)
    (o : option_cx) (harg : argv[st.a]? = some arg) (hne : arg ≠ ['-', '-'])
    (hm : st.end_of_options_marker = false) (hd : starts_with ['-', '-'] arg = true)
    (hf : find_option options (token_key arg 2) false = .ok o) (hn : o.opt.narg ≠ 0)
    (hp : find_char '=' arg = none) (hi : o.opt.has_implicit_value = false)
    (hc : o.opt.composing = false) (hx : st.a + o.opt.narg < argv.length) :
    step argv options st =
      (put st.values o ((argv.drop (st.a + 1)).take o.opt.narg)).map
        fun vs => { st with values := vs, a := st.a + o.opt.narg + 1 } := by
  have hw : (st.a + o.opt.narg) % SIZE_MOD < argv.length :=
    Nat.lt_of_le_of_lt (Nat.mod_le _ _) hx
  rw [step_long argv options st arg harg hne hm hd]
  simp only [long_option, hf, hn, hp, hi, hc, hw, collect_ok argv o.opt.narg st.a [] hx,
    if_false, Option.isSome_none, Bool.false_eq_true, Bool.false_and, Bool.not_false,
    Bool.true_and, decide_True, if_true, List.nil_append]
  cases put st.values o ((argv.drop (st.a + 1)).take o.opt.narg) <;> rfl

theorem step_long_args_missing (argv : string_v) (options : option_set) (st : cl_state)
    (arg : Str) (o : option_cx) (harg : argv[st.a]? = some arg) (hne : arg ≠ ['-', '-'])
    (hm : st.end_of_options_marker = false) (hd : starts_with ['-', '-'] arg = true)
    (hf : find_option options (token_key arg 2) false = .ok o) (hn : o.opt.narg ≠ 0)
    (hp : find_char '=' arg = none) (hi : o.opt.has_implicit_value = false)
    (hc : o.opt.composing = false) (hx : ¬ (st.a + o.opt.narg) % SIZE_MOD < argv.length) :
    step argv options st = .error (.option_error (missing_long_what o.opt.key)) := by
  rw [step_long argv options st arg harg hne hm hd]
  simp [long_option, hf, hn, hp, hi, hc, hx]
  rfl

theorem step_long_args_wrapped (argv : string_v) (options : option_set) (st : cl_state)
    (arg : Str) (o : option_cx) (harg : argv[st.a]? = some arg) (hne : arg ≠ ['-', '-'])
    (hm : st.end_of_options_marker = false) (hd : starts_with ['-', '-'] arg = true)
    (hf : find_option options (token_key arg 2) false = .ok o) (hn : o.opt.narg ≠ 0)
    (hp : find_char '=' arg = none) (hi : o.opt.has_implicit_value = false)
    (hc : o.opt.composing = false) (hw : (st.a + o.opt.narg) % SIZE_MOD < argv.length)
    (hx : ¬ st.a + o.opt.narg < argv.length) :
    step argv options st = .error .std_exception := by
  rw [step_long argv options st arg harg hne hm hd]
  simp [long_option, hf, hn, hp, hi, hc, hw, collect_error argv o.opt.narg st.a [] hn hx]
  rfl

theorem step_short_flag (argv : string_v) (options : option_set) (st : cl_state) (arg : Str)
    (o : option_cx) (harg : argv[st.a]? = some arg) (hne : arg ≠ ['-', '-'])
    (hm : st.end_of_options_marker = false) (hd : starts_with ['-', '-'] arg = false)
    (hs : (starts_with ['-'] arg && decide (arg.length > 1)) = true)
    (hf : find_option options (token_key arg 1) true = .ok o) (hn : o.opt.narg = 0) :
    step argv options st =
      (put st.values o [[]]).map fun vs => { st with values := vs, a := st.a + 1 } := by
  rw [step_short argv options st arg harg hne hm hd hs]
  simp only [short_option, hf, hn, if_true]
  cases put st.values o [[]] <;> rfl

theorem step_short_attached (argv : string_v) (options : option_set) (st : cl_state) (arg : Str)
    (o : option_cx) (p : Nat) (harg : argv[st.a]? = some arg) (hne : arg ≠ ['-', '-'])
    (hm : st.end_of_options_marker = false) (hd : starts_with ['-', '-'] arg = false)
    (hs : (starts_with ['-'] arg && decide (arg.length > 1)) = true)
    (hf : find_option options (token_key arg 1) true = .ok o) (hn : o.opt.narg ≠ 0)
    (hp : find_char '=' arg = some p) :
    step argv options st =
      (put st.values o [token_value arg]).map
        fun vs => { st with values := vs, a := st.a + 1 } := by
  rw [step_short argv options st arg harg hne hm hd hs]
  simp only [short_option, hf, hn, hp, if_false, Option.isSome_some, if_true]
  cases put st.values o [token_value arg] <;> rfl

theorem step_short_args (argv : string_v) (options : option_set) (st : cl_state) (arg : Str)
    (o : option_cx) (harg : argv[st.a]? = some arg) (hne : arg ≠ ['-', '-'])
    (hm : st.end_of_options_marker = false) (hd : starts_with ['-', '-'] arg = false)
    (hs : (starts_with ['-'] arg && decide (arg.length > 1)) = true)
    (hf : find_option options (token_key arg 1) true = .ok o) (hn : o.opt.narg ≠ 0)
    (hp : find_char '=' arg = none) (hx : st.a + o.opt.narg < argv.length) :
    step argv options st =
      (put st.values o ((argv.drop (st.a + 1)).take o.opt.narg)).map
        fun vs => { st with values := vs, a := st.a + o.opt.narg + 1 } := by
  have hw : (st.a + o.opt.narg) % SIZE_MOD < argv.length :=
    Nat.lt_of_le_of_lt (Nat.mod_le _ _) hx
  rw [step_short argv options st arg harg hne hm hd hs]
  simp only [short_option, hf, hn, hp, hw, collect_ok argv o.opt.narg st.a [] hx,
    if_false, Option.isSome_none, Bool.false_eq_true, if_true, List.nil_append]
  cases put st.values o ((argv.drop (st.a + 1)).take o.opt.narg) <;> rfl

theorem step_short_args_missing (argv : string_v) (options : option_set) (st : cl_state)
    (arg : Str) (o : option_cx) (harg : argv[st.a]? = some arg) (hne : arg ≠ ['-', '-'])
    (hm : st.end_of_options_marker = false) (hd : starts_with ['-', '-'] arg = false)
    (hs : (starts_with ['-'] arg && decide (arg.length > 1)) = true)
    (hf : find_option options (token_key arg 1) true = .ok o) (hn : o.opt.narg ≠ 0)
    (hp : find_char '=' arg = none) (hx : ¬ (st.a + o.opt.narg) % SIZE_MOD < argv.length) :
    step argv options st = .error (.option_error (missing_short_what o.opt.key)) := by
  rw [step_short argv options st arg harg hne hm hd hs]
  simp [short_option, hf, hn, hp, hx]
  rfl

theorem step_short_args_wrapped (argv : string_v) (options : option_set) (st : cl_state)
    (arg : Str) (o : option_cx) (harg : argv[st.a]? = some arg) (hne : arg ≠ ['-', '-'])
    (hm : st.end_of_options_marker = false) (hd : starts_with ['-', '-'] arg = false)
    (hs : (starts_with ['-'] arg && decide (arg.length > 1)) = true)
    (hf : find_option options (token_key arg 1) true = .ok o) (hn : o.opt.narg ≠ 0)
    (hp : find_char '=' arg = none) (hw : (st.a + o.opt.narg) % SIZE_MOD < argv.length)
    (hx : ¬ st.a + o.opt.narg < argv.length) :
    step argv options st = .error .std_exception := by
  rw [step_short argv options st arg harg hne hm hd hs]
  simp [short_option, hf, hn, hp, hw, collect_error argv o.opt.narg st.a [] hn hx]
  rfl

/-! ## Shapes of the four token forms -/

theorem long_form_eq_ne (k v : Str) : long_form_eq k v ≠ ['-', '-'] := by
  simp [long_form_eq]

theorem long_form_eq_starts (k v : Str) : starts_with ['-', '-'] (long_form_eq k v) = true := by
  simp [long_form_eq, starts_with]

theorem long_form_ne {k : Str} (h : k ≠ []) : long_form k ≠ ['-', '-'] := by
  simp [long_form, h]

theorem long_form_starts (k : Str) : starts_with ['-', '-'] (long_form k) = true := by
  simp [long_form, starts_with]

theorem short_form_eq_ne {k : Str} (v : Str) (h : k.head? ≠ some '-') :
    short_form_eq k v ≠ ['-', '-'] := by
  cases k with
  | nil => simp [short_form_eq]
  | cons c cs => simp [short_form_eq]

theorem short_form_eq_not_long {k : Str} (v : Str) (h : k.head? ≠ some '-') :
    starts_with ['-', '-'] (short_form_eq k v) = false := by
  cases k with
  | nil => simp [short_form_eq, starts_with]
  | cons c cs =>
    have hc : c ≠ '-' := by simpa using h
    simp [short_form_eq, starts_with, Ne.symm hc]

theorem short_form_eq_short (k v : Str) :
    (starts_with ['-'] (short_form_eq k v) && decide ((short_form_eq k v).length > 1)) = true := by
  simp [short_form_eq, starts_with]

theorem short_form_ne {k : Str} (h : k.head? ≠ some '-') : short_form k ≠ ['-', '-'] := by
  cases k with
  | nil => simp [short_form]
  | cons c cs =>
    have hc : c ≠ '-' := by simpa using h
    simp [short_form, hc]

theorem short_form_not_long {k : Str} (h : k.head? ≠ some '-') :
    starts_with ['-', '-'] (short_form k) = false := by
  cases k with
  | nil => simp [short_form, starts_with]
  | cons c cs =>
    have hc : c ≠ '-' := by simpa using h
    simp [short_form, starts_with, Ne.symm hc]

theorem short_form_short {k : Str} (h : k ≠ []) :
    (starts_with ['-'] (short_form k) && decide ((short_form k).length > 1)) = true := by
  cases k with
  | nil => exact absurd rfl h
  | cons c cs => simp [short_form, starts_with]

/-! ## The value store: lemmas -/

theorem values_assign_same (vs : value_set) (id : Nat) (g : string_v) :
    values (assign vs id g) id = g := by
  induction vs with
  | nil => simp [assign, values]
  | cons e rest ih =>
    obtain ⟨k, old⟩ := e
    by_cases h : k = id
    · simp [assign, values, h]
    · simp [assign, values, h, ih]

theorem values_assign_other (vs : value_set) (id id1 : Nat) (g : string_v) (h : id1 ≠ id) :
    values (assign vs id g) id1 = values vs id1 := by
  induction vs with
  | nil => simp [assign, values, Ne.symm h]
  | cons e rest ih =>
    obtain ⟨k, old⟩ := e
    by_cases hk : k = id
    · subst hk
      simp [assign, values, Ne.symm h]
    · by_cases hk1 : k = id1
      · subst hk1
        simp [assign, values, hk]
      · simp [assign, values, hk, hk1, ih]

theorem put_composing (vs : value_set) (o : option_cx) (g : string_v)
    (hc : o.opt.composing = true) :
    put vs o g = .ok (assign vs o.id (values vs o.id ++ g)) := by
  simp [put, hc]

theorem put_unset (vs : value_set) (o : option_cx) (g : string_v)
    (hu : values vs o.id = []) : put vs o g = .ok (assign vs o.id (values vs o.id ++ g)) := by
  by_cases hc : o.opt.composing = true
  · exact put_composing vs o g hc
  · simp [put, hc, is_set, hu]

theorem put_overwriting (vs : value_set) (o : option_cx) (g : string_v)
    (hc : o.opt.composing = false) (hw : o.opt.overwriting = true) :
    put vs o g = .ok (assign vs o.id g) := by
  by_cases hs : is_set vs o.id = true
  · simp [put, hc, hs, hw]
  · simp [put, hc, hs]

theorem put_duplicate (vs : value_set) (o : option_cx) (g : string_v)
    (hc : o.opt.composing = false) (hw : o.opt.overwriting = false)
    (hs : is_set vs o.id = true) :
    put vs o g = .error (.option_error (duplicate_option_what o.opt.key)) := by
  simp [put, hc, hs, hw]

theorem put_values_same (vs vs1 : value_set) (o : option_cx) (g : string_v)
    (h : put vs o g = .ok vs1) :
    values vs1 o.id = if o.opt.composing then values vs o.id ++ g else g := by
  unfold put at h
  split at h
  · rename_i hc
    cases h
    simp [hc, values_assign_same]
  · rename_i hc
    split at h
    · cases h
      simp [hc, values_assign_same]
    · split at h
      · cases h
        simp [hc, values_assign_same]
      · cases h

theorem put_values_other (vs vs1 : value_set) (o : option_cx) (g : string_v) (id1 : Nat)
    (hne : id1 ≠ o.id) (h : put vs o g = .ok vs1) : values vs1 id1 = values vs id1 := by
  unfold put at h
  split at h
  · cases h
    exact values_assign_other _ _ _ _ hne
  · split at h
    · cases h
      exact values_assign_other _ _ _ _ hne
    · split at h
      · cases h
        exact values_assign_other _ _ _ _ hne
      · cases h

/-! ## The loop: progress and fuel -/

theorem map_ok_inv {α β : Type} {x : Except error α} {f : α → β} {b : β}
    (h : x.map f = .ok b) : ∃ a, x = .ok a ∧ f a = b := by
  cases x with
  | error e => cases h
  | ok a =>
    refine ⟨a, rfl, ?_⟩
    injection h

theorem collect_a_le (argv : string_v) (n a : Nat) (args args1 : string_v) (a1 : Nat)
    (h : collect argv n a args = .ok (args1, a1)) : a ≤ a1 := by
  induction n generalizing a args with
  | zero =>
    simp only [collect] at h
    injection h with h
    injection h with _ h
    omega
  | succ n ih =>
    rw [collect] at h
    split at h
    · cases h
    · exact Nat.le_trans (Nat.le_succ a) (ih _ _ h)

theorem long_option_a_le (argv : string_v) (options : option_set) (st s : cl_state) (arg : Str)
    (h : long_option argv options st arg = .ok s) : st.a ≤ s.a := by
  unfold long_option at h
  simp only at h
  split at h
  · cases h
  · split at h
    · obtain ⟨vs, _, rfl⟩ := map_ok_inv h
      exact Nat.le_refl _
    · split at h
      · obtain ⟨vs, _, rfl⟩ := map_ok_inv h
        exact Nat.le_refl _
      · split at h
        · obtain ⟨vs, _, rfl⟩ := map_ok_inv h
          exact Nat.le_refl _
        · split at h
          · split at h
            · cases h
            · obtain ⟨vs, _, rfl⟩ := map_ok_inv h
              exact Nat.le_succ _
          · split at h
            · split at h
              · cases h
              · rename_i hcol
                obtain ⟨vs, _, rfl⟩ := map_ok_inv h
                exact collect_a_le _ _ _ _ _ _ hcol
            · cases h

theorem short_option_a_le (argv : string_v) (options : option_set) (st s : cl_state) (arg : Str)
    (h : short_option argv options st arg = .ok s) : st.a ≤ s.a := by
  unfold short_option at h
  simp only at h
  split at h
  · cases h
  · split at h
    · obtain ⟨vs, _, rfl⟩ := map_ok_inv h
      exact Nat.le_refl _
    · split at h
      · obtain ⟨vs, _, rfl⟩ := map_ok_inv h
        exact Nat.le_refl _
      · split at h
        · split at h
          · cases h
          · rename_i hcol
            obtain ⟨vs, _, rfl⟩ := map_ok_inv h
            exact collect_a_le _ _ _ _ _ _ hcol
        · cases h

theorem step_a_lt (argv : string_v) (options : option_set) (st st1 : cl_state)
    (h : step argv options st = .ok st1) : st.a < st1.a := by
  unfold step at h
  split at h
  · cases h
  · split at h
    · cases h
      exact Nat.lt_succ_self _
    · split at h
      · split at h
        · obtain ⟨s, hs, rfl⟩ := map_ok_inv h
          exact Nat.lt_succ_of_le (long_option_a_le _ _ _ _ _ hs)
        · split at h
          · obtain ⟨s, hs, rfl⟩ := map_ok_inv h
            exact Nat.lt_succ_of_le (short_option_a_le _ _ _ _ _ hs)
          · cases h
            exact Nat.lt_succ_self _
      · cases h
        exact Nat.lt_succ_self _

theorem step_in_range (argv : string_v) (options : option_set) (st st1 : cl_state)
    (h : step argv options st = .ok st1) : st.a < argv.length := by
  unfold step at h
  split at h
  · cases h
  · rename_i arg harg
    exact (List.getElem?_eq_some.mp harg).1

theorem run_done (argv : string_v) (options : option_set) (f : Nat) (st : cl_state)
    (h : argv.length ≤ st.a) : run argv options f st = some (.ok st) := by
  have h1 : ¬ st.a < argv.length := by omega
  cases f <;> simp [run, h1]

theorem run_fuel (argv : string_v) (options : option_set) (f1 f2 : Nat) (st : cl_state)
    (h1 : argv.length ≤ st.a + f1) (h2 : argv.length ≤ st.a + f2) :
    run argv options f1 st = run argv options f2 st := by
  induction f1 generalizing f2 st with
  | zero => rw [run_done argv options 0 st (by omega), run_done argv options f2 st (by omega)]
  | succ f1 ih =>
    by_cases hlt : st.a < argv.length
    · cases f2 with
      | zero => omega
      | succ f2 =>
        simp only [run, hlt, if_true]
        cases hst : step argv options st with
        | error e => rfl
        | ok st1 =>
          have := step_a_lt argv options st st1 hst
          exact ih f2 st1 (by omega) (by omega)
    · rw [run_done argv options _ st (by omega), run_done argv options f2 st (by omega)]

theorem run_step (argv : string_v) (options : option_set) (f : Nat) (st : cl_state)
    (hlt : st.a < argv.length) (hf : argv.length ≤ st.a + f) :
    run argv options f st =
      match step argv options st with
      | .error e => some (.error e)
      | .ok st1 => run argv options f st1 := by
  cases f with
  | zero => omega
  | succ f =>
    simp only [run, hlt, if_true]
    cases hst : step argv options st with
    | error e => rfl
    | ok st1 =>
      have := step_a_lt argv options st st1 hst
      exact run_fuel argv options f (f + 1) st1 (by omega) (by omega)

theorem run_total (argv : string_v) (options : option_set) (f : Nat) (st : cl_state)
    (hf : argv.length ≤ st.a + f) : ∃ r, run argv options f st = some r := by
  induction f generalizing st with
  | zero => exact ⟨_, run_done argv options 0 st (by omega)⟩
  | succ f ih =>
    by_cases hlt : st.a < argv.length
    · simp only [run, hlt, if_true]
      cases hst : step argv options st with
      | error e => exact ⟨_, rfl⟩
      | ok st1 =>
        have := step_a_lt argv options st st1 hst
        exact ih st1 (by omega)
    · exact ⟨_, run_done argv options _ st (by omega)⟩

theorem rounds_a_le (argv : string_v) (options : option_set) (j : Nat) (st st1 : cl_state)
    (h : rounds argv options j st = .ok st1) : st.a ≤ st1.a := by
  induction j generalizing st with
  | zero =>
    simp only [rounds] at h
    injection h with h
    subst h
    exact Nat.le_refl _
  | succ j ih =>
    rw [rounds] at h
    split at h
    · cases h
    · rename_i st2 hst
      exact Nat.le_trans (Nat.le_of_lt (step_a_lt _ _ _ _ hst)) (ih _ h)

theorem run_rounds (argv : string_v) (options : option_set) (f j : Nat) (st st1 : cl_state)
    (h : rounds argv options j st = .ok st1) (hf : argv.length ≤ st.a + f) :
    run argv options f st = run argv options f st1 := by
  induction j generalizing st with
  | zero =>
    simp only [rounds] at h
    injection h with h
    subst h
    rfl
  | succ j ih =>
    rw [rounds] at h
    split at h
    · cases h
    · rename_i st2 hst
      have hlt := step_in_range _ _ _ _ hst
      have := step_a_lt _ _ _ _ hst
      rw [run_step argv options f st hlt hf, hst]
      exact ih st2 h (by omega)

/-! ## The config-file loop: lemmas -/

theorem match_value_shape {line key v : Str} (h : match_value line = some (key, v)) :
    line ≠ [] ∧ match_comment line = false ∧ match_section line = none := by
  unfold match_value at h
  split at h
  · cases h
  · rename_i k s2 htake
    have hd : ∃ c cs, line.dropWhile isspace = c :: cs ∧ option_char_first c = true := by
      cases hdw : line.dropWhile isspace with
      | nil => rw [hdw] at htake; simp [take_option_chars] at htake
      | cons c cs =>
        rw [hdw] at htake
        by_cases hc : option_char_first c = true
        · exact ⟨c, cs, rfl, hc⟩
        · simp [take_option_chars, hc] at htake
    obtain ⟨c, cs, hdw, hc⟩ := hd
    refine ⟨?_, ?_, ?_⟩
    · intro hnil
      rw [hnil] at hdw
      simp at hdw
    · unfold match_comment
      rw [hdw]
      split
      · rename_i rest heq
        injection heq with h1 _
        rw [h1] at hc
        exact absurd hc (by decide)
      · rfl
    · unfold match_section
      split
      · rename_i rest
        have h1 : ('[' :: rest).dropWhile isspace = '[' :: rest := by
          rw [List.dropWhile_cons_of_neg (by decide)]
        rw [h1] at hdw
        injection hdw with h2 _
        rw [← h2] at hc
        exact absurd hc (by decide)
      · rfl

theorem config_line_value (options : option_set) (lineno : Nat) (line key v : Str)
    (st : cf_state) (h : match_value line = some (key, v)) :
    config_line options lineno line st =
      store_line line st ((find_option options (st.cur_section ++ key) false).bind
        fun o => put st.values o [strip_quotes v]) := by
  obtain ⟨h1, h2, h3⟩ := match_value_shape h
  simp only [config_line, h1, h2, h3, h, if_false, Bool.false_eq_true]
  unfold store_line
  rfl

theorem match_section_shape {line name : Str} (h : match_section line = some name) :
    line ≠ [] ∧ match_comment line = false := by
  unfold match_section at h
  split at h
  · rename_i rest
    refine ⟨by simp, ?_⟩
    unfold match_comment
    rw [List.dropWhile_cons_of_neg (by decide)]
    simp
  · cases h

theorem config_line_section (options : option_set) (lineno : Nat) (line : Str)
    (st st1 : cf_state) (h : config_line options lineno line st = .ok st1) :
    st1.cur_section =
      match match_section line with
      | some name => name ++ ['.']
      | none => st.cur_section := by
  cases hs : match_section line with
  | some name =>
    obtain ⟨h1, h2⟩ := match_section_shape hs
    simp only [config_line, h1, h2, hs, if_false, Bool.false_eq_true] at h
    cases h
    rfl
  | none =>
    simp only
    unfold config_line at h
    split at h
    · cases h; rfl
    · split at h
      · cases h; rfl
      · rw [hs] at h
        simp only at h
        split at h
        · split at h
          · cases h; rfl
          · cases h
          · cases h
        · cases h

theorem last_section_cons (line : Str) (rest : List Str) :
    last_section (line :: rest) = (last_section rest).or (match_section line) := by
  unfold last_section
  cases hs : match_section line with
  | none => rw [List.filterMap_cons_none hs, Option.or_none]
  | some name =>
    rw [List.filterMap_cons_some hs, List.getLast?_cons]
    cases (rest.filterMap match_section).getLast? <;> rfl

theorem config_lines_section (options : option_set) (lineno : Nat) (st st1 : cf_state)
    (pre : List Str) (h : config_lines options lineno st pre = .ok st1) :
    st1.cur_section =
      match last_section pre with
      | some name => name ++ ['.']
      | none => st.cur_section := by
  induction pre generalizing lineno st with
  | nil =>
    simp only [config_lines] at h
    cases h
    rfl
  | cons line rest ih =>
    rw [config_lines] at h
    split at h
    · cases h
    · rename_i st2 hline
      have h1 := config_line_section options lineno line st st2 hline
      have h2 := ih (lineno + 1) st2 h
      rw [last_section_cons]
      rw [h2, h1]
      cases last_section rest <;> cases match_section line <;> rfl

theorem config_lines_append (options : option_set) (lineno : Nat) (st : cf_state)
    (pre rest : List Str) :
    config_lines options lineno st (pre ++ rest) =
      match config_lines options lineno st pre with
      | .error e => .error e
      | .ok st1 => config_lines options (lineno + pre.length) st1 rest := by
  induction pre generalizing lineno st with
  | nil => simp [config_lines]
  | cons line pre ih =>
    rw [List.cons_append, config_lines, config_lines]
    cases config_line options lineno line st with
    | error e => rfl
    | ok st1 =>
      simp only
      rw [ih (lineno + 1) st1]
      simp only [List.length_cons, Nat.add_assoc, Nat.add_comm 1 pre.length]

/-! ## What a successful round does -/

theorem take_one_drop (argv : string_v) (a : Nat) (x : Str) (hx : argv[a]? = some x) :
    (argv.drop a).take 1 = [x] := by
  obtain ⟨h, hget⟩ := List.getElem?_eq_some.mp hx
  rw [List.drop_eq_getElem_cons h, hget]
  rfl

theorem take_drop_ne_nil (argv : string_v) (a n : Nat) (hn : n ≠ 0) (h : a + n < argv.length) :
    (argv.drop (a + 1)).take n ≠ [] := by
  intro hnil
  have hlen := congrArg List.length hnil
  simp only [List.length_take, List.length_drop, List.length_nil] at hlen
  omega

theorem step_named_ok (argv : string_v) (options : option_set) (st st1 : cl_state) (arg : Str)
    (o : option_cx) (harg : argv[st.a]? = some arg) (hm : st.end_of_options_marker = false)
    (hnames : names options arg o) (hok : step argv options st = .ok st1) :
    put st.values o (supplied argv st arg o) = .ok st1.values ∧
    supplied argv st arg o ≠ [] ∧ st1.positional = st.positional ∧
    st1.end_of_options_marker = false := by
  obtain ⟨hne, hform⟩ := hnames
  have fin : ∀ (g : string_v) (a1 : Nat), supplied argv st arg o = g → g ≠ [] →
      step argv options st = (put st.values o g).map
        (fun vs => { st with values := vs, a := a1 }) →
      put st.values o (supplied argv st arg o) = .ok st1.values ∧
      supplied argv st arg o ≠ [] ∧ st1.positional = st.positional ∧
      st1.end_of_options_marker = false := by
    intro g a1 hg hgne hstep
    rw [hok] at hstep
    obtain ⟨vs, hput, hst⟩ := map_ok_inv hstep.symm
    rw [hg]
    subst hst
    exact ⟨hput, hgne, rfl, hm⟩
  rcases hform with ⟨hd, hf⟩ | ⟨hd, hs, hf⟩
  · by_cases hn : o.opt.narg = 0
    · exact fin [[]] _ (by simp [supplied, hn]) (by simp)
        (step_long_flag argv options st arg o harg hne hm hd hf hn)
    · cases hp : find_char '=' arg with
      | some p =>
        exact fin [token_value arg] _ (by simp [supplied, hn, hp]) (by simp)
          (step_long_attached argv options st arg o p harg hne hm hd hf hn hp)
      | none =>
        by_cases hi : o.opt.has_implicit_value = true
        · exact fin [o.opt.implicit_value.getD []] _ (by simp [supplied, hn, hp, hd, hi])
            (by simp) (step_long_implicit argv options st arg o harg hne hm hd hf hn hp hi)
        · have hi0 : o.opt.has_implicit_value = false := by simpa using hi
          by_cases hc : o.opt.composing = true
          · by_cases hx : st.a + 1 < argv.length
            · have hx1 : argv[st.a + 1]? = some argv[st.a + 1] := List.getElem?_eq_getElem hx
              exact fin [argv[st.a + 1]] _
                (by simp [supplied, hn, hp, hd, hi0, hc, take_one_drop argv _ _ hx1])
                (by simp)
                (step_long_composing argv options st arg o _ harg hne hm hd hf hn hp hi0 hc hx1)
            · rw [step_long_composing_missing argv options st arg o harg hne hm hd hf hn hp
                hi0 hc hx] at hok
              cases hok
          · have hc0 : o.opt.composing = false := by simpa using hc
            by_cases hw : (st.a + o.opt.narg) % SIZE_MOD < argv.length
            · by_cases hx : st.a + o.opt.narg < argv.length
              · exact fin _ _ (by simp [supplied, hn, hp, hd, hi0, hc0])
                  (take_drop_ne_nil argv st.a _ hn hx)
                  (step_long_args argv options st arg o harg hne hm hd hf hn hp hi0 hc0 hx)
              · rw [step_long_args_wrapped argv options st arg o harg hne hm hd hf hn hp
                  hi0 hc0 hw hx] at hok
                cases hok
            · rw [step_long_args_missing argv options st arg o harg hne hm hd hf hn hp
                hi0 hc0 hw] at hok
              cases hok
  · by_cases hn : o.opt.narg = 0
    · exact fin [[]] _ (by simp [supplied, hn]) (by simp)
        (step_short_flag argv options st arg o harg hne hm hd hs hf hn)
    · cases hp : find_char '=' arg with
      | some p =>
        exact fin [token_value arg] _ (by simp [supplied, hn, hp]) (by simp)
          (step_short_attached argv options st arg o p harg hne hm hd hs hf hn hp)
      | none =>
        by_cases hw : (st.a + o.opt.narg) % SIZE_MOD < argv.length
        · by_cases hx : st.a + o.opt.narg < argv.length
          · exact fin _ _ (by simp [supplied, hn, hp, hd])
              (take_drop_ne_nil argv st.a _ hn hx)
              (step_short_args argv options st arg o harg hne hm hd hs hf hn hp hx)
          · rw [step_short_args_wrapped argv options st arg o harg hne hm hd hs hf hn hp
              hw hx] at hok
            cases hok
        · rw [step_short_args_missing argv options st arg o harg hne hm hd hs hf hn hp
            hw] at hok
          cases hok

theorem step_ok_cases (argv : string_v) (options : option_set) (st st1 : cl_state)
    (hok : step argv options st = .ok st1) :
    st1.values = st.values ∨
    (st.end_of_options_marker = false ∧
      ∃ arg o, argv[st.a]? = some arg ∧ names options arg o) := by
  cases harg : argv[st.a]? with
  | none => simp [step, harg] at hok
  | some arg =>
    by_cases hne : arg = ['-', '-']
    · left
      rw [step_marker argv options st (by rw [harg, hne])] at hok
      cases hok
      rfl
    · rcases Bool.eq_false_or_eq_true st.end_of_options_marker with hm | hm
      · left
        rw [step_after_marker argv options st arg harg hne hm] at hok
        cases hok
        rfl
      · rcases Bool.eq_false_or_eq_true (starts_with ['-', '-'] arg) with hd | hd
        · cases hf : find_option options (token_key arg 2) false with
          | error e =>
            rw [step_long argv options st arg harg hne hm hd] at hok
            simp [long_option, hf] at hok
            cases hok
          | ok o => exact Or.inr ⟨hm, arg, o, rfl, hne, Or.inl ⟨hd, hf⟩⟩
        · rcases Bool.eq_false_or_eq_true (starts_with ['-'] arg && decide (arg.length > 1))
            with hs | hs
          · cases hf : find_option options (token_key arg 1) true with
            | error e =>
              rw [step_short argv options st arg harg hne hm hd hs] at hok
              simp [short_option, hf] at hok
              cases hok
            | ok o => exact Or.inr ⟨hm, arg, o, rfl, hne, Or.inr ⟨hd, hs, hf⟩⟩
          · left
            rw [step_positional argv options st arg harg hne hd hs] at hok
            cases hok
            rfl

theorem is_set_put_same (vs vs1 : value_set) (o : option_cx) (g : string_v)
    (h : put vs o g = .ok vs1) (hg : g ≠ []) : is_set vs1 o.id = true := by
  have hv := put_values_same vs vs1 o g h
  unfold is_set
  rw [hv]
  cases g with
  | nil => exact absurd rfl hg
  | cons x xs => split <;> simp

theorem is_set_put (vs vs1 : value_set) (o : option_cx) (g : string_v) (id : Nat)
    (h : put vs o g = .ok vs1) (hg : g ≠ []) (hs : is_set vs id = true) :
    is_set vs1 id = true := by
  by_cases hid : id = o.id
  · subst hid
    exact is_set_put_same vs vs1 o g h hg
  · unfold is_set at hs ⊢
    rw [put_values_other vs vs1 o g id hid h]
    exact hs

theorem step_is_set (argv : string_v) (options : option_set) (st st1 : cl_state) (id : Nat)
    (hok : step argv options st = .ok st1) (hs : is_set st.values id = true) :
    is_set st1.values id = true := by
  rcases step_ok_cases argv options st st1 hok with h | ⟨hm, arg, o, harg, hnames⟩
  · rw [h]; exact hs
  · obtain ⟨hput, hg, _, _⟩ := step_named_ok argv options st st1 arg o harg hm hnames hok
    exact is_set_put _ _ o _ id hput hg hs

theorem rounds_is_set (argv : string_v) (options : option_set) (j : Nat) (st st1 : cl_state)
    (id : Nat) (h : rounds argv options j st = .ok st1) (hs : is_set st.values id = true) :
    is_set st1.values id = true := by
  induction j generalizing st with
  | zero =>
    simp only [rounds] at h
    cases h
    exact hs
  | succ j ih =>
    rw [rounds] at h
    split at h
    · cases h
    · rename_i st2 hst
      exact ih st2 h (step_is_set argv options st st2 id hst hs)

theorem rounds_succ_inv (argv : string_v) (options : option_set) (j : Nat) (st st1 : cl_state)
    (h : rounds argv options (j + 1) st = .ok st1) :
    ∃ st2, step argv options st = .ok st2 ∧ rounds argv options j st2 = .ok st1 := by
  rw [rounds] at h
  split at h
  · cases h
  · rename_i st2 hst
    exact ⟨st2, hst, h⟩

theorem rounds_add (argv : string_v) (options : option_set) (i j : Nat) (st st1 st2 : cl_state)
    (h1 : rounds argv options i st = .ok st1) (h2 : rounds argv options j st1 = .ok st2) :
    rounds argv options (i + j) st = .ok st2 := by
  induction i generalizing st with
  | zero =>
    simp only [rounds] at h1
    cases h1
    simpa using h2
  | succ i ih =>
    obtain ⟨st3, hst, hr⟩ := rounds_succ_inv argv options i st st1 h1
    rw [show i + 1 + j = (i + j) + 1 by omega, rounds, hst]
    exact ih st3 hr

theorem step_named_duplicate (argv : string_v) (options : option_set) (st : cl_state)
    (arg : Str) (o : option_cx) (hnames : names options arg o)
    (hc : o.opt.composing = false) (hw : o.opt.overwriting = false)
    (hs : is_set st.values o.id = true) (st1 : cl_state)
    (harg : argv[st.a]? = some arg) (hm : st.end_of_options_marker = false) :
    step argv options st ≠ .ok st1 := by
  intro hok
  obtain ⟨hput, _, _, _⟩ := step_named_ok argv options st st1 arg o harg hm hnames hok
  rw [put_duplicate st.values o _ hc hw hs] at hput
  cases hput

theorem step_named_supplied (argv : string_v) (options : option_set) (st : cl_state)
    (arg : Str) (o : option_cx) (harg : argv[st.a]? = some arg)
    (hm : st.end_of_options_marker = false) (hnames : names options arg o)
    (hv : comes_with_values argv st arg o) :
    ∃ a1, st.a < a1 ∧ step argv options st =
      (put st.values o (supplied argv st arg o)).map
        fun vs => { st with values := vs, a := a1 } := by
  obtain ⟨hne, hform⟩ := hnames
  have fin : ∀ (g : string_v) (a1 : Nat), supplied argv st arg o = g → st.a < a1 →
      step argv options st = (put st.values o g).map
        (fun vs => { st with values := vs, a := a1 }) →
      ∃ a1, st.a < a1 ∧ step argv options st =
        (put st.values o (supplied argv st arg o)).map
          fun vs => { st with values := vs, a := a1 } := by
    intro g a1 hg ha hstep
    exact ⟨a1, ha, by rw [hg]; exact hstep⟩
  rcases hform with ⟨hd, hf⟩ | ⟨hd, hs, hf⟩
  · by_cases hn : o.opt.narg = 0
    · exact fin [[]] _ (by simp [supplied, hn]) (Nat.lt_succ_self _)
        (step_long_flag argv options st arg o harg hne hm hd hf hn)
    · cases hp : find_char '=' arg with
      | some p =>
        exact fin [token_value arg] _ (by simp [supplied, hn, hp]) (Nat.lt_succ_self _)
          (step_long_attached argv options st arg o p harg hne hm hd hf hn hp)
      | none =>
        by_cases hi : o.opt.has_implicit_value = true
        · exact fin [o.opt.implicit_value.getD []] _ (by simp [supplied, hn, hp, hd, hi])
            (Nat.lt_succ_self _)
            (step_long_implicit argv options st arg o harg hne hm hd hf hn hp hi)
        · have hi0 : o.opt.has_implicit_value = false := by simpa using hi
          by_cases hc : o.opt.composing = true
          · have hx : st.a + 1 < argv.length := by
              simpa [comes_with_values, hn, hp, hd, hi0, hc] using hv
            have hx1 : argv[st.a + 1]? = some argv[st.a + 1] := List.getElem?_eq_getElem hx
            exact fin [argv[st.a + 1]] _
              (by simp [supplied, hn, hp, hd, hi0, hc, take_one_drop argv _ _ hx1])
              (by omega)
              (step_long_composing argv options st arg o _ harg hne hm hd hf hn hp hi0 hc hx1)
          · have hc0 : o.opt.composing = false := by simpa using hc
            have hx : st.a + o.opt.narg < argv.length := by
              simpa [comes_with_values, hn, hp, hd, hi0, hc0] using hv
            exact fin _ _ (by simp [supplied, hn, hp, hd, hi0, hc0]) (by omega)
              (step_long_args argv options st arg o harg hne hm hd hf hn hp hi0 hc0 hx)
  · by_cases hn : o.opt.narg = 0
    · exact fin [[]] _ (by simp [supplied, hn]) (Nat.lt_succ_self _)
        (step_short_flag argv options st arg o harg hne hm hd hs hf hn)
    · cases hp : find_char '=' arg with
      | some p =>
        exact fin [token_value arg] _ (by simp [supplied, hn, hp]) (Nat.lt_succ_self _)
          (step_short_attached argv options st arg o p harg hne hm hd hs hf hn hp)
      | none =>
        have hx : st.a + o.opt.narg < argv.length := by
          simpa [comes_with_values, hn, hp, hd] using hv
        exact fin _ _ (by simp [supplied, hn, hp, hd]) (by omega)
          (step_short_args argv options st arg o harg hne hm hd hs hf hn hp hx)

theorem step_named_missing (argv : string_v) (options : option_set) (st : cl_state)
    (arg : Str) (o : option_cx) (harg : argv[st.a]? = some arg)
    (hm : st.end_of_options_marker = false) (hnames : names options arg o)
    (hc : o.opt.composing = false) (hv : ¬ comes_with_values argv st arg o)
    (hr : st.a + o.opt.narg < SIZE_MOD) :
    step argv options st = .error (.option_error (missing_long_what o.opt.key)) ∨
    step argv options st = .error (.option_error (missing_short_what o.opt.key)) := by
  obtain ⟨hne, hform⟩ := hnames
  simp only [comes_with_values, not_or] at hv
  obtain ⟨hn, hp, hi, hx⟩ := hv
  have hp0 : find_char '=' arg = none := by
    cases h : find_char '=' arg with
    | none => rfl
    | some p => simp [h] at hp
  have hx1 : ¬ st.a + o.opt.narg < argv.length := by
    simpa [hc] using hx
  have hw : ¬ (st.a + o.opt.narg) % SIZE_MOD < argv.length := by
    rw [Nat.mod_eq_of_lt hr]; exact hx1
  rcases hform with ⟨hd, hf⟩ | ⟨hd, hs, hf⟩
  · left
    have hi0 : o.opt.has_implicit_value = false := by
      cases h : o.opt.has_implicit_value with
      | false => rfl
      | true => exact absurd ⟨hd, h⟩ hi
    exact step_long_args_missing argv options st arg o harg hne hm hd hf hn hp0 hi0 hc hw
  · right
    exact step_short_args_missing argv options st arg o harg hne hm hd hs hf hn hp0 hw

/-! ## Occurrences of an option without an attached value -/

theorem step_long_bare_args (argv : string_v) (options : option_set) (st : cl_state) (k : Str)
    (o : option_cx) (harg : argv[st.a]? = some (long_form k)) (hk0 : k ≠ []) (hk : '=' ∉ k)
    (hm : st.end_of_options_marker = false) (hf : find_option options k false = .ok o)
    (hn : 1 ≤ o.opt.narg) (hi : o.opt.implicit_value = none) (hc : o.opt.composing = false)
    (hr : st.a + o.opt.narg < SIZE_MOD) :
    step argv options st =
      if st.a + o.opt.narg < argv.length then
        (put st.values o ((argv.drop (st.a + 1)).take o.opt.narg)).map
          fun vs => { st with values := vs, a := st.a + o.opt.narg + 1 }
      else .error (.option_error (missing_long_what o.opt.key)) := by
  have hf1 : find_option options (token_key (long_form k) 2) false = .ok o := by
    rw [token_key_long_form hk]; exact hf
  have hi1 : o.opt.has_implicit_value = false := by simp [option.has_implicit_value, hi]
  by_cases hx : st.a + o.opt.narg < argv.length
  · rw [if_pos hx]
    exact step_long_args argv options st _ o harg (long_form_ne hk0) hm (long_form_starts k)
      hf1 (by omega) (find_char_long_form hk) hi1 hc hx
  · rw [if_neg hx]
    exact step_long_args_missing argv options st _ o harg (long_form_ne hk0) hm
      (long_form_starts k) hf1 (by omega) (find_char_long_form hk) hi1 hc
      (by rw [Nat.mod_eq_of_lt hr]; exact hx)

theorem step_short_bare_args (argv : string_v) (options : option_set) (st : cl_state) (k : Str)
    (o : option_cx) (harg : argv[st.a]? = some (short_form k)) (hk0 : k ≠ []) (hk : '=' ∉ k)
    (hd : k.head? ≠ some '-') (hm : st.end_of_options_marker = false)
    (hf : find_option options k true = .ok o) (hn : 1 ≤ o.opt.narg)
    (hr : st.a + o.opt.narg < SIZE_MOD) :
    step argv options st =
      if st.a + o.opt.narg < argv.length then
        (put st.values o ((argv.drop (st.a + 1)).take o.opt.narg)).map
          fun vs => { st with values := vs, a := st.a + o.opt.narg + 1 }
      else .error (.option_error (missing_short_what o.opt.key)) := by
  have hf1 : find_option options (token_key (short_form k) 1) true = .ok o := by
    rw [token_key_short_form hk]; exact hf
  by_cases hx : st.a + o.opt.narg < argv.length
  · rw [if_pos hx]
    exact step_short_args argv options st _ o harg (short_form_ne hd) hm (short_form_not_long hd)
      (short_form_short hk0) hf1 (by omega) (find_char_short_form hk) hx
  · rw [if_neg hx]
    exact step_short_args_missing argv options st _ o harg (short_form_ne hd) hm
      (short_form_not_long hd) (short_form_short hk0) hf1 (by omega) (find_char_short_form hk)
      (by rw [Nat.mod_eq_of_lt hr]; exact hx)

theorem strip_quotes_quoted (q : Char) (mid : Str) (hq : q = '\'' ∨ q = '"') :
    strip_quotes (q :: (mid ++ [q])) = mid := by
  have hlast : (q :: (mid ++ [q])).getLast? = some q := by
    rw [← List.cons_append, List.getLast?_concat]
  have hcond : (q :: (mid ++ [q])).length ≥ 2 ∧
      ((q :: (mid ++ [q])).head? = some '\'' ∨ (q :: (mid ++ [q])).head? = some '"') ∧
      (q :: (mid ++ [q])).head? = (q :: (mid ++ [q])).getLast? := by
    refine ⟨by simp, ?_, ?_⟩
    · rcases hq with h | h
      · left; simp [h]
      · right; simp [h]
    · rw [hlast]; rfl
  unfold strip_quotes
  rw [if_pos hcond]
  simp [substr]

theorem strip_quotes_plain (v : Str)
    (h : ∀ (q : Char) (mid : Str), (q = '\'' ∨ q = '"') → v ≠ q :: (mid ++ [q])) :
    strip_quotes v = v := by
  unfold strip_quotes
  split
  · rename_i hcond
    obtain ⟨hlen, hq, hlast⟩ := hcond
    exfalso
    cases v with
    | nil => simp at hlen
    | cons c t =>
      cases t with
      | nil => simp at hlen
      | cons d t1 =>
        have hl : (d :: t1).getLast? = some c := by
          rw [List.getLast?_cons_cons] at hlast
          simpa using hlast.symm
        obtain ⟨ys, hys⟩ := List.getLast?_eq_some_iff.mp hl
        refine h c ys ?_ (by rw [hys])
        rcases hq with h1 | h1
        · left; simpa using h1
        · right; simpa using h1
  · rfl

/-! ## What a successful config line does to the store -/

theorem store_line_ok_inv {line : Str} {st st1 : cf_state} {r : Except error value_set}
    (h : store_line line st r = .ok st1) : ∃ vs, r = .ok vs ∧ st1 = { st with values := vs } := by
  unfold store_line at h
  split at h
  · rename_i vs
    cases h
    exact ⟨vs, rfl, rfl⟩
  · cases h
  · cases h

theorem bind_ok_inv {α β : Type} {x : Except error α} {f : α → Except error β} {b : β}
    (h : x.bind f = .ok b) : ∃ a, x = .ok a ∧ f a = .ok b := by
  cases x with
  | error e => cases h
  | ok a => exact ⟨a, rfl, h⟩

theorem config_line_ok_cases (options : option_set) (lineno : Nat) (line : Str)
    (st st1 : cf_state) (h : config_line options lineno line st = .ok st1) :
    st1.values = st.values ∨
    ∃ key v o, match_value line = some (key, v) ∧
      find_option options (st.cur_section ++ key) false = .ok o ∧
      put st.values o [strip_quotes v] = .ok st1.values := by
  cases hv : match_value line with
  | some kv =>
    obtain ⟨key, v⟩ := kv
    rw [config_line_value options lineno line key v st hv] at h
    obtain ⟨vs, hr, hst⟩ := store_line_ok_inv h
    obtain ⟨o, hf, hput⟩ := bind_ok_inv hr
    right
    refine ⟨key, v, o, rfl, hf, ?_⟩
    rw [hst]
    exact hput
  | none =>
    left
    unfold config_line at h
    split at h
    · cases h; rfl
    · split at h
      · cases h; rfl
      · split at h
        · cases h; rfl
        · rw [hv] at h
          cases h

theorem config_line_is_set (options : option_set) (lineno : Nat) (line : Str)
    (st st1 : cf_state) (id : Nat) (h : config_line options lineno line st = .ok st1)
    (hs : is_set st.values id = true) : is_set st1.values id = true := by
  rcases config_line_ok_cases options lineno line st st1 h with h1 | ⟨key, v, o, _, _, hput⟩
  · rw [h1]; exact hs
  · exact is_set_put _ _ o _ id hput (by simp) hs

theorem config_lines_is_set (options : option_set) (lineno : Nat) (lines : List Str)
    (st st1 : cf_state) (id : Nat) (h : config_lines options lineno st lines = .ok st1)
    (hs : is_set st.values id = true) : is_set st1.values id = true := by
  induction lines generalizing lineno st with
  | nil =>
    simp only [config_lines] at h
    cases h
    exact hs
  | cons line rest ih =>
    rw [config_lines] at h
    split at h
    · cases h
    · rename_i st2 hline
      exact ih (lineno + 1) st2 h (config_line_is_set options lineno line st st2 id hline hs)

theorem config_lines_cons_ok_inv (options : option_set) (lineno : Nat) (line : Str)
    (rest : List Str) (st st1 : cf_state)
    (h : config_lines options lineno st (line :: rest) = .ok st1) :
    ∃ st2, config_line options lineno line st = .ok st2 ∧
      config_lines options (lineno + 1) st2 rest = .ok st1 := by
  rw [config_lines] at h
  split at h
  · cases h
  · rename_i st2 hline
    exact ⟨st2, hline, h⟩

theorem config_duplicate (options : option_set) (infile : Str) (pre1 mid post : List Str)
    (line1 line2 key1 v1 key2 v2 : Str) (s1 s2 : cf_state) (o : option_cx)
    (hl : getlines infile = pre1 ++ line1 :: (mid ++ line2 :: post))
    (hv1 : match_value line1 = some (key1, v1))
    (hpre1 : config_lines options 1 cf_init pre1 = .ok s1)
    (hf1 : find_option options (s1.cur_section ++ key1) false = .ok o)
    (hv2 : match_value line2 = some (key2, v2))
    (hpre2 : config_lines options 1 cf_init (pre1 ++ line1 :: mid) = .ok s2)
    (hf2 : find_option options (s2.cur_section ++ key2) false = .ok o)
    (hc : o.opt.composing = false) (hw : o.opt.overwriting = false) :
    parse_config_file infile options =
      .error (.option_error (lineno_what line2 (duplicate_option_what o.opt.key))) := by
  have hset : is_set s2.values o.id = true := by
    have happ := config_lines_append options 1 cf_init pre1 (line1 :: mid)
    rw [hpre2, hpre1] at happ
    simp only at happ
    obtain ⟨s3, hline, hrest⟩ := config_lines_cons_ok_inv options _ line1 mid s1 s2 happ.symm
    rw [config_line_value options _ line1 key1 v1 s1 hv1] at hline
    obtain ⟨vs, hr, hst⟩ := store_line_ok_inv hline
    rw [hf1] at hr
    have hput : put s1.values o [strip_quotes v1] = .ok vs := hr
    have h3 : is_set s3.values o.id = true := by
      rw [hst]
      exact is_set_put_same _ _ o _ hput (by simp)
    exact config_lines_is_set options _ mid s3 s2 o.id hrest h3
  unfold parse_config_file
  rw [hl, show pre1 ++ line1 :: (mid ++ line2 :: post) = (pre1 ++ line1 :: mid) ++ line2 :: post
    by simp]
  have happ := config_lines_append options 1 cf_init (pre1 ++ line1 :: mid) (line2 :: post)
  rw [hpre2] at happ
  rw [show (⟨[], []⟩ : cf_state) = cf_init from rfl, happ]
  simp only
  rw [config_lines, config_line_value options _ line2 key2 v2 s2 hv2, hf2]
  have hput : (Except.ok o : Except error option_cx).bind
      (fun o => put s2.values o [strip_quotes v2])
      = .error (.option_error (duplicate_option_what o.opt.key)) :=
    put_duplicate s2.values o _ hc hw hset
  rw [hput]
  rfl

theorem command_line_duplicate (argv : string_v) (options : option_set)
    (positional : string_v) (j1 j2 : Nat) (sa sb : cl_state) (arg1 arg2 : Str) (o : option_cx)
    (hra : rounds argv options j1 (cl_init positional) = .ok sa)
    (harg1 : argv[sa.a]? = some arg1) (hm1 : sa.end_of_options_marker = false)
    (hn1 : names options arg1 o)
    (hrb : rounds argv options (j2 + 1) sa = .ok sb)
    (harg2 : argv[sb.a]? = some arg2) (hm2 : sb.end_of_options_marker = false)
    (hn2 : names options arg2 o)
    (hc : o.opt.composing = false) (hw : o.opt.overwriting = false) :
    ∃ e, parse_command_line argv options positional = some (.error e) ∧
      (comes_with_values argv sb arg2 o →
        e = .option_error (duplicate_option_what o.opt.key)) ∧
      (sb.a + o.opt.narg < SIZE_MOD → ∃ what, e = .option_error what) := by
  obtain ⟨sa1, hstep1, hrest⟩ := rounds_succ_inv argv options j2 sa sb hrb
  obtain ⟨_, hg, _, _⟩ := step_named_ok argv options sa sa1 arg1 o harg1 hm1 hn1 hstep1
  have hset1 : is_set sa1.values o.id = true := by
    obtain ⟨hput, hg, _, _⟩ := step_named_ok argv options sa sa1 arg1 o harg1 hm1 hn1 hstep1
    exact is_set_put_same _ _ o _ hput hg
  have hset : is_set sb.values o.id = true :=
    rounds_is_set argv options j2 sa1 sb o.id hrest hset1
  have hlt : sb.a < argv.length := (List.getElem?_eq_some.mp harg2).1
  have hrun : run argv options argv.length (cl_init positional)
      = run argv options argv.length sb :=
    run_rounds argv options argv.length (j1 + (j2 + 1)) (cl_init positional) sb
      (rounds_add argv options j1 (j2 + 1) _ sa sb hra hrb) (by simp [cl_init])
  have hparse : ∀ e, step argv options sb = .error e →
      parse_command_line argv options positional = some (.error e) := by
    intro e he
    unfold parse_command_line
    rw [show (⟨0, [], positional, false⟩ : cl_state) = cl_init positional from rfl, hrun,
      run_step argv options argv.length sb hlt (by omega), he]
    rfl
  cases hstep : step argv options sb with
  | ok sb1 =>
    exact absurd hstep (step_named_duplicate argv options sb arg2 o hn2 hc hw hset sb1 harg2 hm2)
  | error e =>
    refine ⟨e, hparse e hstep, ?_, ?_⟩
    · intro hv
      obtain ⟨a1, _, heq⟩ := step_named_supplied argv options sb arg2 o harg2 hm2 hn2 hv
      rw [put_duplicate sb.values o _ hc hw hset, hstep] at heq
      injection heq
    · intro hr
      by_cases hv : comes_with_values argv sb arg2 o
      · obtain ⟨a1, _, heq⟩ := step_named_supplied argv options sb arg2 o harg2 hm2 hn2 hv
        rw [put_duplicate sb.values o _ hc hw hset, hstep] at heq
        injection heq with heq
        exact ⟨_, heq⟩
      · rcases step_named_missing argv options sb arg2 o harg2 hm2 hn2 hc hv hr with h | h
        · rw [hstep] at h
          injection h with h
          exact ⟨_, h⟩
        · rw [hstep] at h
          injection h with h
          exact ⟨_, h⟩

/-! ## Runs as sequences of rounds -/

theorem run_ok_rounds (argv : string_v) (options : option_set) (f : Nat) (st st1 : cl_state)
    (h : run argv options f st = some (.ok st1)) :
    ∃ j, rounds argv options j st = .ok st1 ∧ argv.length ≤ st1.a := by
  induction f generalizing st with
  | zero =>
    simp only [run] at h
    split at h
    · cases h
    · rename_i hlt
      injection h with h
      injection h with h
      subst h
      exact ⟨0, rfl, by omega⟩
  | succ f ih =>
    simp only [run] at h
    split at h
    · split at h
      · cases h
      · rename_i st2 hst
        obtain ⟨j, hj, hle⟩ := ih st2 h
        refine ⟨j + 1, ?_, hle⟩
        rw [rounds, hst]
        exact hj
    · rename_i hlt
      injection h with h
      injection h with h
      subst h
      exact ⟨0, rfl, by omega⟩

theorem rounds_values_frame (argv : string_v) (options : option_set) (j : Nat)
    (st st1 : cl_state) (id : Nat) (h : rounds argv options j st = .ok st1)
    (hlater : ∀ (i : Nat) (s : cl_state), rounds argv options i st = .ok s →
      ∀ (arg : Str), argv[s.a]? = some arg → s.end_of_options_marker = false →
      ∀ (o1 : option_cx), names options arg o1 → o1.id ≠ id) :
    values st1.values id = values st.values id := by
  induction j generalizing st with
  | zero =>
    simp only [rounds] at h
    cases h
    rfl
  | succ j ih =>
    obtain ⟨st2, hst, hrest⟩ := rounds_succ_inv argv options j st st1 h
    have h2 : values st2.values id = values st.values id := by
      rcases step_ok_cases argv options st st2 hst with hsame | ⟨hm, arg, o1, harg, hnames⟩
      · rw [hsame]
      · obtain ⟨hput, _, _, _⟩ := step_named_ok argv options st st2 arg o1 harg hm hnames hst
        have hne := hlater 0 st rfl arg harg hm o1 hnames
        exact put_values_other _ _ o1 _ id (Ne.symm hne) hput
    rw [← h2]
    apply ih st2 hrest
    intro i s hs arg harg hm o1 hnames
    refine hlater (i + 1) s ?_ arg harg hm o1 hnames
    rw [rounds, hst]
    exact hs

theorem parse_ok_rounds (argv : string_v) (options : option_set) (positional : string_v)
    (j : Nat) (st : cl_state) (vs : value_set) (pos : string_v)
    (hr : rounds argv options j (cl_init positional) = .ok st)
    (hp : parse_command_line argv options positional = some (.ok (vs, pos))) :
    ∃ i st1, rounds argv options i st = .ok st1 ∧ argv.length ≤ st1.a ∧
      st1.values = vs ∧ st1.positional = pos := by
  unfold parse_command_line at hp
  rw [show (⟨0, [], positional, false⟩ : cl_state) = cl_init positional from rfl,
    run_rounds argv options argv.length j (cl_init positional) st hr (by simp [cl_init])] at hp
  cases hrun : run argv options argv.length st with
  | none => rw [hrun] at hp; cases hp
  | some r =>
    rw [hrun] at hp
    cases r with
    | error e =>
      simp only [Option.map_some', Except.map] at hp
      cases hp
    | ok st1 =>
      simp only [Option.map_some', Except.map] at hp
      injection hp with hp
      injection hp with hp
      injection hp with h1 h2
      obtain ⟨i, hi, hle⟩ := run_ok_rounds argv options argv.length st st1 hrun
      exact ⟨i, st1, hi, hle, h1, h2⟩

theorem parse_command_line_total (argv : string_v) (options : option_set)
    (positional : string_v) : ∃ r, parse_command_line argv options positional = some r := by
  obtain ⟨r, hr⟩ := run_total argv options argv.length (cl_init positional) (by simp [cl_init])
  refine ⟨r.map fun st => (st.values, st.positional), ?_⟩
  unfold parse_command_line
  rw [show (⟨0, [], positional, false⟩ : cl_state) = cl_init positional from rfl, hr]
  rfl

/-! ## Rounds that fail for lack of arguments -/

theorem missing_long_ne_duplicate (k k1 : Str) :
    missing_long_what k ≠ duplicate_option_what k1 := by
  intro h
  have h1 : (missing_long_what k).head? = (duplicate_option_what k1).head? := by rw [h]
  have h2 : (missing_long_what k).head? = some 'M' := rfl
  have h3 : (duplicate_option_what k1).head? = some 'o' := rfl
  rw [h2, h3] at h1
  exact absurd h1 (by decide)

theorem missing_short_ne_duplicate (k k1 : Str) :
    missing_short_what k ≠ duplicate_option_what k1 := by
  intro h
  have h1 : (missing_short_what k).head? = (duplicate_option_what k1).head? := by rw [h]
  have h2 : (missing_short_what k).head? = some 'M' := rfl
  have h3 : (duplicate_option_what k1).head? = some 'o' := rfl
  rw [h2, h3] at h1
  exact absurd h1 (by decide)

theorem step_named_lacking (argv : string_v) (options : option_set) (st : cl_state)
    (arg : Str) (o : option_cx) (harg : argv[st.a]? = some arg)
    (hm : st.end_of_options_marker = false) (hnames : names options arg o)
    (hc : o.opt.composing = false) (hv : ¬ comes_with_values argv st arg o) :
    step argv options st = .error (.option_error (missing_long_what o.opt.key)) ∨
    step argv options st = .error (.option_error (missing_short_what o.opt.key)) ∨
    step argv options st = .error .std_exception := by
  by_cases hr : (st.a + o.opt.narg) % SIZE_MOD < argv.length
  · right; right
    obtain ⟨hne, hform⟩ := hnames
    simp only [comes_with_values, not_or] at hv
    obtain ⟨hn, hp, hi, hx⟩ := hv
    have hp0 : find_char '=' arg = none := by
      cases h : find_char '=' arg with
      | none => rfl
      | some p => simp [h] at hp
    have hx1 : ¬ st.a + o.opt.narg < argv.length := by
      simpa [hc] using hx
    rcases hform with ⟨hd, hf⟩ | ⟨hd, hs, hf⟩
    · have hi0 : o.opt.has_implicit_value = false := by
        cases h : o.opt.has_implicit_value with
        | false => rfl
        | true => exact absurd ⟨hd, h⟩ hi
      exact step_long_args_wrapped argv options st arg o harg hne hm hd hf hn hp0 hi0 hc hr hx1
    · exact step_short_args_wrapped argv options st arg o harg hne hm hd hs hf hn hp0 hr hx1
  · obtain ⟨hne, hform⟩ := hnames
    simp only [comes_with_values, not_or] at hv
    obtain ⟨hn, hp, hi, hx⟩ := hv
    have hp0 : find_char '=' arg = none := by
      cases h : find_char '=' arg with
      | none => rfl
      | some p => simp [h] at hp
    rcases hform with ⟨hd, hf⟩ | ⟨hd, hs, hf⟩
    · left
      have hi0 : o.opt.has_implicit_value = false := by
        cases h : o.opt.has_implicit_value with
        | false => rfl
        | true => exact absurd ⟨hd, h⟩ hi
      exact step_long_args_missing argv options st arg o harg hne hm hd hf hn hp0 hi0 hc hr
    · right; left
      exact step_short_args_missing argv options st arg o harg hne hm hd hs hf hn hp0 hr

/-! ## Command lines made of occurrences of a composing option -/

theorem getElem?_append_length {α : Type} (pre : List α) (x : α) (rest : List α) :
    (pre ++ x :: rest)[pre.length]? = some x := by
  rw [List.getElem?_append_right (Nat.le_refl _)]
  simp

theorem getElem?_append_length_succ {α : Type} (pre : List α) (x y : α) (rest : List α) :
    (pre ++ x :: y :: rest)[pre.length + 1]? = some y := by
  rw [List.getElem?_append_right (by omega)]
  simp

theorem step_occurrence (argv : string_v) (options : option_set) (o : option_cx)
    (c : occurrence) (pre rest : string_v) (st : cl_state)
    (hargv : argv = pre ++ (c.tokens ++ rest)) (ha : st.a = pre.length)
    (hm : st.end_of_options_marker = false) (hof : c.of options o)
    (hc : o.opt.composing = true) (hn : o.opt.narg = 1) (hi : o.opt.implicit_value = none) :
    step argv options st = .ok { st with
      values := assign st.values o.id (values st.values o.id ++ [c.value]),
      a := (pre ++ c.tokens).length } := by
  obtain ⟨form, k, v⟩ := c
  obtain ⟨hk, hform⟩ := hof
  simp only at hk hform
  have hn0 : o.opt.narg ≠ 0 := by omega
  have hi0 : o.opt.has_implicit_value = false := by simp [option.has_implicit_value, hi]
  cases form with
  | long_eq =>
    simp only [occurrence.tokens, List.singleton_append] at hargv hform ⊢
    have harg : argv[st.a]? = some (long_form_eq k v) := by
      rw [hargv, ha]; exact getElem?_append_length _ _ _
    have h := step_long_attached argv options st _ o _ harg (long_form_eq_ne k v) hm
      (long_form_eq_starts k v) (by rw [token_key_long_form_eq v hk]; exact hform) hn0
      (find_char_long_form_eq v hk)
    rw [h, token_value_long_form_eq v hk, put_composing _ _ _ hc]
    simp [Except.map, ha]
  | long_next =>
    simp only [occurrence.tokens, List.cons_append, List.nil_append] at hargv hform ⊢
    have harg : argv[st.a]? = some (long_form k) := by
      rw [hargv, ha]; exact getElem?_append_length _ _ _
    have hx : argv[st.a + 1]? = some v := by
      rw [hargv, ha]; exact getElem?_append_length_succ _ _ _ _
    have h := step_long_composing argv options st _ o v harg (long_form_ne hform.1) hm
      (long_form_starts k) (by rw [token_key_long_form hk]; exact hform.2) hn0
      (find_char_long_form hk) hi0 hc hx
    rw [h, put_composing _ _ _ hc]
    simp [Except.map, ha]
  | short_eq =>
    simp only [occurrence.tokens, List.singleton_append] at hargv hform ⊢
    have harg : argv[st.a]? = some (short_form_eq k v) := by
      rw [hargv, ha]; exact getElem?_append_length _ _ _
    have h := step_short_attached argv options st _ o _ harg (short_form_eq_ne v hform.1) hm
      (short_form_eq_not_long v hform.1) (short_form_eq_short k v)
      (by rw [token_key_short_form_eq v hk]; exact hform.2) hn0
      (find_char_short_form_eq v hk)
    rw [h, token_value_short_form_eq v hk, put_composing _ _ _ hc]
    simp [Except.map, ha]
  | short_next =>
    simp only [occurrence.tokens, List.cons_append, List.nil_append] at hargv hform ⊢
    have harg : argv[st.a]? = some (short_form k) := by
      rw [hargv, ha]; exact getElem?_append_length _ _ _
    have hx : argv[st.a + 1]? = some v := by
      rw [hargv, ha]; exact getElem?_append_length_succ _ _ _ _
    have hlen : st.a + o.opt.narg < argv.length := by
      rw [hn]; exact (List.getElem?_eq_some.mp hx).1
    have h := step_short_args argv options st _ o harg (short_form_ne hform.2.1) hm
      (short_form_not_long hform.2.1) (short_form_short hform.1)
      (by rw [token_key_short_form hk]; exact hform.2.2) hn0 (find_char_short_form hk) hlen
    rw [h, hn, take_one_drop argv _ v hx, put_composing _ _ _ hc]
    simp [Except.map, ha]

theorem run_occurrences (options : option_set) (o : option_cx)
    (hc : o.opt.composing = true) (hn : o.opt.narg = 1) (hi : o.opt.implicit_value = none)
    (occs : List occurrence) (hof : ∀ c ∈ occs, c.of options o) (argv pre : string_v)
    (st : cl_state) (hargv : argv = pre ++ command_line_of occs) (ha : st.a = pre.length)
    (hm : st.end_of_options_marker = false) :
    ∃ st1, run argv options argv.length st = some (.ok st1) ∧
      st1.positional = st.positional ∧
      values st1.values o.id = values st.values o.id ++ occs.map (fun c => c.value) := by
  induction occs generalizing pre st with
  | nil =>
    refine ⟨st, run_done argv options _ st ?_, rfl, by simp⟩
    rw [hargv, ha]
    simp [command_line_of]
  | cons c cs ih =>
    simp only [command_line_of] at hargv
    have hstep := step_occurrence argv options o c pre (command_line_of cs) st hargv ha hm
      (hof c (List.mem_cons_self _ _)) hc hn hi
    have hlt : st.a < argv.length := step_in_range argv options st _ hstep
    rw [run_step argv options argv.length st hlt (by omega), hstep]
    simp only
    obtain ⟨st1, hrun, hpos, hval⟩ := ih (fun c1 h1 => hof c1 (List.mem_cons_of_mem _ h1))
      (pre ++ c.tokens)
      { st with values := assign st.values o.id (values st.values o.id ++ [c.value]),
                a := (pre ++ c.tokens).length }
      (by rw [hargv, List.append_assoc]) rfl hm
    refine ⟨st1, hrun, hpos, ?_⟩
    rw [hval]
    simp [values_assign_same]

/-! ## Tokens of the four forms name their option -/

theorem names_long_form_eq (options : option_set) (k x : Str) (o : option_cx) (hk : '=' ∉ k)
    (hf : find_option options k false = .ok o) : names options (long_form_eq k x) o :=
  ⟨long_form_eq_ne k x, Or.inl ⟨long_form_eq_starts k x,
    by rw [token_key_long_form_eq x hk]; exact hf⟩⟩

theorem names_long_form (options : option_set) (k : Str) (o : option_cx) (hk : '=' ∉ k)
    (hk0 : k ≠ []) (hf : find_option options k false = .ok o) :
    names options (long_form k) o :=
  ⟨long_form_ne hk0, Or.inl ⟨long_form_starts k, by rw [token_key_long_form hk]; exact hf⟩⟩

theorem names_short_form_eq (options : option_set) (k x : Str) (o : option_cx) (hk : '=' ∉ k)
    (hd : k.head? ≠ some '-') (hf : find_option options k true = .ok o) :
    names options (short_form_eq k x) o :=
  ⟨short_form_eq_ne x hd, Or.inr ⟨short_form_eq_not_long x hd, short_form_eq_short k x,
    by rw [token_key_short_form_eq x hk]; exact hf⟩⟩

theorem names_short_form (options : option_set) (k : Str) (o : option_cx) (hk : '=' ∉ k)
    (hk0 : k ≠ []) (hd : k.head? ≠ some '-') (hf : find_option options k true = .ok o) :
    names options (short_form k) o :=
  ⟨short_form_ne hd, Or.inr ⟨short_form_not_long hd, short_form_short hk0,
    by rw [token_key_short_form hk]; exact hf⟩⟩

theorem put_error_inv (vs : value_set) (o : option_cx) (g : string_v) (e : error)
    (h : put vs o g = .error e) : e = .option_error (duplicate_option_what o.opt.key) := by
  unfold put at h
  split at h
  · cases h
  · split at h
    · cases h
    · split at h
      · cases h
      · injection h with h
        exact h.symm

/-! ## Appending tokens to a command line that parses -/

theorem collect_extend (pre rest : string_v) (n a : Nat) (args : string_v)
    (r : string_v × Nat) (h : collect pre n a args = .ok r) :
    collect (pre ++ rest) n a args = .ok r := by
  induction n generalizing a args with
  | zero => simpa [collect] using h
  | succ n ih =>
    rw [collect] at h ⊢
    cases hx : pre[a + 1]? with
    | none => rw [hx] at h; cases h
    | some x =>
      rw [hx] at h
      have hlt : a + 1 < pre.length := (List.getElem?_eq_some.mp hx).1
      rw [List.getElem?_append_left hlt, hx]
      exact ih (a + 1) _ h

theorem collect_a_lt_length (argv : string_v) (n a : Nat) (args args1 : string_v) (a1 : Nat)
    (hn : n ≠ 0) (h : collect argv n a args = .ok (args1, a1)) : a1 < argv.length := by
  by_cases hx : a + n < argv.length
  · rw [collect_ok argv n a args hx] at h
    injection h with h
    injection h with _ h
    omega
  · rw [collect_error argv n a args hn hx] at h
    cases h

theorem long_option_extend (pre rest : string_v) (options : option_set) (st s : cl_state)
    (arg : Str) (h : long_option pre options st arg = .ok s) :
    long_option (pre ++ rest) options st arg = .ok s ∧ s.a < pre.length ∨
    long_option (pre ++ rest) options st arg = .ok s ∧ s.a = st.a := by
  unfold long_option at h ⊢
  simp only at h ⊢
  cases hf : find_option options (token_key arg 2) false with
  | error e => rw [hf] at h; cases h
  | ok o =>
    rw [hf] at h
    simp only at h ⊢
    by_cases hn : o.opt.narg = 0
    · simp only [hn, if_true] at h ⊢
      obtain ⟨vs, _, hs⟩ := map_ok_inv h
      exact Or.inr ⟨h, by rw [← hs]⟩
    · simp only [hn, if_false] at h ⊢
      by_cases hp : (find_char '=' arg).isSome = true
      · simp only [hp, if_true] at h ⊢
        obtain ⟨vs, _, hs⟩ := map_ok_inv h
        exact Or.inr ⟨h, by rw [← hs]⟩
      · simp only [hp, if_false] at h ⊢
        by_cases hi : o.opt.has_implicit_value = true
        · simp only [hi, if_true] at h ⊢
          obtain ⟨vs, _, hs⟩ := map_ok_inv h
          exact Or.inr ⟨h, by rw [← hs]⟩
        · simp only [hi, if_false] at h ⊢
          by_cases hc : o.opt.composing = true
          · by_cases hx : st.a + 1 < pre.length
            · have hx1 : st.a + 1 < (pre ++ rest).length := by
                rw [List.length_append]; omega
              simp only [hc, hx, hx1, Bool.true_and, decide_True, if_true,
                List.getElem?_append_left hx] at h ⊢
              left
              refine ⟨h, ?_⟩
              cases hget : pre[st.a + 1]? with
              | none => rw [hget] at h; cases h
              | some x =>
                rw [hget] at h
                obtain ⟨vs, _, hs⟩ := map_ok_inv h
                rw [← hs]
                simp only
                omega
            · simp [hc, hx] at h
          · have hc0 : o.opt.composing = false := by simpa using hc
            by_cases hw : (st.a + o.opt.narg) % SIZE_MOD < pre.length
            · have hw1 : (st.a + o.opt.narg) % SIZE_MOD < (pre ++ rest).length := by
                rw [List.length_append]; omega
              simp only [hc0, hw, hw1, Bool.false_and, Bool.false_eq_true, if_false,
                Bool.not_false, Bool.true_and, decide_True, if_true] at h ⊢
              cases hcol : collect pre o.opt.narg st.a [] with
              | error e => rw [hcol] at h; cases h
              | ok r =>
                obtain ⟨args, a1⟩ := r
                rw [hcol] at h
                rw [collect_extend pre rest _ _ _ _ hcol]
                left
                refine ⟨h, ?_⟩
                simp only at h
                obtain ⟨vs, _, hs⟩ := map_ok_inv h
                rw [← hs]
                simp only
                have := collect_a_lt_length pre _ _ _ _ _ hn hcol
                omega
            · simp [hc0, hw] at h

theorem short_option_extend (pre rest : string_v) (options : option_set) (st s : cl_state)
    (arg : Str) (h : short_option pre options st arg = .ok s) :
    short_option (pre ++ rest) options st arg = .ok s ∧ s.a < pre.length ∨
    short_option (pre ++ rest) options st arg = .ok s ∧ s.a = st.a := by
  unfold short_option at h ⊢
  simp only at h ⊢
  cases hf : find_option options (token_key arg 1) true with
  | error e => rw [hf] at h; cases h
  | ok o =>
    rw [hf] at h
    simp only at h ⊢
    by_cases hn : o.opt.narg = 0
    · simp only [hn, if_true] at h ⊢
      obtain ⟨vs, _, hs⟩ := map_ok_inv h
      exact Or.inr ⟨h, by rw [← hs]⟩
    · simp only [hn, if_false] at h ⊢
      by_cases hp : (find_char '=' arg).isSome = true
      · simp only [hp, if_true] at h ⊢
        obtain ⟨vs, _, hs⟩ := map_ok_inv h
        exact Or.inr ⟨h, by rw [← hs]⟩
      · simp only [hp, if_false] at h ⊢
        by_cases hw : (st.a + o.opt.narg) % SIZE_MOD < pre.length
        · have hw1 : (st.a + o.opt.narg) % SIZE_MOD < (pre ++ rest).length := by
            rw [List.length_append]; omega
          simp only [hw, hw1, if_true] at h ⊢
          cases hcol : collect pre o.opt.narg st.a [] with
          | error e => rw [hcol] at h; cases h
          | ok r =>
            obtain ⟨args, a1⟩ := r
            rw [hcol] at h
            rw [collect_extend pre rest _ _ _ _ hcol]
            left
            refine ⟨h, ?_⟩
            simp only at h
            obtain ⟨vs, _, hs⟩ := map_ok_inv h
            rw [← hs]
            simp only
            have := collect_a_lt_length pre _ _ _ _ _ hn hcol
            omega
        · simp [hw] at h

theorem step_extend (pre rest : string_v) (options : option_set) (st st1 : cl_state)
    (h : step pre options st = .ok st1) :
    step (pre ++ rest) options st = .ok st1 ∧ st1.a ≤ pre.length := by
  have hlt : st.a < pre.length := step_in_range pre options st st1 h
  cases harg : pre[st.a]? with
  | none => simp [step, harg] at h
  | some arg =>
    have harg1 : (pre ++ rest)[st.a]? = some arg := by
      rw [List.getElem?_append_left hlt, harg]
    by_cases hne : arg = ['-', '-']
    · rw [step_marker pre options st (by rw [harg, hne])] at h
      rw [step_marker (pre ++ rest) options st (by rw [harg1, hne])]
      refine ⟨h, ?_⟩
      injection h with h
      rw [← h]
      exact hlt
    · rcases Bool.eq_false_or_eq_true st.end_of_options_marker with hm | hm
      · rw [step_after_marker pre options st arg harg hne hm] at h
        rw [step_after_marker (pre ++ rest) options st arg harg1 hne hm]
        refine ⟨h, ?_⟩
        injection h with h
        rw [← h]
        exact hlt
      · rcases Bool.eq_false_or_eq_true (starts_with ['-', '-'] arg) with hd | hd
        · rw [step_long pre options st arg harg hne hm hd] at h
          rw [step_long (pre ++ rest) options st arg harg1 hne hm hd]
          obtain ⟨s, hs, hst⟩ := map_ok_inv h
          rcases long_option_extend pre rest options st s arg hs with ⟨he, ha⟩ | ⟨he, ha⟩
          · rw [he]
            refine ⟨h ▸ (by rw [hs]), ?_⟩
            rw [← hst]
            exact ha
          · rw [he]
            refine ⟨h ▸ (by rw [hs]), ?_⟩
            rw [← hst]
            simp only
            omega
        · rcases Bool.eq_false_or_eq_true (starts_with ['-'] arg && decide (arg.length > 1))
            with hs1 | hs1
          · rw [step_short pre options st arg harg hne hm hd hs1] at h
            rw [step_short (pre ++ rest) options st arg harg1 hne hm hd hs1]
            obtain ⟨s, hs, hst⟩ := map_ok_inv h
            rcases short_option_extend pre rest options st s arg hs with ⟨he, ha⟩ | ⟨he, ha⟩
            · rw [he]
              refine ⟨h ▸ (by rw [hs]), ?_⟩
              rw [← hst]
              exact ha
            · rw [he]
              refine ⟨h ▸ (by rw [hs]), ?_⟩
              rw [← hst]
              simp only
              omega
          · rw [step_positional pre options st arg harg hne hd hs1] at h
            rw [step_positional (pre ++ rest) options st arg harg1 hne hd hs1]
            refine ⟨h, ?_⟩
            injection h with h
            rw [← h]
            exact hlt

theorem rounds_extend (pre rest : string_v) (options : option_set) (j : Nat)
    (st st1 : cl_state) (h : rounds pre options j st = .ok st1) (ha : st.a ≤ pre.length) :
    rounds (pre ++ rest) options j st = .ok st1 ∧ st1.a ≤ pre.length := by
  induction j generalizing st with
  | zero =>
    simp only [rounds] at h ⊢
    injection h with h
    subst h
    exact ⟨rfl, ha⟩
  | succ j ih =>
    obtain ⟨st2, hst, hrest⟩ := rounds_succ_inv pre options j st st1 h
    obtain ⟨hext, hle⟩ := step_extend pre rest options st st2 hst
    rw [rounds, hext]
    exact ih st2 hrest hle

theorem run_after_marker (argv pre post : string_v) (options : option_set) (st : cl_state)
    (hargv : argv = pre ++ post) (ha : st.a = pre.length)
    (hm : st.end_of_options_marker = true) :
    run argv options argv.length st =
      some (.ok { st with positional := st.positional ++ post.filter (fun t => t ≠ ['-', '-']),
                          a := argv.length }) := by
  induction post generalizing pre st with
  | nil =>
    have hlen : argv.length = st.a := by rw [hargv, ha]; simp
    rw [run_done argv options _ st (by omega)]
    simp [hlen]
  | cons t post ih =>
    have harg : argv[st.a]? = some t := by
      rw [hargv, ha]; exact getElem?_append_length _ _ _
    have hlt : st.a < argv.length := (List.getElem?_eq_some.mp harg).1
    rw [run_step argv options argv.length st hlt (by omega)]
    by_cases hne : t = ['-', '-']
    · rw [step_marker argv options st (by rw [harg, hne])]
      simp only
      rw [ih (pre ++ [t]) { st with end_of_options_marker := true, a := st.a + 1 }
        (by rw [hargv]; simp) (by simp [ha]) rfl]
      simp [hne, hm]
    · rw [step_after_marker argv options st t harg hne hm]
      simp only
      rw [ih (pre ++ [t]) { st with positional := st.positional ++ [t], a := st.a + 1 }
        (by rw [hargv]; simp) (by simp [ha]) hm]
      simp [hne]

/-- What `parse_command_line` does at a `--` that it reaches as a token to
classify: if `pre` alone parses to the store `vs` and the positional sequence
`pos`, then `pre`, `--`, `post` parses to the same store and to `pos` followed
by the tokens of `post` other than `--`, in order. -/
theorem parse_command_line_marker (pre post : string_v) (options : option_set)
    (positional pos : string_v) (vs : value_set)
    (h : parse_command_line pre options positional = some (.ok (vs, pos))) :
    parse_command_line (pre ++ ['-', '-'] :: post) options positional =
      some (.ok (vs, pos ++ post.filter (fun t => t ≠ ['-', '-']))) := by
  obtain ⟨i, st1, hi, hle, hvs, hpos⟩ :=
    parse_ok_rounds pre options positional 0 (cl_init positional) vs pos rfl h
  obtain ⟨hext, hle1⟩ := rounds_extend pre (['-', '-'] :: post) options i (cl_init positional)
    st1 hi (by simp [cl_init])
  have ha : st1.a = pre.length := by omega
  unfold parse_command_line
  rw [show (⟨0, [], positional, false⟩ : cl_state) = cl_init positional from rfl,
    run_rounds (pre ++ ['-', '-'] :: post) options _ i (cl_init positional) st1 hext
      (by simp [cl_init])]
  have harg : (pre ++ ['-', '-'] :: post)[st1.a]? = some ['-', '-'] := by
    rw [ha]; exact getElem?_append_length _ _ _
  have hlt : st1.a < (pre ++ ['-', '-'] :: post).length := (List.getElem?_eq_some.mp harg).1
  rw [run_step _ options _ st1 hlt (by omega), step_marker _ options st1 harg]
  simp only
  rw [run_after_marker (pre ++ ['-', '-'] :: post) (pre ++ [['-', '-']]) post options
    { st1 with end_of_options_marker := true, a := st1.a + 1 } (by simp) (by simp [ha]) rfl]
  simp [Except.map, hvs, hpos]

/-! ## Unknown options -/

theorem find_from_none (key : Str) (is_short : Bool) (i : Nat) (options : option_set)
    (h : unregistered options key is_short) : find_from key is_short i options = none := by
  induction options generalizing i with
  | nil => rfl
  | cons o rest ih =>
    have ho := h o (List.mem_cons_self _ _)
    have hrest : unregistered rest key is_short := fun o1 h1 => h o1 (List.mem_cons_of_mem _ h1)
    cases is_short with
    | true =>
      simp only [if_true] at ho
      simp only [find_from, if_true, decide_eq_true_eq, ho, if_false]
      exact ih (i + 1) hrest
    | false =>
      simp only [Bool.false_eq_true, if_false] at ho
      simp only [find_from, Bool.false_eq_true, if_false, decide_eq_true_eq, ho]
      exact ih (i + 1) hrest

theorem find_option_unregistered (options : option_set) (key : Str) (is_short : Bool)
    (h : unregistered options key is_short) :
    find_option options key is_short
      = .error (.option_error (unknown_option_what key is_short)) := by
  simp [find_option, find, find_from_none key is_short 0 options h]

theorem step_long_unknown (argv : string_v) (options : option_set) (st : cl_state) (arg : Str)
    (e : error) (harg : argv[st.a]? = some arg) (hne : arg ≠ ['-', '-'])
    (hm : st.end_of_options_marker = false) (hd : starts_with ['-', '-'] arg = true)
    (hf : find_option options (token_key arg 2) false = .error e) :
    step argv options st = .error e := by
  rw [step_long argv options st arg harg hne hm hd]
  simp only [long_option, hf]
  rfl

theorem step_short_unknown (argv : string_v) (options : option_set) (st : cl_state) (arg : Str)
    (e : error) (harg : argv[st.a]? = some arg) (hne : arg ≠ ['-', '-'])
    (hm : st.end_of_options_marker = false) (hd : starts_with ['-', '-'] arg = false)
    (hs : (starts_with ['-'] arg && decide (arg.length > 1)) = true)
    (hf : find_option options (token_key arg 1) true = .error e) :
    step argv options st = .error e := by
  rw [step_short argv options st arg harg hne hm hd hs]
  simp only [short_option, hf]
  rfl

theorem parse_error_of_rounds (argv : string_v) (options : option_set) (positional : string_v)
    (j : Nat) (st : cl_state) (e : error)
    (hr : rounds argv options j (cl_init positional) = .ok st) (hlt : st.a < argv.length)
    (he : step argv options st = .error e) :
    parse_command_line argv options positional = some (.error e) := by
  unfold parse_command_line
  rw [show (⟨0, [], positional, false⟩ : cl_state) = cl_init positional from rfl,
    run_rounds argv options argv.length j (cl_init positional) st hr (by simp [cl_init]),
    run_step argv options argv.length st hlt (by omega), he]
  rfl

/-! ## The positional output -/

theorem step_positional_eq (argv : string_v) (options : option_set) (st st1 : cl_state)
    (arg : Str) (harg : argv[st.a]? = some arg) (hok : step argv options st = .ok st1) :
    st1.positional = st.positional ++ (if classified_positional st arg then [arg] else []) := by
  by_cases hne : arg = ['-', '-']
  · rw [step_marker argv options st (by rw [harg, hne])] at hok
    cases hok
    simp [classified_positional, hne]
  · rcases Bool.eq_false_or_eq_true st.end_of_options_marker with hm | hm
    · rw [step_after_marker argv options st arg harg hne hm] at hok
      cases hok
      simp [classified_positional, hne, hm]
    · rcases Bool.eq_false_or_eq_true (starts_with ['-', '-'] arg) with hd | hd
      · rcases step_ok_cases argv options st st1 hok with _ | ⟨_, arg1, o, harg1, hnames⟩
        · rw [step_long argv options st arg harg hne hm hd] at hok
          obtain ⟨s, hs, hst⟩ := map_ok_inv hok
          cases hf : find_option options (token_key arg 2) false with
          | error e => simp [long_option, hf] at hs
          | ok o =>
            obtain ⟨_, _, hpos, _⟩ := step_named_ok argv options st st1 arg o harg hm
              ⟨hne, Or.inl ⟨hd, hf⟩⟩ (by rw [step_long argv options st arg harg hne hm hd]; exact hok)
            rw [hpos]
            simp [classified_positional, hm, hd]
        · rw [harg] at harg1
          injection harg1 with harg1
          subst harg1
          obtain ⟨_, _, hpos, _⟩ := step_named_ok argv options st st1 arg o harg hm hnames hok
          rw [hpos]
          simp [classified_positional, hm, hd]
      · rcases Bool.eq_false_or_eq_true (starts_with ['-'] arg && decide (arg.length > 1))
          with hs | hs
        · rcases step_ok_cases argv options st st1 hok with _ | ⟨_, arg1, o, harg1, hnames⟩
          · cases hf : find_option options (token_key arg 1) true with
            | error e =>
              rw [step_short_unknown argv options st arg e harg hne hm hd hs hf] at hok
              cases hok
            | ok o =>
              obtain ⟨_, _, hpos, _⟩ := step_named_ok argv options st st1 arg o harg hm
                ⟨hne, Or.inr ⟨hd, hs, hf⟩⟩ hok
              rw [hpos]
              simp only [classified_positional, hm, hd, hs]
              simp
          · rw [harg] at harg1
            injection harg1 with harg1
            subst harg1
            obtain ⟨_, _, hpos, _⟩ := step_named_ok argv options st st1 arg o harg hm hnames hok
            rw [hpos]
            simp only [classified_positional, hm, hd, hs]
            simp
        · rw [step_positional argv options st arg harg hne hd hs] at hok
          cases hok
          simp only [classified_positional, hm, hd, hs]
          simp [hne]

theorem rounds_positional_sublist (argv : string_v) (options : option_set) (j : Nat)
    (st st1 : cl_state) (h : rounds argv options j st = .ok st1) :
    ∃ sub, st1.positional = st.positional ++ sub ∧ sub.Sublist (argv.drop st.a) := by
  induction j generalizing st with
  | zero =>
    simp only [rounds] at h
    cases h
    exact ⟨[], by simp, List.nil_sublist _⟩
  | succ j ih =>
    obtain ⟨st2, hst, hrest⟩ := rounds_succ_inv argv options j st st1 h
    obtain ⟨sub2, hsub2, hsl2⟩ := ih st2 hrest
    have hlt : st.a < argv.length := step_in_range argv options st st2 hst
    have halt : st.a < st2.a := step_a_lt argv options st st2 hst
    have harg : argv[st.a]? = some argv[st.a] := List.getElem?_eq_getElem hlt
    have hpos := step_positional_eq argv options st st2 _ harg hst
    have hdrop : argv.drop st.a = argv[st.a] :: argv.drop (st.a + 1) :=
      List.drop_eq_getElem_cons hlt
    have hsl3 : sub2.Sublist (argv.drop (st.a + 1)) := by
      have h1 : argv.drop st2.a = (argv.drop (st.a + 1)).drop (st2.a - (st.a + 1)) := by
        rw [List.drop_drop]
        congr 1
        omega
      rw [h1] at hsl2
      exact hsl2.trans (List.drop_sublist _ _)
    refine ⟨(if classified_positional st argv[st.a] then [argv[st.a]] else []) ++ sub2, ?_, ?_⟩
    · rw [hsub2, hpos, List.append_assoc]
    · rw [hdrop]
      split
      · exact List.Sublist.cons₂ _ hsl3
      · exact List.Sublist.cons _ hsl3

theorem plain_token_shape (t : Str) (h : plain_token t = true) :
    t ≠ ['-', '-'] ∧ starts_with ['-', '-'] t = false ∧
    (starts_with ['-'] t && decide (t.length > 1)) = false := by
  unfold plain_token at h
  cases t with
  | nil => simp [starts_with]
  | cons c cs =>
    by_cases hc : c = '-'
    · subst hc
      cases cs with
      | nil => simp [starts_with]
      | cons d ds => simp [starts_with] at h
    · have hc1 : ¬ '-' = c := fun h1 => hc h1.symm
      simp [starts_with, hc, hc1]

theorem run_plain (argv pre rest : string_v) (options : option_set) (st : cl_state)
    (hargv : argv = pre ++ rest) (ha : st.a = pre.length)
    (hplain : ∀ t ∈ rest, plain_token t = true) :
    run argv options argv.length st =
      some (.ok { st with positional := st.positional ++ rest, a := argv.length }) := by
  induction rest generalizing pre st with
  | nil =>
    have hlen : argv.length = st.a := by rw [hargv, ha]; simp
    rw [run_done argv options _ st (by omega)]
    simp [hlen]
  | cons t rest ih =>
    have harg : argv[st.a]? = some t := by
      rw [hargv, ha]; exact getElem?_append_length _ _ _
    have hlt : st.a < argv.length := (List.getElem?_eq_some.mp harg).1
    obtain ⟨hne, hd, hs⟩ := plain_token_shape t (hplain t (List.mem_cons_self _ _))
    rw [run_step argv options argv.length st hlt (by omega),
      step_positional argv options st t harg hne hd hs]
    simp only
    rw [ih (pre ++ [t]) { st with positional := st.positional ++ [t], a := st.a + 1 }
      (by rw [hargv]; simp) (by simp [ha])
      (fun t1 h1 => hplain t1 (List.mem_cons_of_mem _ h1))]
    simp

/-! ## The positional-argument consumer: lemmas -/

theorem to_int_small (n : Nat) (h : n < 2 ^ 31) : to_int n = (n : Int) := by
  have h1 : n % 2 ^ 32 = n := Nat.mod_eq_of_lt (by omega)
  unfold to_int
  rw [h1, if_pos h]

theorem values_of_not_set (vs : value_set) (id : Nat) (h : is_set vs id = false) :
    values vs id = [] := by
  unfold is_set at h
  cases hv : values vs id with
  | nil => rfl
  | cons x xs => simp [hv] at h

theorem put_not_set (vs : value_set) (o : option_cx) (g : string_v)
    (hc : o.opt.composing = false) (hs : is_set vs o.id = false) :
    put vs o g = .ok (assign vs o.id g) := by
  simp [put, hc, hs]

theorem consume_set (c : positional_args_consumer) (o : option_cx)
    (hc : o.opt.composing = false) (hs : is_set c.values_ o.id = true) :
    consume c o = .returns c := by
  simp [consume, hc, hs]

theorem consume_enough (c : positional_args_consumer) (o : option_cx)
    (hc : o.opt.composing = false) (hs : is_set c.values_ o.id = false)
    (hn : o.opt.narg < 2 ^ 31) (hr : c.pbegin_ + o.opt.narg ≤ c.positional_.length) :
    consume c o = .returns { c with
      values_ := assign c.values_ o.id ((c.positional_.drop c.pbegin_).take o.opt.narg),
      pbegin_ := c.pbegin_ + o.opt.narg } := by
  have hd : c.distance ≥ to_int o.opt.narg := by
    rw [to_int_small _ hn]
    unfold positional_args_consumer.distance
    omega
  have h63 : o.opt.narg < 2 ^ 63 := by omega
  simp only [consume, hc, hs, hd, h63, hr, put_not_set c.values_ o _ hc hs,
    Bool.false_eq_true, if_false, Bool.not_false, if_true, and_self]

theorem consume_lacking (c : positional_args_consumer) (o : option_cx)
    (hc : o.opt.composing = false) (hs : is_set c.values_ o.id = false)
    (hn : o.opt.narg < 2 ^ 31) (hr : ¬ c.pbegin_ + o.opt.narg ≤ c.positional_.length) :
    consume c o = .throws (.option_error (positional_arg_what o.opt.key)) c := by
  have hd : ¬ c.distance ≥ to_int o.opt.narg := by
    rw [to_int_small _ hn]
    unfold positional_args_consumer.distance
    omega
  simp only [consume, hc, hs, hd, Bool.false_eq_true, if_false, Bool.not_false, if_true]

theorem consume_composing (c : positional_args_consumer) (o : option_cx) (x : Str)
    (hc : o.opt.composing = true) (hx : c.positional_[c.pbegin_]? = some x) :
    consume c o = .returns { c with
      values_ := assign c.values_ o.id (values c.values_ o.id ++ [x]),
      pbegin_ := c.pbegin_ + 1 } := by
  simp only [consume, hc, hx, put_composing c.values_ o [x] hc, if_true]

theorem consume_composing_at_end (c : positional_args_consumer) (o : option_cx)
    (hc : o.opt.composing = true) (hx : c.positional_.length ≤ c.pbegin_) :
    consume c o = .undefined := by
  simp only [consume, hc, List.getElem?_eq_none hx, if_true]

theorem consume_returns_twice (c c1 : positional_args_consumer) (o : option_cx)
    (hc : o.opt.composing = false) (hn : 1 ≤ o.opt.narg)
    (h : consume c o = .returns c1) : consume c1 o = .returns c1 := by
  rcases Bool.eq_false_or_eq_true (is_set c.values_ o.id) with hs | hs
  · rw [consume_set c o hc hs] at h
    injection h with h
    subst h
    exact consume_set c o hc hs
  · apply consume_set c1 o hc
    simp only [consume, hc, hs, Bool.false_eq_true, if_false, Bool.not_false, if_true] at h
    split at h
    · split at h
      · rename_i hr
        split at h
        · rename_i vs hput
          injection h with h
          subst h
          refine is_set_put_same c.values_ vs o _ hput ?_
          intro hnil
          have hlen := congrArg List.length hnil
          simp only [List.length_take, List.length_drop, List.length_nil] at hlen
          omega
        · cases h
      · cases h
    · cases h

/-! ## Lines of no known shape, and lines passed over -/

theorem match_value_key_value_shape (line : Str) (h : key_value_shape line = false) :
    match_value line = none := by
  unfold key_value_shape at h
  unfold match_value
  cases ht : take_option_chars (line.dropWhile isspace) with
  | none => rfl
  | some ks =>
    obtain ⟨key, s2⟩ := ks
    rw [ht] at h
    simp only at h ⊢
    cases hs : s2.dropWhile isspace with
    | nil => rfl
    | cons c cs =>
      rw [hs] at h
      by_cases hc : c = '='
      · subst hc
        simp at h
      · split
        · rename_i s4 heq
          injection heq with h1 _
          exact absurd h1 hc
        · rfl

theorem config_line_bad (options : option_set) (lineno : Nat) (line : Str) (st : cf_state)
    (hne : line ≠ []) (hc : match_comment line = false) (hs : match_section line = none)
    (hv : match_value line = none) :
    config_line options lineno line st = .error (.option_error (bad_line_what lineno line)) := by
  simp [config_line, hne, hc, hs, hv]

theorem parse_config_file_at (options : option_set) (infile : Str) (pre post : List Str)
    (line : Str) (st : cf_state) (hl : getlines infile = pre ++ line :: post)
    (hpre : config_lines options 1 cf_init pre = .ok st) :
    parse_config_file infile options =
      (config_lines options (pre.length + 1) st (line :: post)).map fun s => s.values := by
  unfold parse_config_file
  rw [hl]
  have happ := config_lines_append options 1 cf_init pre (line :: post)
  rw [hpre] at happ
  rw [show (⟨[], []⟩ : cf_state) = cf_init from rfl, happ]
  simp only
  rw [show 1 + pre.length = pre.length + 1 by omega]

theorem config_line_neutral (options : option_set) (lineno : Nat) (line : Str) (st : cf_state)
    (h : neutral_line line = true) : config_line options lineno line st = .ok st := by
  unfold neutral_line at h
  by_cases hne : line = []
  · simp [config_line, hne]
  · have hc : match_comment line = true := by simpa [hne] using h
    simp [config_line, hne, hc]

theorem config_line_returned (options : option_set) (n m : Nat) (line : Str) (st : cf_state) :
    returned (config_line options n line st) = returned (config_line options m line st) := by
  unfold config_line
  split
  · rfl
  · split
    · rfl
    · split
      · rfl
      · split
        · rfl
        · rfl

theorem config_lines_returned (options : option_set) (n m : Nat) (lines : List Str)
    (st : cf_state) :
    returned (config_lines options n st lines) = returned (config_lines options m st lines) := by
  induction lines generalizing n m st with
  | nil => rfl
  | cons line rest ih =>
    have h := config_line_returned options n m line st
    rw [config_lines, config_lines]
    cases h1 : config_line options n line st with
    | error e =>
      cases h2 : config_line options m line st with
      | error e2 => rfl
      | ok s2 => rw [h1, h2] at h; cases h
    | ok s1 =>
      cases h2 : config_line options m line st with
      | error e2 => rw [h1, h2] at h; cases h
      | ok s2 =>
        rw [h1, h2] at h
        injection h with h
        subst h
        exact ih (n + 1) (m + 1) s1

theorem config_lines_insert_neutral (options : option_set) (n : Nat) (st : cf_state)
    (pre post : List Str) (line : Str) (h : neutral_line line = true) :
    returned (config_lines options n st (pre ++ line :: post))
      = returned (config_lines options n st (pre ++ post)) := by
  rw [config_lines_append, config_lines_append]
  cases config_lines options n st pre with
  | error e => rfl
  | ok st1 =>
    simp only
    rw [config_lines, config_line_neutral options _ line st1 h]
    exact config_lines_returned options _ _ post st1

theorem returned_map {α β : Type} (f : α → β) (r : Except error α) :
    returned (r.map f) = (returned r).map f := by
  cases r <;> rfl

/-! ## Errors thrown again with the line as context -/

theorem config_wrapped (options : option_set) (infile : Str) (pre post : List Str)
    (line key v what : Str) (st : cf_state)
    (hl : getlines infile = pre ++ line :: post)
    (hv : match_value line = some (key, v))
    (hpre : config_lines options 1 cf_init pre = .ok st)
    (hin : ((find_option options (st.cur_section ++ key) false).bind
        fun o => put st.values o [strip_quotes v]) = .error (.option_error what)) :
    parse_config_file infile options = .error (.option_error (lineno_what line what)) := by
  rw [parse_config_file_at options infile pre post line st hl hpre, config_lines,
    config_line_value options _ line key v st hv, hin]
  rfl

theorem config_bad_line (options : option_set) (infile : Str) (pre post : List Str)
    (line : Str) (st : cf_state)
    (hl : getlines infile = pre ++ line :: post)
    (hpre : config_lines options 1 cf_init pre = .ok st)
    (hne : line ≠ []) (hc : match_comment line = false) (hs : match_section line = none)
    (hv : match_value line = none) :
    parse_config_file infile options
      = .error (.option_error (bad_line_what (pre.length + 1) line)) := by
  rw [parse_config_file_at options infile pre post line st hl hpre, config_lines,
    config_line_bad options _ line st hne hc hs hv]
  rfl

/-! ## Whitespace lines and comment lines -/

theorem dropWhile_all {p : Char → Bool} (w : Str) (h : w.all p = true) : w.dropWhile p = [] := by
  induction w with
  | nil => rfl
  | cons c cs ih =>
    simp only [List.all_cons, Bool.and_eq_true] at h
    rw [List.dropWhile_cons_of_pos h.1]
    exact ih h.2

theorem dropWhile_append_all {p : Char → Bool} (w s : Str) (h : w.all p = true) :
    (w ++ s).dropWhile p = s.dropWhile p := by
  induction w with
  | nil => rfl
  | cons c cs ih =>
    simp only [List.all_cons, Bool.and_eq_true] at h
    rw [List.cons_append, List.dropWhile_cons_of_pos h.1]
    exact ih h.2

theorem whitespace_line_shape (line : Str) (hne : line ≠ []) (hw : line.all isspace = true) :
    match_comment line = false ∧ match_section line = none ∧ match_value line = none := by
  have hd := dropWhile_all line hw
  refine ⟨?_, ?_, ?_⟩
  · simp [match_comment, hd]
  · cases line with
    | nil => exact absurd rfl hne
    | cons c cs =>
      simp only [List.all_cons, Bool.and_eq_true] at hw
      unfold match_section
      split
      · rename_i rest heq
        injection heq with h1 _
        subst h1
        exact absurd hw.1 (by decide)
      · rfl
  · simp [match_value, hd, take_option_chars]

theorem match_comment_iff (line : Str) :
    match_comment line = true ↔
      (line.dropWhile isspace).head? = some '#' ∧
        ∀ c ∈ (line.dropWhile isspace).tail, c ≠ '\n' ∧ c ≠ '\r' := by
  unfold match_comment
  cases hd : line.dropWhile isspace with
  | nil => simp
  | cons c cs =>
    by_cases hc : c = '#'
    · subst hc
      simp [is_dot]
    · have h1 : (match c :: cs with
          | '#' :: rest => rest.all is_dot
          | _ => false) = false := by
        split
        · rename_i rest heq
          injection heq with h1 _
          exact absurd h1 hc
        · rfl
      rw [h1]
      simp [hc]

theorem parse_insert_neutral (options : option_set) (a b : Str) (pre post : List Str)
    (line : Str) (ha : getlines a = pre ++ post) (hb : getlines b = pre ++ line :: post)
    (h : neutral_line line = true) :
    returned (parse_config_file b options) = returned (parse_config_file a options) := by
  unfold parse_config_file
  rw [ha, hb, returned_map, returned_map,
    config_lines_insert_neutral options 1 _ pre post line h]

/-! ## The split of a key-value line -/

theorem isspace_not_option_char (c : Char) (h : isspace c = true) :
    option_char_rest c = false := by
  simp only [isspace, Bool.or_eq_true, beq_iff_eq] at h
  rcases h with ((((h | h) | h) | h) | h) | h <;> subst h <;> decide

theorem option_char_first_rest (c : Char) (h : option_char_first c = true) :
    option_char_rest c = true := by
  simp [option_char_rest, h]

theorem option_char_not_isspace (c : Char) (h : option_char_rest c = true) :
    isspace c = false := by
  cases hs : isspace c with
  | false => rfl
  | true => rw [isspace_not_option_char c hs] at h; cases h

theorem takeWhile_append_stop {p : Char → Bool} (xs s : Str) (hx : xs.all p = true)
    (hs : s.takeWhile p = []) :
    (xs ++ s).takeWhile p = xs ∧ (xs ++ s).dropWhile p = s := by
  have hd : s.dropWhile p = s := by
    have h := List.takeWhile_append_dropWhile p s
    rw [hs] at h
    exact h
  induction xs with
  | nil => exact ⟨hs, hd⟩
  | cons c cs ih =>
    simp only [List.all_cons, Bool.and_eq_true] at hx
    obtain ⟨h1, h2⟩ := ih hx.2
    rw [List.cons_append, List.takeWhile_cons_of_pos hx.1, List.dropWhile_cons_of_pos hx.1]
    exact ⟨by rw [h1], h2⟩

theorem takeWhile_space_eq (w2 rest : Str) (hw2 : w2.all isspace = true) :
    (w2 ++ '=' :: rest).takeWhile option_char_rest = [] := by
  cases w2 with
  | nil => exact List.takeWhile_cons_of_neg (by decide)
  | cons c cs =>
    simp only [List.all_cons, Bool.and_eq_true] at hw2
    rw [List.cons_append]
    exact List.takeWhile_cons_of_neg (by rw [isspace_not_option_char c hw2.1]; decide)

theorem match_value_split (w1 t w2 rest : Str) (c : Char) (hw1 : w1.all isspace = true)
    (hc : option_char_first c = true) (ht : t.all option_char_rest = true)
    (hw2 : w2.all isspace = true) :
    match_value (w1 ++ (c :: t) ++ w2 ++ '=' :: rest) =
      if ((rest.dropWhile isspace).dropWhile is_dot).all isspace then
        some (c :: t, (rest.dropWhile isspace).takeWhile is_dot)
      else none := by
  have hcs : isspace c = false := option_char_not_isspace c (option_char_first_rest c hc)
  have h1 : (w1 ++ (c :: t) ++ w2 ++ '=' :: rest).dropWhile isspace
      = c :: (t ++ (w2 ++ '=' :: rest)) := by
    rw [List.append_assoc, List.append_assoc, dropWhile_append_all w1 _ hw1, List.cons_append,
      List.dropWhile_cons_of_neg (by rw [hcs]; decide)]
  obtain ⟨h2, h3⟩ := takeWhile_append_stop t (w2 ++ '=' :: rest) ht (takeWhile_space_eq w2 rest hw2)
  have h4 : (w2 ++ '=' :: rest).dropWhile isspace = '=' :: rest := by
    rw [dropWhile_append_all w2 _ hw2]
    exact List.dropWhile_cons_of_neg (by decide)
  unfold match_value
  rw [h1]
  simp only [take_option_chars, hc, if_true, h2, h3, h4]

theorem all_not_mem_eq {p : Char → Bool} (xs : Str) (hx : xs.all p = true)
    (hp : p '=' = false) : '=' ∉ xs := by
  intro hmem
  have h := List.all_eq_true.mp hx '=' hmem
  rw [hp] at h
  cases h

theorem match_value_inv {line key v : Str} (h : match_value line = some (key, v)) :
    ∃ (w1 w2 rest t : Str) (c : Char),
      line = w1 ++ key ++ w2 ++ '=' :: rest ∧ key = c :: t ∧
      w1.all isspace = true ∧ option_char_first c = true ∧ t.all option_char_rest = true ∧
      w2.all isspace = true ∧ '=' ∉ w1 ++ key ++ w2 ∧
      ((rest.dropWhile isspace).dropWhile is_dot).all isspace = true ∧
      v = (rest.dropWhile isspace).takeWhile is_dot := by
  unfold match_value at h
  cases hs1 : line.dropWhile isspace with
  | nil => rw [hs1] at h; simp [take_option_chars] at h
  | cons c cs =>
    rw [hs1] at h
    by_cases hc : option_char_first c = true
    · simp only [take_option_chars, hc, if_true] at h
      cases hs3 : (cs.dropWhile option_char_rest).dropWhile isspace with
      | nil => rw [hs3] at h; cases h
      | cons d s4 =>
        rw [hs3] at h
        by_cases hd : d = '='
        · subst hd
          simp only at h
          split at h
          · rename_i hcond
            injection h with h
            injection h with hk hv
            have hline : line = line.takeWhile isspace ++ key
                ++ (cs.dropWhile option_char_rest).takeWhile isspace ++ '=' :: s4 := by
              rw [← hs3, List.append_assoc,
                List.takeWhile_append_dropWhile isspace (cs.dropWhile option_char_rest), ← hk,
                List.append_assoc, List.cons_append,
                List.takeWhile_append_dropWhile option_char_rest cs, ← hs1,
                List.takeWhile_append_dropWhile isspace line]
            have ht : (cs.takeWhile option_char_rest).all option_char_rest = true :=
              List.all_takeWhile
            have hw1 : (line.takeWhile isspace).all isspace = true := List.all_takeWhile
            have hw2 : ((cs.dropWhile option_char_rest).takeWhile isspace).all isspace = true :=
              List.all_takeWhile
            refine ⟨line.takeWhile isspace, (cs.dropWhile option_char_rest).takeWhile isspace, s4,
              cs.takeWhile option_char_rest, c, hline, hk.symm, hw1, hc, ht, hw2, ?_, hcond,
              hv.symm⟩
            intro hmem
            rw [List.mem_append, List.mem_append] at hmem
            rcases hmem with (hm | hm) | hm
            · exact all_not_mem_eq _ hw1 (by decide) hm
            · rw [← hk] at hm
              have hkall : (c :: cs.takeWhile option_char_rest).all option_char_rest = true := by
                simp only [List.all_cons, Bool.and_eq_true]
                exact ⟨option_char_first_rest c hc, ht⟩
              exact all_not_mem_eq _ hkall (by decide) hm
            · exact all_not_mem_eq _ hw2 (by decide) hm
          · cases h
        · exfalso
          split at h
          · rename_i s5 heq
            injection heq with h1 _
            exact hd h1
          · cases h
    · simp [take_option_chars, hc] at h

theorem takeWhile_all {p : Char → Bool} (w : Str) (h : w.all p = true) : w.takeWhile p = w := by
  induction w with
  | nil => rfl
  | cons c cs ih =>
    simp only [List.all_cons, Bool.and_eq_true] at h
    rw [List.takeWhile_cons_of_pos h.1, ih h.2]

theorem all_dropWhile {p q : Char → Bool} (w : Str) (h : w.all p = true) :
    (w.dropWhile q).all p = true := by
  rw [List.all_eq_true] at h ⊢
  intro x hx
  exact h x ((List.dropWhile_sublist q).subset hx)

theorem match_value_split_plain (w1 t w2 rest : Str) (c : Char) (hw1 : w1.all isspace = true)
    (hc : option_char_first c = true) (ht : t.all option_char_rest = true)
    (hw2 : w2.all isspace = true) (hr : rest.all is_dot = true) :
    match_value (w1 ++ (c :: t) ++ w2 ++ '=' :: rest)
      = some (c :: t, rest.dropWhile isspace) := by
  have hd : (rest.dropWhile isspace).all is_dot = true := all_dropWhile rest hr
  rw [match_value_split w1 t w2 rest c hw1 hc ht hw2, dropWhile_all _ hd, takeWhile_all _ hd]
  rfl

theorem match_value_split_blank (w1 t w2 rest : Str) (c : Char) (hw1 : w1.all isspace = true)
    (hc : option_char_first c = true) (ht : t.all option_char_rest = true)
    (hw2 : w2.all isspace = true) (hr : rest.all isspace = true) :
    match_value (w1 ++ (c :: t) ++ w2 ++ '=' :: rest) = some (c :: t, []) := by
  rw [match_value_split w1 t w2 rest c hw1 hc ht hw2, dropWhile_all _ hr]
  rfl

/-! ## The shape of the stores the config-file parser builds -/

theorem assign_keys_mem (vs : value_set) (id k : Nat) (g : string_v) :
    k ∈ (assign vs id g).map Prod.fst ↔ k = id ∨ k ∈ vs.map Prod.fst := by
  induction vs with
  | nil => simp [assign]
  | cons e rest ih =>
    obtain ⟨k1, old⟩ := e
    by_cases h : k1 = id
    · subst h
      simp [assign]
    · simp only [assign, h, if_false, List.map_cons, List.mem_cons, ih]
      tauto

theorem filed_once_assign (vs : value_set) (id : Nat) (g : string_v) (h : filed_once vs)
    (hg : g ≠ []) : filed_once (assign vs id g) := by
  induction vs with
  | nil =>
    refine ⟨by simp [assign], ?_⟩
    intro e he
    simp only [assign, List.mem_singleton] at he
    subst he
    exact hg
  | cons e rest ih =>
    obtain ⟨k1, old⟩ := e
    obtain ⟨hnd, hne⟩ := h
    rw [List.map_cons, List.nodup_cons] at hnd
    have hrest : filed_once rest := ⟨hnd.2, fun e he => hne e (List.mem_cons_of_mem _ he)⟩
    by_cases hk : k1 = id
    · subst hk
      simp only [assign, if_true]
      refine ⟨by rw [List.map_cons, List.nodup_cons]; exact hnd, ?_⟩
      intro e he
      rcases List.mem_cons.mp he with he | he
      · subst he
        exact hg
      · exact hne e (List.mem_cons_of_mem _ he)
    · simp only [assign, hk, if_false]
      obtain ⟨h1, h2⟩ := ih hrest
      refine ⟨?_, ?_⟩
      · rw [List.map_cons, List.nodup_cons]
        refine ⟨?_, h1⟩
        rw [assign_keys_mem]
        rintro (h3 | h3)
        · exact hk h3
        · exact hnd.1 h3
      · intro e he
        rcases List.mem_cons.mp he with he | he
        · subst he
          exact hne _ (List.mem_cons_self _ _)
        · exact h2 e he

theorem filed_once_put (vs vs1 : value_set) (o : option_cx) (g : string_v) (h : filed_once vs)
    (hg : g ≠ []) (hput : put vs o g = .ok vs1) : filed_once vs1 := by
  unfold put at hput
  split at hput
  · cases hput
    exact filed_once_assign vs o.id _ h (by simp [hg])
  · split at hput
    · cases hput
      exact filed_once_assign vs o.id _ h hg
    · split at hput
      · cases hput
        exact filed_once_assign vs o.id _ h hg
      · cases hput

theorem filed_once_config_lines (options : option_set) (lineno : Nat) (lines : List Str)
    (st st1 : cf_state) (h : config_lines options lineno st lines = .ok st1)
    (hw : filed_once st.values) : filed_once st1.values := by
  induction lines generalizing lineno st with
  | nil =>
    simp only [config_lines] at h
    cases h
    exact hw
  | cons line rest ih =>
    obtain ⟨st2, hline, hrest⟩ := config_lines_cons_ok_inv options lineno line rest st st1 h
    refine ih (lineno + 1) st2 hrest ?_
    rcases config_line_ok_cases options lineno line st st2 hline with h1 | ⟨key, v, o, _, _, hput⟩
    · rw [h1]; exact hw
    · exact filed_once_put _ _ o _ hw (by simp) hput

theorem values_not_filed (vs : value_set) (id : Nat) (h : id ∉ vs.map Prod.fst) :
    values vs id = [] := by
  induction vs with
  | nil => rfl
  | cons e rest ih =>
    obtain ⟨k, g⟩ := e
    simp only [List.map_cons, List.mem_cons, not_or] at h
    simp only [values, Ne.symm h.1, if_false]
    exact ih h.2

/-! ## Merging a store built from other options -/

theorem is_set_eq_of_values {vs vs1 : value_set} {id id1 : Nat}
    (h : values vs id = values vs1 id1) : is_set vs id = is_set vs1 id1 := by
  unfold is_set
  rw [h]

theorem add_disjoint (options : option_set) (vsB : value_set) :
    ∀ (vs : value_set), filed_once vsB →
      (∀ id, is_set vsB id = true → is_set vs id = false) →
      ∀ id, values (add options vs vsB) id
        = if is_set vsB id = true then values vsB id else values vs id := by
  induction vsB with
  | nil =>
    intro vs _ _ id
    simp [add, is_set, values]
  | cons e rest ih =>
    obtain ⟨i, g⟩ := e
    intro vs hw hd id
    obtain ⟨hnd, hne⟩ := hw
    rw [List.map_cons, List.nodup_cons] at hnd
    have hg : g ≠ [] := hne (i, g) (List.mem_cons_self _ _)
    have hrest : filed_once rest := ⟨hnd.2, fun e he => hne e (List.mem_cons_of_mem _ he)⟩
    have hvi : values ((i, g) :: rest) i = g := by simp [values]
    have hsi : is_set ((i, g) :: rest) i = true := by
      unfold is_set
      rw [hvi]
      cases g with
      | nil => exact absurd rfl hg
      | cons x xs => rfl
    have hri : values rest i = [] := values_not_filed rest i hnd.1
    have hm : merge_entry options vs i g = assign vs i g := by
      simp [merge_entry, hd i hsi]
    have hother : ∀ id, id ≠ i → values ((i, g) :: rest) id = values rest id := by
      intro id hid
      simp [values, Ne.symm hid]
    rw [add, hm]
    have hd1 : ∀ id, is_set rest id = true → is_set (assign vs i g) id = false := by
      intro id hs
      have hid : id ≠ i := by
        intro hid
        subst hid
        simp [is_set, hri] at hs
      rw [is_set_eq_of_values (values_assign_other vs i id g hid)]
      apply hd id
      rw [is_set_eq_of_values (hother id hid)]
      exact hs
    rw [ih (assign vs i g) hrest hd1 id]
    by_cases hid : id = i
    · subst hid
      have hrs : is_set rest id = false := by simp [is_set, hri]
      rw [hrs, hsi, hvi, values_assign_same]
      simp
    · rw [is_set_eq_of_values (hother id hid), hother id hid, values_assign_other vs i id g hid]

/-! ## Reading lines onto a store built from other options -/

theorem config_line_ok_state (options : option_set) (lineno : Nat) (line : Str)
    (st st1 : cf_state) (h : config_line options lineno line st = .ok st1) :
    (neutral_line line = true ∧ st1 = st) ∨
    (neutral_line line = false ∧
      ∃ name, match_section line = some name ∧ st1 = { st with cur_section := name ++ ['.'] }) ∨
    (neutral_line line = false ∧ match_section line = none ∧
      ∃ key v o vs, match_value line = some (key, v) ∧
        find_option options (st.cur_section ++ key) false = .ok o ∧
        put st.values o [strip_quotes v] = .ok vs ∧ st1 = { st with values := vs }) := by
  by_cases hn : neutral_line line = true
  · left
    rw [config_line_neutral options lineno line st hn] at h
    injection h with h
    exact ⟨hn, h.symm⟩
  · right
    have hn1 : neutral_line line = false := by simpa using hn
    have hne : line ≠ [] := by
      intro he
      simp [neutral_line, he] at hn1
    have hc : match_comment line = false := by
      simp only [neutral_line, Bool.or_eq_false_iff] at hn1
      exact hn1.2
    cases hs : match_section line with
    | some name =>
      left
      refine ⟨hn1, name, rfl, ?_⟩
      simp only [config_line, hne, hc, hs, if_false, Bool.false_eq_true] at h
      injection h with h
      exact h.symm
    | none =>
      right
      refine ⟨hn1, rfl, ?_⟩
      cases hv : match_value line with
      | none =>
        rw [config_line_bad options lineno line st hne hc hs hv] at h
        cases h
      | some kv =>
        obtain ⟨key, v⟩ := kv
        rw [config_line_value options lineno line key v st hv] at h
        obtain ⟨vs, hr, hst⟩ := store_line_ok_inv h
        obtain ⟨o, hf, hput⟩ := bind_ok_inv hr
        exact ⟨key, v, o, vs, rfl, hf, hput, hst⟩

theorem config_line_section_line (options : option_set) (lineno : Nat) (line name : Str)
    (st : cf_state) (hs : match_section line = some name) :
    config_line options lineno line st = .ok { st with cur_section := name ++ ['.'] } := by
  obtain ⟨h1, h2⟩ := match_section_shape hs
  simp [config_line, h1, h2, hs]

theorem put_ok_of_is_set (vs vs1 ws : value_set) (o : option_cx) (g : string_v)
    (h : put vs o g = .ok vs1) (hs : is_set ws o.id = is_set vs o.id) :
    ∃ ws1, put ws o g = .ok ws1 := by
  unfold put at h ⊢
  rw [hs]
  split
  · exact ⟨_, rfl⟩
  · rename_i hc
    rw [if_neg hc] at h
    split
    · exact ⟨_, rfl⟩
    · rename_i hu
      rw [if_neg hu] at h
      split
      · exact ⟨_, rfl⟩
      · rename_i hw
        rw [if_neg hw] at h
        cases h

theorem put_over (vsA vs vs1 ws : value_set) (o : option_cx) (g : string_v)
    (h : put vs o g = .ok vs1) (hA : is_set vsA o.id = false)
    (hrel : ∀ id, values ws id = if is_set vsA id = true then values vsA id else values vs id) :
    ∃ ws1, put ws o g = .ok ws1 ∧
      ∀ id, values ws1 id = if is_set vsA id = true then values vsA id else values vs1 id := by
  have hv : values ws o.id = values vs o.id := by
    rw [hrel o.id, hA]
    simp
  obtain ⟨ws1, hw⟩ := put_ok_of_is_set vs vs1 ws o g h (is_set_eq_of_values hv)
  refine ⟨ws1, hw, ?_⟩
  intro id
  by_cases hid : id = o.id
  · subst hid
    rw [put_values_same ws ws1 o g hw, hA, hv, put_values_same vs vs1 o g h]
    simp
  · rw [put_values_other ws ws1 o g id hid hw, put_values_other vs vs1 o g id hid h]
    exact hrel id

theorem config_lines_over (options : option_set) (vsA : value_set) (lines : List Str) :
    ∀ (n m : Nat) (s t sB : cf_state),
      config_lines options n s lines = .ok sB →
      (∀ id, is_set sB.values id = true → is_set vsA id = false) →
      (s.cur_section = t.cur_section ∨ section_before_values lines = true) →
      (∀ id, values t.values id
        = if is_set vsA id = true then values vsA id else values s.values id) →
      ∃ sC, config_lines options m t lines = .ok sC ∧
        ∀ id, values sC.values id
          = if is_set vsA id = true then values vsA id else values sB.values id := by
  induction lines with
  | nil =>
    intro n m s t sB h _ _ hrel
    simp only [config_lines] at h
    cases h
    exact ⟨t, rfl, hrel⟩
  | cons line rest ih =>
    intro n m s t sB h hd hsec hrel
    obtain ⟨s1, hline, hrest⟩ := config_lines_cons_ok_inv options n line rest s sB h
    rcases config_line_ok_state options n line s s1 hline with
      ⟨hn, hs1⟩ | ⟨hn, name, hs, hs1⟩ | ⟨hn, hs, key, v, o, vs, hv, hf, hput, hs1⟩
    · subst hs1
      rw [config_lines, config_line_neutral options m line t hn]
      refine ih (n + 1) (m + 1) s1 t sB hrest hd ?_ hrel
      rcases hsec with hsec | hsec
      · exact Or.inl hsec
      · right
        simpa [section_before_values, hn] using hsec
    · subst hs1
      rw [config_lines, config_line_section_line options m line name t hs]
      exact ih (n + 1) (m + 1) _ _ sB hrest hd (Or.inl rfl) hrel
    · subst hs1
      have hcur : s.cur_section = t.cur_section := by
        rcases hsec with hsec | hsec
        · exact hsec
        · simp [section_before_values, hn, hs] at hsec
      have hset : is_set sB.values o.id = true :=
        config_lines_is_set options (n + 1) rest _ sB o.id hrest
          (is_set_put_same s.values vs o _ hput (by simp))
      obtain ⟨ws1, hw, hrel1⟩ := put_over vsA s.values vs t.values o _ hput (hd o.id hset) hrel
      have hf1 : find_option options (t.cur_section ++ key) false = .ok o := by
        rw [← hcur]
        exact hf
      have hline1 : config_line options m line t = .ok { t with values := ws1 } := by
        rw [config_line_value options m line key v t hv, hf1]
        simp only [Except.bind, hw]
        rfl
      rw [config_lines, hline1]
      exact ih (n + 1) (m + 1) _ _ sB hrest hd (Or.inl hcur) hrel1

theorem merge_parse (options : option_set) (a b c : Str) (vsA vsB : value_set)
    (hA : parse_config_file a options = .ok vsA) (hB : parse_config_file b options = .ok vsB)
    (hd : ∀ id, ¬(is_set vsA id = true ∧ is_set vsB id = true))
    (hc : getlines c = getlines a ++ getlines b)
    (hsec : section_before_values (getlines b) = true ∨ last_section (getlines a) = none) :
    ∃ vsC, parse_config_file c options = .ok vsC ∧
      ∀ id, is_set (add options vsA vsB) id = is_set vsC id ∧
        values (add options vsA vsB) id = values vsC id := by
  obtain ⟨stA, hrunA, hvA⟩ := map_ok_inv hA
  obtain ⟨stB, hrunB, hvB⟩ := map_ok_inv hB
  change config_lines options 1 cf_init (getlines a) = .ok stA at hrunA
  change config_lines options 1 cf_init (getlines b) = .ok stB at hrunB
  have hdB : ∀ id, is_set stB.values id = true → is_set vsA id = false := by
    intro id hs
    cases hsa : is_set vsA id with
    | false => rfl
    | true => exact absurd ⟨hsa, by rw [← hvB]; exact hs⟩ (hd id)
  have hsec1 : cf_init.cur_section = stA.cur_section ∨
      section_before_values (getlines b) = true := by
    rcases hsec with hsec | hsec
    · exact Or.inr hsec
    · left
      have h := config_lines_section options 1 cf_init stA (getlines a) hrunA
      rw [hsec] at h
      exact h.symm
  have hrel : ∀ id, values stA.values id
      = if is_set vsA id = true then values vsA id else values cf_init.values id := by
    intro id
    rw [hvA]
    cases hs : is_set vsA id with
    | true => simp
    | false =>
      rw [values_of_not_set vsA id hs]
      rfl
  obtain ⟨sC, hrunC, hrelC⟩ := config_lines_over options vsA (getlines b) 1
    (1 + (getlines a).length) cf_init stA stB hrunB hdB hsec1 hrel
  have hparse : parse_config_file c options = .ok sC.values := by
    unfold parse_config_file
    rw [hc, show (⟨[], []⟩ : cf_state) = cf_init from rfl, config_lines_append, hrunA]
    simp only
    rw [hrunC]
    rfl
  have hwB : filed_once vsB := by
    rw [← hvB]
    exact filed_once_config_lines options 1 (getlines b) cf_init stB hrunB
      ⟨List.nodup_nil, fun e he => absurd he (List.not_mem_nil e)⟩
  have hdA : ∀ id, is_set vsB id = true → is_set vsA id = false := by
    intro id hs
    cases hsa : is_set vsA id with
    | false => rfl
    | true => exact absurd ⟨hsa, hs⟩ (hd id)
  have hval : ∀ id, values (add options vsA vsB) id = values sC.values id := by
    intro id
    rw [add_disjoint options vsB vsA hwB hdA id, hrelC id, hvB]
    cases hsb : is_set vsB id with
    | true => rw [hdA id hsb]; simp
    | false =>
      cases hsa : is_set vsA id with
      | true => simp
      | false => simp [values_of_not_set vsA id hsa, values_of_not_set vsB id hsb]
  exact ⟨sC.values, hparse, fun id => ⟨is_set_eq_of_values (hval id), hval id⟩⟩

theorem getlines_from_append (b : Str) (a cur : Str) :
    getlines_from (a ++ '\n' :: b) cur = getlines_from (a ++ ['\n']) cur ++ getlines_from b [] := by
  induction a generalizing cur with
  | nil => simp [getlines_from]
  | cons c cs ih =>
    by_cases hc : c = '\n'
    · simp [getlines_from, hc, ih]
    · simp [getlines_from, hc, ih]

/-! ## The claims -/

/-- C1 (section scoping of `parse_config_file`): whenever the lines of a config
text are `pre ++ line :: post`, the line is a key-value line with key `key` and
captured value `v`, and the lines `pre` are read without error, the key is looked
up under `effective_key pre key`: the key itself if no section line is among
`pre`, else the name of the most recent section line followed by a dot and the
key; the parse then continues with the value stored under the option found, or
fails with that lookup's or store's error.  On the text
`no_dot=5`, `[one]`, `setting=hei`, `option=hi` this stores `5` under `no_dot`,
`hei` under `one.setting` and `hi` under `one.option`. -/
theorem parse_config_file_section_scoping :
    (∀ (options : option_set) (infile : Str) (pre post : List Str) (line key v : Str)
        (st : cf_state),
      getlines infile = pre ++ line :: post →
      match_value line = some (key, v) →
      config_lines options 1 cf_init pre = .ok st →
      st.cur_section ++ key = effective_key pre key ∧
      parse_config_file infile options =
        match store_line line st ((find_option options (effective_key pre key) false).bind
            fun o => put st.values o [strip_quotes v]) with
        | .error e => .error e
        | .ok st1 => (config_lines options (pre.length + 2) st1 post).map fun s => s.values) ∧
    (parse_config_file "no_dot=5\n[one]\nsetting=hei\noption=hi\n".toList
        [{ key := "one.setting".toList }, { key := "one.option".toList },
         { key := "no_dot".toList }]
      = .ok [(2, ["5".toList]), (0, ["hei".toList]), (1, ["hi".toList])] ∧
     find_option [{ key := "one.setting".toList }, { key := "one.option".toList },
         { key := "no_dot".toList }] "no_dot".toList false
      = .ok ⟨2, { key := "no_dot".toList }⟩ ∧
     find_option [{ key := "one.setting".toList }, { key := "one.option".toList },
         { key := "no_dot".toList }] "one.setting".toList false
      = .ok ⟨0, { key := "one.setting".toList }⟩ ∧
     find_option [{ key := "one.setting".toList }, { key := "one.option".toList },
         { key := "no_dot".toList }] "one.option".toList false
      = .ok ⟨1, { key := "one.option".toList }⟩) := by
  refine ⟨?_, by decide⟩
  intro options infile pre post line key v st hl hv hpre
  have hsec := config_lines_section options 1 cf_init st pre hpre
  have hkey : st.cur_section ++ key = effective_key pre key := by
    unfold effective_key
    rw [hsec]
    cases last_section pre <;> rfl
  refine ⟨hkey, ?_⟩
  unfold parse_config_file
  rw [hl]
  have happ := config_lines_append options 1 cf_init pre (line :: post)
  rw [hpre] at happ
  change config_lines options 1 cf_init (pre ++ line :: post) = _ at happ
  rw [show (⟨[], []⟩ : cf_state) = cf_init from rfl, happ]
  simp only
  rw [config_lines, config_line_value options (1 + pre.length) line key v st hv, hkey]
  cases store_line line st ((find_option options (effective_key pre key) false).bind
      fun o => put st.values o [strip_quotes v]) with
  | error e => rfl
  | ok st1 =>
    simp only
    rw [show 1 + pre.length + 1 = pre.length + 2 by omega]

/-- Witness for C1: in the text `no_dot=5`, `[one]`, `setting=hei` the third line
is looked up under `one.setting`. -/
theorem parse_config_file_section_scoping_witness :
    getlines "no_dot=5\n[one]\nsetting=hei\n".toList
      = ["no_dot=5".toList, "[one]".toList] ++ "setting=hei".toList :: [] ∧
    match_value "setting=hei".toList = some ("setting".toList, "hei".toList) ∧
    config_lines [{ key := "one.setting".toList }, { key := "no_dot".toList }] 1 cf_init
      ["no_dot=5".toList, "[one]".toList] = .ok ⟨"one.".toList, [(1, ["5".toList])]⟩ ∧
    "one.".toList ++ "setting".toList
      = effective_key ["no_dot=5".toList, "[one]".toList] "setting".toList :=
  ⟨by decide, by decide, by decide,
    (parse_config_file_section_scoping.1
      [{ key := "one.setting".toList }, { key := "no_dot".toList }]
      "no_dot=5\n[one]\nsetting=hei\n".toList ["no_dot=5".toList, "[one]".toList] []
      "setting=hei".toList "setting".toList "hei".toList ⟨"one.".toList, [(1, ["5".toList])]⟩
      (by decide) (by decide) (by decide)).1⟩

/-- C2 (attached value in `parse_command_line`): before the end-of-options
marker, a token `--k=v` whose key `k` (free of `=`) resolves as a long key to an
option of arity at least 1, and a token `-k=v` whose key `k` (free of `=`, not
starting with a dash) resolves as a short key to such an option, make the round
store the one value `v` with `put` and move on to the next token: nothing after
the token is consumed and nothing is added to the positional sequence.  When
the store accepts the value, the option's values are `[v]`, after the earlier
ones if the option is composing.  A command line that is this one token yields
the store holding exactly `[v]` for the option.  In general, every token with
an `=` that names an option of arity at least 1 stores the text after its first
`=` in this way. -/
theorem parse_command_line_attached_value :
    (∀ (argv : string_v) (options : option_set) (st : cl_state) (arg : Str) (p : Nat)
        (o : option_cx),
      argv[st.a]? = some arg → st.end_of_options_marker = false → names options arg o →
      find_char '=' arg = some p → 1 ≤ o.opt.narg →
      token_value arg = arg.drop (p + 1) ∧
      step argv options st =
        (put st.values o [token_value arg]).map
          fun vs => { st with values := vs, a := st.a + 1 }) ∧
    (∀ (argv : string_v) (options : option_set) (st : cl_state) (k v : Str) (o : option_cx),
      argv[st.a]? = some (long_form_eq k v) → st.end_of_options_marker = false →
      '=' ∉ k → find_option options k false = .ok o → 1 ≤ o.opt.narg →
      step argv options st =
        (put st.values o [v]).map fun vs => { st with values := vs, a := st.a + 1 }) ∧
    (∀ (argv : string_v) (options : option_set) (st : cl_state) (k v : Str) (o : option_cx),
      argv[st.a]? = some (short_form_eq k v) → st.end_of_options_marker = false →
      '=' ∉ k → k.head? ≠ some '-' → find_option options k true = .ok o → 1 ≤ o.opt.narg →
      step argv options st =
        (put st.values o [v]).map fun vs => { st with values := vs, a := st.a + 1 }) ∧
    (∀ (vs vs1 : value_set) (o : option_cx) (v : Str), put vs o [v] = .ok vs1 →
      values vs1 o.id = if o.opt.composing then values vs o.id ++ [v] else [v]) ∧
    (∀ (options : option_set) (positional : string_v) (k v : Str) (o : option_cx),
      '=' ∉ k → find_option options k false = .ok o → 1 ≤ o.opt.narg →
      parse_command_line [long_form_eq k v] options positional
        = some (.ok ([(o.id, [v])], positional))) ∧
    (∀ (options : option_set) (positional : string_v) (k v : Str) (o : option_cx),
      '=' ∉ k → k.head? ≠ some '-' → find_option options k true = .ok o → 1 ≤ o.opt.narg →
      parse_command_line [short_form_eq k v] options positional
        = some (.ok ([(o.id, [v])], positional))) := by
  have hlong : ∀ (argv : string_v) (options : option_set) (st : cl_state) (k v : Str)
      (o : option_cx), argv[st.a]? = some (long_form_eq k v) →
      st.end_of_options_marker = false → '=' ∉ k → find_option options k false = .ok o →
      1 ≤ o.opt.narg →
      step argv options st =
        (put st.values o [v]).map fun vs => { st with values := vs, a := st.a + 1 } := by
    intro argv options st k v o harg hm hk hf hn
    have h := step_long_attached argv options st (long_form_eq k v) o (k.length + 2) harg
      (long_form_eq_ne k v) hm (long_form_eq_starts k v)
      (by rw [token_key_long_form_eq v hk]; exact hf) (by omega)
      (find_char_long_form_eq v hk)
    rw [token_value_long_form_eq v hk] at h
    exact h
  have hshort : ∀ (argv : string_v) (options : option_set) (st : cl_state) (k v : Str)
      (o : option_cx), argv[st.a]? = some (short_form_eq k v) →
      st.end_of_options_marker = false → '=' ∉ k → k.head? ≠ some '-' →
      find_option options k true = .ok o → 1 ≤ o.opt.narg →
      step argv options st =
        (put st.values o [v]).map fun vs => { st with values := vs, a := st.a + 1 } := by
    intro argv options st k v o harg hm hk hd hf hn
    have h := step_short_attached argv options st (short_form_eq k v) o (k.length + 1) harg
      (short_form_eq_ne v hd) hm (short_form_eq_not_long v hd) (short_form_eq_short k v)
      (by rw [token_key_short_form_eq v hk]; exact hf) (by omega)
      (find_char_short_form_eq v hk)
    rw [token_value_short_form_eq v hk] at h
    exact h
  refine ⟨?_, hlong, hshort, ?_, ?_, ?_⟩
  · intro argv options st arg p o harg hm hnames hp hn
    refine ⟨by simp [token_value, hp, substr_from], ?_⟩
    obtain ⟨hne, hform⟩ := hnames
    rcases hform with ⟨hd, hf⟩ | ⟨hd, hs, hf⟩
    · exact step_long_attached argv options st arg o p harg hne hm hd hf (by omega) hp
    · exact step_short_attached argv options st arg o p harg hne hm hd hs hf (by omega) hp
  · intro vs vs1 o v h
    exact put_values_same vs vs1 o [v] h
  · intro options positional k v o hk hf hn
    have h := hlong [long_form_eq k v] options (cl_init positional) k v o rfl rfl hk hf hn
    have hp : put (cl_init positional).values o [v] = .ok [(o.id, [v])] := by
      rw [put_unset (cl_init positional).values o [v] rfl]
      rfl
    rw [hp] at h
    simp only [parse_command_line, List.length_singleton, run]
    rw [show (⟨0, [], positional, false⟩ : cl_state) = cl_init positional from rfl]
    simp only [cl_init, Nat.lt_add_one, if_true] at h ⊢
    rw [h]
    rfl
  · intro options positional k v o hk hd hf hn
    have h := hshort [short_form_eq k v] options (cl_init positional) k v o rfl rfl hk hd hf hn
    have hp : put (cl_init positional).values o [v] = .ok [(o.id, [v])] := by
      rw [put_unset (cl_init positional).values o [v] rfl]
      rfl
    rw [hp] at h
    simp only [parse_command_line, List.length_singleton, run]
    rw [show (⟨0, [], positional, false⟩ : cl_state) = cl_init positional from rfl]
    simp only [cl_init, Nat.lt_add_one, if_true] at h ⊢
    rw [h]
    rfl

/-- Witness for C2: the command line `--empty_option=` of the test
`progopt_empty_option_value`. -/
theorem parse_command_line_attached_value_witness :
    ["--empty_option=".toList][(cl_init []).a]? = some (long_form_eq "empty_option".toList []) ∧
    (cl_init []).end_of_options_marker = false ∧ '=' ∉ "empty_option".toList ∧
    find_option [{ key := "empty_option".toList }] "empty_option".toList false
      = .ok ⟨0, { key := "empty_option".toList }⟩ ∧
    1 ≤ (⟨0, { key := "empty_option".toList }⟩ : option_cx).opt.narg ∧
    step ["--empty_option=".toList] [{ key := "empty_option".toList }] (cl_init [])
      = (put (cl_init []).values ⟨0, { key := "empty_option".toList }⟩ [[]]).map
          fun vs => { cl_init [] with values := vs, a := (cl_init []).a + 1 } :=
  ⟨by decide, by decide, by decide, by decide, by decide,
    parse_command_line_attached_value.2.1 ["--empty_option=".toList]
      [{ key := "empty_option".toList }] (cl_init []) "empty_option".toList []
      ⟨0, { key := "empty_option".toList }⟩ (by decide) (by decide) (by decide) (by decide)
      (by decide)⟩

/-- C3 (arity consumption in `parse_command_line`), the code at the failing
input: an option of arity `2 ^ 64 - 1` named at position 1 with no token after
it.  The sum `a + narg` wraps around to 0, the test for enough remaining tokens
succeeds, and the parse ends in a standard-library exception instead of the
missing-argument `option_error`, in long and in short form; with arity
`2 ^ 64 - 2` the sum does not wrap and the missing-argument error is thrown. -/
theorem parse_command_line_arity_wraps :
    parse_command_line ["test.exe".toList, "--k".toList]
        [{ key := "k".toList, narg := 2 ^ 64 - 1 }] []
      = some (.error .std_exception) ∧
    parse_command_line ["test.exe".toList, "-k".toList]
        [{ key := "key".toList, shortkeys := ["k".toList], narg := 2 ^ 64 - 1 }] []
      = some (.error .std_exception) ∧
    parse_command_line ["test.exe".toList, "--k".toList]
        [{ key := "k".toList, narg := 2 ^ 64 - 2 }] []
      = some (.error (.option_error (missing_long_what "k".toList))) := by
  decide

/-- C4 (composing accumulation): for a composing option `o` of arity 1 without
implicit value and an argument list made of occurrences of `o`, each supplying
one value as `--key value`, `--key=value`, `-short value` or `-short=value`,
the parse succeeds, leaves the positional sequence as it was, and the values of
`o` are the supplied values in encounter order, as many as there are
occurrences.  `--one.setting hei --one.setting=hi hey` gives `hei`, `hi` with
`hey` positional, and `-os hei --one.setting=hi` gives `hei`, `hi`. -/
theorem composing_accumulation :
    (∀ (options : option_set) (o : option_cx) (occs : List occurrence)
        (positional : string_v),
      o.opt.composing = true → o.opt.narg = 1 → o.opt.implicit_value = none →
      (∀ c ∈ occs, c.of options o) →
      ∃ vs, parse_command_line (command_line_of occs) options positional
          = some (.ok (vs, positional)) ∧
        values vs o.id = occs.map (fun c => c.value) ∧
        (values vs o.id).length = occs.length) ∧
    parse_command_line
        ["--one.setting".toList, "hei".toList, "--one.setting=hi".toList, "hey".toList]
        [{ key := "one.setting".toList, composing := true }, { key := "one.option".toList }] []
      = some (.ok ([(0, ["hei".toList, "hi".toList])], ["hey".toList])) ∧
    parse_command_line ["-os".toList, "hei".toList, "--one.setting=hi".toList]
        [{ key := "one.setting".toList, composing := true, shortkeys := ["os".toList] },
         { key := "one.option".toList }] []
      = some (.ok ([(0, ["hei".toList, "hi".toList])], [])) := by
  refine ⟨?_, by decide, by decide⟩
  intro options o occs positional hc hn hi hof
  obtain ⟨st1, hrun, hpos, hval⟩ := run_occurrences options o hc hn hi occs hof
    (command_line_of occs) [] (cl_init positional) rfl rfl rfl
  refine ⟨st1.values, ?_, ?_, ?_⟩
  · unfold parse_command_line
    rw [show (⟨0, [], positional, false⟩ : cl_state) = cl_init positional from rfl, hrun]
    simp only [Option.map_some', Except.map, hpos]
    rfl
  · rw [hval]
    rfl
  · rw [hval]
    simp [cl_init, values]

/-- Witness for C4: the two occurrences `--one.setting hei` and
`--one.setting=hi`. -/
theorem composing_accumulation_witness :
    (⟨0, { key := "one.setting".toList, composing := true }⟩ : option_cx).opt.composing = true ∧
    (⟨0, { key := "one.setting".toList, composing := true }⟩ : option_cx).opt.narg = 1 ∧
    (⟨0, { key := "one.setting".toList, composing := true }⟩ : option_cx).opt.implicit_value
      = none ∧
    (∀ c ∈ [(⟨.long_next, "one.setting".toList, "hei".toList⟩ : occurrence),
            ⟨.long_eq, "one.setting".toList, "hi".toList⟩],
      c.of [{ key := "one.setting".toList, composing := true }]
        ⟨0, { key := "one.setting".toList, composing := true }⟩) ∧
    ∃ vs, parse_command_line
        (command_line_of [(⟨.long_next, "one.setting".toList, "hei".toList⟩ : occurrence),
          ⟨.long_eq, "one.setting".toList, "hi".toList⟩])
        [{ key := "one.setting".toList, composing := true }] []
          = some (.ok (vs, [])) ∧
      values vs 0 = [(⟨.long_next, "one.setting".toList, "hei".toList⟩ : occurrence),
          ⟨.long_eq, "one.setting".toList, "hi".toList⟩].map (fun c => c.value) ∧
      (values vs 0).length = [(⟨.long_next, "one.setting".toList, "hei".toList⟩ : occurrence),
          ⟨.long_eq, "one.setting".toList, "hi".toList⟩].length :=
  ⟨by decide, by decide, by decide, by decide,
    composing_accumulation.1 [{ key := "one.setting".toList, composing := true }]
      ⟨0, { key := "one.setting".toList, composing := true }⟩
      [⟨.long_next, "one.setting".toList, "hei".toList⟩,
       ⟨.long_eq, "one.setting".toList, "hi".toList⟩] []
      (by decide) (by decide) (by decide) (by decide)⟩

/-- C5 (duplicate policy): let `o` be neither composing nor overwriting.
Command line: if a token naming `o` is met in a round before the marker, the
loop gets on, and a later round meets, before the marker, a token naming `o`
again (whatever the key forms), then the parse throws and returns no store; the
exception is the duplicate `option_error` whenever that second token comes with
its value or values, and an `option_error` in any case in which the sum of its
index and the arity does not exceed the range of `size_t`.  Config file: if a
key-value line resolves to `o`, the loop gets on, and a later key-value line
resolves to `o` again, the parse throws the duplicate `option_error` with the
line as context.  The command line `--setup=ha -s he` and the config text of
the test `progopt_config_file_exception_throw` fail in this way. -/
theorem duplicate_policy :
    (∀ (argv : string_v) (options : option_set) (positional : string_v) (j1 j2 : Nat)
        (sa sb : cl_state) (arg1 arg2 : Str) (o : option_cx),
      rounds argv options j1 (cl_init positional) = .ok sa →
      argv[sa.a]? = some arg1 → sa.end_of_options_marker = false → names options arg1 o →
      rounds argv options (j2 + 1) sa = .ok sb →
      argv[sb.a]? = some arg2 → sb.end_of_options_marker = false → names options arg2 o →
      o.opt.composing = false → o.opt.overwriting = false →
      ∃ e, parse_command_line argv options positional = some (.error e) ∧
        (comes_with_values argv sb arg2 o →
          e = .option_error (duplicate_option_what o.opt.key)) ∧
        (sb.a + o.opt.narg < SIZE_MOD → ∃ what, e = .option_error what)) ∧
    (∀ (options : option_set) (infile : Str) (pre1 mid post : List Str)
        (line1 line2 key1 v1 key2 v2 : Str) (s1 s2 : cf_state) (o : option_cx),
      getlines infile = pre1 ++ line1 :: (mid ++ line2 :: post) →
      match_value line1 = some (key1, v1) →
      config_lines options 1 cf_init pre1 = .ok s1 →
      find_option options (s1.cur_section ++ key1) false = .ok o →
      match_value line2 = some (key2, v2) →
      config_lines options 1 cf_init (pre1 ++ line1 :: mid) = .ok s2 →
      find_option options (s2.cur_section ++ key2) false = .ok o →
      o.opt.composing = false → o.opt.overwriting = false →
      parse_config_file infile options =
        .error (.option_error (lineno_what line2 (duplicate_option_what o.opt.key)))) ∧
    parse_command_line ["--setup=ha".toList, "-s".toList, "he".toList]
        [{ key := "setup".toList, shortkeys := ["s".toList] }] []
      = some (.error (.option_error (duplicate_option_what "setup".toList))) ∧
    parse_config_file
        ("# Global section\nglobal.setting=global_value\n\n[section1]\n".toList
          ++ "# A comment in section 1\nsetting=value1\n".toList
          ++ "nested_setting=\"a nested value with spaces\"\n\n[section2]\n".toList
          ++ "option=value2\nspaces_option='a value with special chars!@#'\n".toList
          ++ "# Another comment in section 2\noption=\n\n".toList
          ++ "# Invalid or missing sections should be ignored".toList)
        [{ key := "section1.setting".toList },
         { key := "section1.nested_setting".toList,
           implicit_value := some "default_nested".toList },
         { key := "section2.option".toList, implicit_value := some "default_option".toList },
         { key := "section2.spaces_option".toList },
         { key := "global.setting".toList }]
      = .error (.option_error
          (lineno_what "option=".toList (duplicate_option_what "section2.option".toList))) := by
  refine ⟨?_, ?_, by decide, by decide⟩
  · intro argv options positional j1 j2 sa sb arg1 arg2 o hra harg1 hm1 hn1 hrb harg2 hm2 hn2
      hc hw
    exact command_line_duplicate argv options positional j1 j2 sa sb arg1 arg2 o hra harg1 hm1
      hn1 hrb harg2 hm2 hn2 hc hw
  · intro options infile pre1 mid post line1 line2 key1 v1 key2 v2 s1 s2 o hl hv1 hpre1 hf1 hv2
      hpre2 hf2 hc hw
    exact config_duplicate options infile pre1 mid post line1 line2 key1 v1 key2 v2 s1 s2 o hl
      hv1 hpre1 hf1 hv2 hpre2 hf2 hc hw

/-- Witness for C5: the command line `--setup=ha -s he` of the test
`progopt_bad_duplicate`, whose second round meets `-s` with `setup` already
set. -/
theorem duplicate_policy_witness :
    rounds ["--setup=ha".toList, "-s".toList, "he".toList]
        [{ key := "setup".toList, shortkeys := ["s".toList] }] 0 (cl_init [])
      = .ok (cl_init []) ∧
    names [{ key := "setup".toList, shortkeys := ["s".toList] }] "--setup=ha".toList
      ⟨0, { key := "setup".toList, shortkeys := ["s".toList] }⟩ ∧
    rounds ["--setup=ha".toList, "-s".toList, "he".toList]
        [{ key := "setup".toList, shortkeys := ["s".toList] }] (0 + 1) (cl_init [])
      = .ok ⟨1, [(0, ["ha".toList])], [], false⟩ ∧
    names [{ key := "setup".toList, shortkeys := ["s".toList] }] "-s".toList
      ⟨0, { key := "setup".toList, shortkeys := ["s".toList] }⟩ ∧
    ∃ e, parse_command_line ["--setup=ha".toList, "-s".toList, "he".toList]
        [{ key := "setup".toList, shortkeys := ["s".toList] }] [] = some (.error e) ∧
      (comes_with_values ["--setup=ha".toList, "-s".toList, "he".toList]
          ⟨1, [(0, ["ha".toList])], [], false⟩ "-s".toList
          ⟨0, { key := "setup".toList, shortkeys := ["s".toList] }⟩ →
        e = .option_error (duplicate_option_what
          (⟨0, { key := "setup".toList, shortkeys := ["s".toList] }⟩ : option_cx).opt.key)) ∧
      ((⟨1, [(0, ["ha".toList])], [], false⟩ : cl_state).a
          + (⟨0, { key := "setup".toList, shortkeys := ["s".toList] }⟩ : option_cx).opt.narg
          < SIZE_MOD → ∃ what, e = .option_error what) :=
  ⟨by decide, by decide, by decide, by decide,
    duplicate_policy.1 ["--setup=ha".toList, "-s".toList, "he".toList]
      [{ key := "setup".toList, shortkeys := ["s".toList] }] [] 0 0 (cl_init [])
      ⟨1, [(0, ["ha".toList])], [], false⟩ "--setup=ha".toList "-s".toList
      ⟨0, { key := "setup".toList, shortkeys := ["s".toList] }⟩
      (by decide) (by decide) (by decide) (by decide) (by decide) (by decide) (by decide)
      (by decide) (by decide) (by decide)⟩

/-- C6 (overwriting policy): let `o` be overwriting and not composing.  `put`
on `o` always succeeds and leaves exactly the new group as the values of `o`.
A round that meets, before the marker, a token naming `o` which comes with its
value or values succeeds and leaves exactly that occurrence's values as the
values of `o`; a round naming `o` that fails does not fail with the duplicate
error.  If after such a successful round no later round meets, before the
marker, a token naming `o`, and the parse returns a store, the values of `o` in
that store are the values of this last occurrence.  `--setup=ha -s he` yields
the value `he`. -/
theorem overwriting_policy :
    (∀ (vs : value_set) (o : option_cx) (g : string_v),
      o.opt.composing = false → o.opt.overwriting = true →
      put vs o g = .ok (assign vs o.id g) ∧ values (assign vs o.id g) o.id = g) ∧
    (∀ (argv : string_v) (options : option_set) (st : cl_state) (arg : Str) (o : option_cx),
      o.opt.composing = false → o.opt.overwriting = true →
      argv[st.a]? = some arg → st.end_of_options_marker = false → names options arg o →
      (comes_with_values argv st arg o →
        ∃ st1, step argv options st = .ok st1 ∧
          values st1.values o.id = supplied argv st arg o) ∧
      (∀ e, step argv options st = .error e →
        e ≠ .option_error (duplicate_option_what o.opt.key))) ∧
    (∀ (argv : string_v) (options : option_set) (positional : string_v) (j : Nat)
        (st st1 : cl_state) (arg : Str) (o : option_cx) (vs : value_set) (pos : string_v),
      o.opt.composing = false → o.opt.overwriting = true →
      rounds argv options j (cl_init positional) = .ok st →
      argv[st.a]? = some arg → st.end_of_options_marker = false → names options arg o →
      step argv options st = .ok st1 →
      (∀ (i : Nat) (s : cl_state), rounds argv options i st1 = .ok s →
        ∀ (arg1 : Str), argv[s.a]? = some arg1 → s.end_of_options_marker = false →
        ∀ (o1 : option_cx), names options arg1 o1 → o1.id ≠ o.id) →
      parse_command_line argv options positional = some (.ok (vs, pos)) →
      values vs o.id = supplied argv st arg o) ∧
    parse_command_line ["--setup=ha".toList, "-s".toList, "he".toList]
        [{ key := "setup".toList, shortkeys := ["s".toList], overwriting := true }] []
      = some (.ok ([(0, ["he".toList])], [])) := by
  refine ⟨?_, ?_, ?_, by decide⟩
  · intro vs o g hc hw
    exact ⟨put_overwriting vs o g hc hw, values_assign_same vs o.id g⟩
  · intro argv options st arg o hc hw harg hm hnames
    constructor
    · intro hv
      obtain ⟨a1, _, heq⟩ := step_named_supplied argv options st arg o harg hm hnames hv
      rw [put_overwriting st.values o _ hc hw] at heq
      exact ⟨_, heq, values_assign_same _ _ _⟩
    · intro e he hdup
      by_cases hv : comes_with_values argv st arg o
      · obtain ⟨a1, _, heq⟩ := step_named_supplied argv options st arg o harg hm hnames hv
        rw [put_overwriting st.values o _ hc hw, he] at heq
        cases heq
      · rcases step_named_lacking argv options st arg o harg hm hnames hc hv with h | h | h
        · rw [he, hdup] at h
          injection h with h
          injection h with h
          exact missing_long_ne_duplicate _ _ h.symm
        · rw [he, hdup] at h
          injection h with h
          injection h with h
          exact missing_short_ne_duplicate _ _ h.symm
        · rw [he, hdup] at h
          cases h
  · intro argv options positional j st st1 arg o vs pos hc hw hr harg hm hnames hstep hlater hp
    have hr1 : rounds argv options (j + 1) (cl_init positional) = .ok st1 :=
      rounds_add argv options j 1 _ st st1 hr (by simp [rounds, hstep])
    obtain ⟨i, st2, hi, _, hvs, _⟩ :=
      parse_ok_rounds argv options positional (j + 1) st1 vs pos hr1 hp
    have hframe := rounds_values_frame argv options i st1 st2 o.id hi hlater
    obtain ⟨hput, _, _, _⟩ := step_named_ok argv options st st1 arg o harg hm hnames hstep
    rw [put_overwriting st.values o _ hc hw] at hput
    injection hput with hput
    rw [← hvs, hframe, ← hput]
    exact values_assign_same _ _ _

/-- Witness for C6: the second round of `--setup=ha -s he` with `setup`
overwriting. -/
theorem overwriting_policy_witness :
    (⟨0, { key := "setup".toList, shortkeys := ["s".toList], overwriting := true }⟩ :
      option_cx).opt.composing = false ∧
    (⟨0, { key := "setup".toList, shortkeys := ["s".toList], overwriting := true }⟩ :
      option_cx).opt.overwriting = true ∧
    ["--setup=ha".toList, "-s".toList, "he".toList][
      (⟨1, [(0, ["ha".toList])], [], false⟩ : cl_state).a]? = some "-s".toList ∧
    names [{ key := "setup".toList, shortkeys := ["s".toList], overwriting := true }]
      "-s".toList
      ⟨0, { key := "setup".toList, shortkeys := ["s".toList], overwriting := true }⟩ ∧
    comes_with_values ["--setup=ha".toList, "-s".toList, "he".toList]
      ⟨1, [(0, ["ha".toList])], [], false⟩ "-s".toList
      ⟨0, { key := "setup".toList, shortkeys := ["s".toList], overwriting := true }⟩ ∧
    ∃ st1, step ["--setup=ha".toList, "-s".toList, "he".toList]
        [{ key := "setup".toList, shortkeys := ["s".toList], overwriting := true }]
        ⟨1, [(0, ["ha".toList])], [], false⟩ = .ok st1 ∧
      values st1.values 0 = supplied ["--setup=ha".toList, "-s".toList, "he".toList]
        ⟨1, [(0, ["ha".toList])], [], false⟩ "-s".toList
        ⟨0, { key := "setup".toList, shortkeys := ["s".toList], overwriting := true }⟩ :=
  ⟨by decide, by decide, by decide, by decide, by decide,
    (overwriting_policy.2.1 ["--setup=ha".toList, "-s".toList, "he".toList]
      [{ key := "setup".toList, shortkeys := ["s".toList], overwriting := true }]
      ⟨1, [(0, ["ha".toList])], [], false⟩ "-s".toList
      ⟨0, { key := "setup".toList, shortkeys := ["s".toList], overwriting := true }⟩
      (by decide) (by decide) (by decide) (by decide) (by decide)).1 (by decide)⟩

/-- C7 (end-of-options marker), the code at the failing input: a second `--`
after the marker is dropped like the first instead of becoming positional.  In
`-- --` the token after the marker is lost, and in
`--one.setting hei -- --one.option=hi -- hey` the positional output is
`--one.option=hi`, `hey`, without the `--` that stands between them, while the
store is the one obtained from `--one.setting hei` alone. -/
theorem end_of_options_marker_repeated :
    parse_command_line ["--".toList, "--".toList] [] [] = some (.ok ([], [])) ∧
    parse_command_line
        ["--one.setting".toList, "hei".toList, "--".toList, "--one.option=hi".toList,
         "--".toList, "hey".toList]
        [{ key := "one.setting".toList, composing := true }, { key := "one.option".toList }] []
      = some (.ok ([(0, ["hei".toList])], ["--one.option=hi".toList, "hey".toList])) ∧
    parse_command_line ["--one.setting".toList, "hei".toList]
        [{ key := "one.setting".toList, composing := true }, { key := "one.option".toList }] []
      = some (.ok ([(0, ["hei".toList])], [])) := by
  decide

/-- C8 (zero-arity flag): when a round meets, before the marker, a token naming
an option `o` of arity 0, it stores the single value `""` for `o` with `put` and
moves on to the next token, whether or not a value is attached: nothing
attached is stored or rejected and no following token is consumed.  The tokens
`--k`, `--k=x`, `-k`, `-k=x` name the option their key resolves to.  On a store
without a value for `o` the `put` succeeds and leaves `o` set with exactly the
value `""`; whenever the `put` succeeds `o` is set and its values are `[""]`,
after the earlier ones if `o` is composing. -/
theorem zero_arity_flag :
    (∀ (argv : string_v) (options : option_set) (st : cl_state) (arg : Str) (o : option_cx),
      argv[st.a]? = some arg → st.end_of_options_marker = false → names options arg o →
      o.opt.narg = 0 →
      step argv options st =
        (put st.values o [[]]).map fun vs => { st with values := vs, a := st.a + 1 }) ∧
    (∀ (options : option_set) (k x : Str) (o : option_cx),
      '=' ∉ k → find_option options k false = .ok o →
      names options (long_form_eq k x) o ∧ (k ≠ [] → names options (long_form k) o)) ∧
    (∀ (options : option_set) (k x : Str) (o : option_cx),
      '=' ∉ k → k.head? ≠ some '-' → find_option options k true = .ok o →
      names options (short_form_eq k x) o ∧ (k ≠ [] → names options (short_form k) o)) ∧
    (∀ (vs : value_set) (o : option_cx), values vs o.id = [] →
      ∃ vs1, put vs o [[]] = .ok vs1 ∧ values vs1 o.id = [[]] ∧ is_set vs1 o.id = true) ∧
    (∀ (vs vs1 : value_set) (o : option_cx), put vs o [[]] = .ok vs1 →
      is_set vs1 o.id = true ∧
      values vs1 o.id = if o.opt.composing then values vs o.id ++ [[]] else [[]]) ∧
    parse_command_line
        ["-to".toList, "hei".toList, "ho".toList, "-h".toList, "extra".toList]
        [{ key := "help".toList, shortkeys := ["h".toList], narg := 0 },
         { key := "this.option".toList, shortkeys := ["to".toList], narg := 2 }] []
      = some (.ok ([(1, ["hei".toList, "ho".toList]), (0, [[]])], ["extra".toList])) ∧
    parse_command_line ["--help=anything".toList, "extra".toList]
        [{ key := "help".toList, shortkeys := ["h".toList], narg := 0 }] []
      = some (.ok ([(0, [[]])], ["extra".toList])) := by
  refine ⟨?_, ?_, ?_, ?_, ?_, by decide, by decide⟩
  · intro argv options st arg o harg hm hnames hn
    obtain ⟨hne, hform⟩ := hnames
    rcases hform with ⟨hd, hf⟩ | ⟨hd, hs, hf⟩
    · exact step_long_flag argv options st arg o harg hne hm hd hf hn
    · exact step_short_flag argv options st arg o harg hne hm hd hs hf hn
  · intro options k x o hk hf
    exact ⟨names_long_form_eq options k x o hk hf,
      fun hk0 => names_long_form options k o hk hk0 hf⟩
  · intro options k x o hk hd hf
    exact ⟨names_short_form_eq options k x o hk hd hf,
      fun hk0 => names_short_form options k o hk hk0 hd hf⟩
  · intro vs o hu
    refine ⟨_, put_unset vs o [[]] hu, ?_, ?_⟩
    · rw [values_assign_same, hu]
      rfl
    · unfold is_set
      rw [values_assign_same, hu]
      rfl
  · intro vs vs1 o hput
    exact ⟨is_set_put_same vs vs1 o [[]] hput (by simp), put_values_same vs vs1 o [[]] hput⟩

/-- Witness for C8: the token `--help=anything` with `help` of arity 0. -/
theorem zero_arity_flag_witness :
    ["--help=anything".toList, "extra".toList][(cl_init []).a]?
      = some "--help=anything".toList ∧
    (cl_init []).end_of_options_marker = false ∧
    names [{ key := "help".toList, narg := 0 }] "--help=anything".toList
      ⟨0, { key := "help".toList, narg := 0 }⟩ ∧
    (⟨0, { key := "help".toList, narg := 0 }⟩ : option_cx).opt.narg = 0 ∧
    step ["--help=anything".toList, "extra".toList] [{ key := "help".toList, narg := 0 }]
        (cl_init [])
      = (put (cl_init []).values ⟨0, { key := "help".toList, narg := 0 }⟩ [[]]).map
          fun vs => { cl_init [] with values := vs, a := (cl_init []).a + 1 } :=
  ⟨by decide, by decide, by decide, by decide,
    zero_arity_flag.1 ["--help=anything".toList, "extra".toList]
      [{ key := "help".toList, narg := 0 }] (cl_init []) "--help=anything".toList
      ⟨0, { key := "help".toList, narg := 0 }⟩ (by decide) (by decide) (by decide)
      (by decide)⟩

/-- C9 (implicit value on long options): when a round meets, before the marker,
the token `--k` (no `=`) whose key resolves as a long key to an option `o` of
arity at least 1 with implicit value `iv`, it stores `iv` for `o` with `put` and
moves on to the next token, consuming none.  The only failure is that of `put`,
the duplicate error, which is not the missing-argument error; this holds also
when the token is the last one.  After a successful round the values of `o` are
`[iv]`, after the earlier ones if `o` is composing.  On a store without a value
for `o` the round succeeds and afterwards `value` of `o` is `iv`, whatever
the default. -/
theorem implicit_value_long :
    (∀ (argv : string_v) (options : option_set) (st : cl_state) (k iv : Str) (o : option_cx),
      argv[st.a]? = some (long_form k) → k ≠ [] → '=' ∉ k →
      st.end_of_options_marker = false → find_option options k false = .ok o →
      1 ≤ o.opt.narg → o.opt.implicit_value = some iv →
      step argv options st =
        (put st.values o [iv]).map (fun vs => { st with values := vs, a := st.a + 1 }) ∧
      (∀ e, step argv options st = .error e →
        e = .option_error (duplicate_option_what o.opt.key) ∧
        e ≠ .option_error (missing_long_what o.opt.key)) ∧
      (∀ st1, step argv options st = .ok st1 →
        st1.a = st.a + 1 ∧ st1.positional = st.positional ∧
        values st1.values o.id =
          if o.opt.composing then values st.values o.id ++ [iv] else [iv]) ∧
      (values st.values o.id = [] →
        ∃ st1, step argv options st = .ok st1 ∧ value st1.values o = .ok iv)) ∧
    parse_command_line ["--setting".toList]
        [{ key := "setting".toList, default_value := some "default".toList,
           implicit_value := some "implicit".toList }] []
      = some (.ok ([(0, ["implicit".toList])], [])) ∧
    value [(0, ["implicit".toList])]
        ⟨0, { key := "setting".toList, default_value := some "default".toList,
              implicit_value := some "implicit".toList }⟩
      = .ok "implicit".toList ∧
    parse_command_line ["--setting".toList, "next".toList]
        [{ key := "setting".toList, narg := 2, composing := true,
           implicit_value := some "implicit".toList }] []
      = some (.ok ([(0, ["implicit".toList])], ["next".toList])) := by
  refine ⟨?_, by decide, by decide, by decide⟩
  intro argv options st k iv o harg hk0 hk hm hf hn hi
  have hstep : step argv options st =
      (put st.values o [iv]).map (fun vs => { st with values := vs, a := st.a + 1 }) := by
    have h := step_long_implicit argv options st (long_form k) o harg (long_form_ne hk0) hm
      (long_form_starts k) (by rw [token_key_long_form hk]; exact hf) (by omega)
      (find_char_long_form hk) (by simp [option.has_implicit_value, hi])
    rw [h]
    simp [put_implicit, hi]
  refine ⟨hstep, ?_, ?_, ?_⟩
  · intro e he
    rw [hstep] at he
    cases hput : put st.values o [iv] with
    | ok vs => rw [hput] at he; cases he
    | error e1 =>
      rw [hput] at he
      injection he with he
      subst he
      have := put_error_inv st.values o [iv] e1 hput
      subst this
      refine ⟨rfl, ?_⟩
      intro hcontra
      injection hcontra with hcontra
      exact missing_long_ne_duplicate _ _ hcontra.symm
  · intro st1 hok
    rw [hstep] at hok
    obtain ⟨vs, hput, hst⟩ := map_ok_inv hok
    subst hst
    exact ⟨rfl, rfl, put_values_same st.values vs o [iv] hput⟩
  · intro hu
    rw [hstep, put_unset st.values o [iv] hu]
    refine ⟨_, rfl, ?_⟩
    simp [value, values_assign_same, hu]

/-- Witness for C9: the command line `--setting` of the test
`progopt_implicit_and_default_values_combined`. -/
theorem implicit_value_long_witness :
    ["--setting".toList][(cl_init []).a]? = some (long_form "setting".toList) ∧
    "setting".toList ≠ [] ∧ '=' ∉ "setting".toList ∧
    (cl_init []).end_of_options_marker = false ∧
    find_option [{ key := "setting".toList, default_value := some "default".toList,
                   implicit_value := some "implicit".toList }] "setting".toList false
      = .ok ⟨0, { key := "setting".toList, default_value := some "default".toList,
                  implicit_value := some "implicit".toList }⟩ ∧
    step ["--setting".toList]
        [{ key := "setting".toList, default_value := some "default".toList,
           implicit_value := some "implicit".toList }] (cl_init [])
      = (put (cl_init []).values
          ⟨0, { key := "setting".toList, default_value := some "default".toList,
                implicit_value := some "implicit".toList }⟩ ["implicit".toList]).map
          (fun vs => { cl_init [] with values := vs, a := (cl_init []).a + 1 }) :=
  ⟨by decide, by decide, by decide, by decide, by decide,
    (implicit_value_long.1 ["--setting".toList]
      [{ key := "setting".toList, default_value := some "default".toList,
         implicit_value := some "implicit".toList }] (cl_init []) "setting".toList
      "implicit".toList
      ⟨0, { key := "setting".toList, default_value := some "default".toList,
            implicit_value := some "implicit".toList }⟩
      (by decide) (by decide) (by decide) (by decide) (by decide) (by decide) (by decide)).1⟩

/-- C10 (quote stripping in `parse_config_file`): on a key-value line with
captured value `v` the round stores `strip_quotes v` under the resolved key.
`strip_quotes` removes the first and the last character of a value that starts
with a single or double quote and ends with the same one (which takes at least
two characters), and leaves every other value unchanged: a lone quote,
an opening quote without the same closing quote, mismatched quotes.  One
layer is removed: `k=""x""` stores `"x"` and `k=""` stores the empty string. -/
theorem quote_stripping :
    (∀ (options : option_set) (lineno : Nat) (line key v : Str) (st : cf_state),
      match_value line = some (key, v) →
      config_line options lineno line st =
        store_line line st ((find_option options (st.cur_section ++ key) false).bind
          fun o => put st.values o [strip_quotes v])) ∧
    (∀ (q : Char) (mid : Str), (q = '\'' ∨ q = '"') →
      strip_quotes (q :: (mid ++ [q])) = mid) ∧
    (∀ (v : Str), (∀ (q : Char) (mid : Str), (q = '\'' ∨ q = '"') → v ≠ q :: (mid ++ [q])) →
      strip_quotes v = v) ∧
    strip_quotes "\"".toList = "\"".toList ∧
    strip_quotes "\"abc".toList = "\"abc".toList ∧
    strip_quotes "'abc\"".toList = "'abc\"".toList ∧
    parse_config_file "k=\"\"x\"\"\n".toList [{ key := "k".toList }]
      = .ok [(0, ["\"x\"".toList])] ∧
    parse_config_file "k=\"\"\n".toList [{ key := "k".toList }] = .ok [(0, [[]])] ∧
    parse_config_file "setting=\"a b\"\nother='x'\n".toList
        [{ key := "setting".toList }, { key := "other".toList }]
      = .ok [(0, ["a b".toList]), (1, ["x".toList])] := by
  refine ⟨?_, ?_, ?_, by decide, by decide, by decide, by decide, by decide, by decide⟩
  · intro options lineno line key v st hv
    exact config_line_value options lineno line key v st hv
  · intro q mid hq
    exact strip_quotes_quoted q mid hq
  · intro v h
    exact strip_quotes_plain v h

/-- Witness for C10: the line `setting="a b"`. -/
theorem quote_stripping_witness :
    match_value "setting=\"a b\"".toList = some ("setting".toList, "\"a b\"".toList) ∧
    config_line [{ key := "setting".toList }] 1 "setting=\"a b\"".toList cf_init =
      store_line "setting=\"a b\"".toList cf_init
        ((find_option [{ key := "setting".toList }]
            (cf_init.cur_section ++ "setting".toList) false).bind
          fun o => put cf_init.values o [strip_quotes "\"a b\"".toList]) ∧
    strip_quotes "\"a b\"".toList = "a b".toList :=
  ⟨by decide,
    quote_stripping.1 [{ key := "setting".toList }] 1 "setting=\"a b\"".toList
      "setting".toList "\"a b\"".toList cf_init (by decide),
    by decide⟩

/-- C11 (unknown option in `parse_command_line`): when a round meets, before the
end-of-options marker, a token other than the marker `--` that starts with `--`
and whose key (the text between the dashes and the first `=`, or the end) is
not registered as a long key, or that starts with `-`, is longer than one
character and whose key is not registered as a short key, the whole parse
throws the unknown-option `option_error` of `find_option` and returns no store;
the token does not become positional.  So `-5` fails, unless it follows `--`
or is consumed as a value. -/
theorem unknown_option :
    (∀ (argv : string_v) (options : option_set) (positional : string_v) (j : Nat)
        (st : cl_state) (arg : Str),
      rounds argv options j (cl_init positional) = .ok st →
      argv[st.a]? = some arg → st.end_of_options_marker = false → arg ≠ ['-', '-'] →
      (starts_with ['-', '-'] arg = true → unregistered options (token_key arg 2) false →
        parse_command_line argv options positional
          = some (.error (.option_error (unknown_option_what (token_key arg 2) false)))) ∧
      (starts_with ['-', '-'] arg = false →
        (starts_with ['-'] arg && decide (arg.length > 1)) = true →
        unregistered options (token_key arg 1) true →
        parse_command_line argv options positional
          = some (.error (.option_error (unknown_option_what (token_key arg 1) true))))) ∧
    parse_command_line ["-5".toList]
        [{ key := "setting1".toList, shortkeys := ["s1".toList] }, { key := "setting2".toList }]
        []
      = some (.error (.option_error (unknown_option_what "5".toList true))) ∧
    parse_command_line ["--non_existing_setting=1".toList, "x".toList]
        [{ key := "setting1".toList, shortkeys := ["s1".toList] }, { key := "setting2".toList }]
        []
      = some (.error (.option_error
          (unknown_option_what "non_existing_setting".toList false))) ∧
    parse_command_line ["--".toList, "-5".toList]
        [{ key := "setting1".toList, shortkeys := ["s1".toList] }, { key := "setting2".toList }]
        []
      = some (.ok ([], ["-5".toList])) ∧
    parse_command_line ["--setting2".toList, "-5".toList]
        [{ key := "setting1".toList, shortkeys := ["s1".toList] }, { key := "setting2".toList }]
        []
      = some (.ok ([(1, ["-5".toList])], [])) := by
  refine ⟨?_, by decide, by decide, by decide, by decide⟩
  intro argv options positional j st arg hr harg hm hne
  have hlt : st.a < argv.length := (List.getElem?_eq_some.mp harg).1
  constructor
  · intro hd hu
    exact parse_error_of_rounds argv options positional j st _ hr hlt
      (step_long_unknown argv options st arg _ harg hne hm hd
        (find_option_unregistered options _ false hu))
  · intro hd hs hu
    exact parse_error_of_rounds argv options positional j st _ hr hlt
      (step_short_unknown argv options st arg _ harg hne hm hd hs
        (find_option_unregistered options _ true hu))

/-- Witness for C11: the command line `x -5` with no short key `5` registered;
the second round meets `-5`. -/
theorem unknown_option_witness :
    rounds ["x".toList, "-5".toList] [{ key := "setting1".toList }] 1 (cl_init [])
      = .ok ⟨1, [], ["x".toList], false⟩ ∧
    ["x".toList, "-5".toList][(⟨1, [], ["x".toList], false⟩ : cl_state).a]?
      = some "-5".toList ∧
    "-5".toList ≠ ['-', '-'] ∧
    starts_with ['-', '-'] "-5".toList = false ∧
    (starts_with ['-'] "-5".toList && decide ("-5".toList.length > 1)) = true ∧
    unregistered [{ key := "setting1".toList }] (token_key "-5".toList 1) true ∧
    parse_command_line ["x".toList, "-5".toList] [{ key := "setting1".toList }] []
      = some (.error (.option_error (unknown_option_what (token_key "-5".toList 1) true))) :=
  ⟨by decide, by decide, by decide, by decide, by decide, by decide,
    (unknown_option.1 ["x".toList, "-5".toList] [{ key := "setting1".toList }] [] 1
      ⟨1, [], ["x".toList], false⟩ "-5".toList (by decide) (by decide) (by decide)
      (by decide)).2 (by decide) (by decide) (by decide)⟩

/-- C12 (positional output of `parse_command_line`): a successful round leaves
the positional sequence as it was, followed by the round's token if and only
if that token is classified as positional.  After a successful parse the
positional sequence is its content before the call followed by a subsequence of
`argv`, in `argv` order.  When every token of `argv` either does not start with
`-` or is the bare token `-`, the parse succeeds with an empty store and the
positional sequence is the old content followed by all of `argv`. -/
theorem positional_output :
    (∀ (argv : string_v) (options : option_set) (st st1 : cl_state) (arg : Str),
      argv[st.a]? = some arg → step argv options st = .ok st1 →
      st1.positional = st.positional ++ (if classified_positional st arg then [arg] else [])) ∧
    (∀ (argv : string_v) (options : option_set) (positional pos : string_v) (vs : value_set),
      parse_command_line argv options positional = some (.ok (vs, pos)) →
      ∃ sub, pos = positional ++ sub ∧ sub.Sublist argv) ∧
    (∀ (argv : string_v) (options : option_set) (positional : string_v),
      (∀ t ∈ argv, plain_token t = true) →
      parse_command_line argv options positional = some (.ok ([], positional ++ argv))) ∧
    parse_command_line
        ["--one.setting".toList, "hei".toList, "--one.setting=hi".toList, "hey".toList]
        [{ key := "one.setting".toList, composing := true }, { key := "one.option".toList }]
        ["old".toList]
      = some (.ok ([(0, ["hei".toList, "hi".toList])], ["old".toList, "hey".toList])) := by
  refine ⟨?_, ?_, ?_, by decide⟩
  · intro argv options st st1 arg harg hok
    exact step_positional_eq argv options st st1 arg harg hok
  · intro argv options positional pos vs hp
    obtain ⟨i, st1, hi, _, _, hpos⟩ :=
      parse_ok_rounds argv options positional 0 (cl_init positional) vs pos rfl hp
    obtain ⟨sub, hsub, hsl⟩ := rounds_positional_sublist argv options i _ st1 hi
    refine ⟨sub, ?_, ?_⟩
    · rw [← hpos, hsub]
      rfl
    · simpa [cl_init] using hsl
  · intro argv options positional hplain
    unfold parse_command_line
    rw [show (⟨0, [], positional, false⟩ : cl_state) = cl_init positional from rfl,
      run_plain argv [] argv options (cl_init positional) rfl rfl hplain]
    rfl

/-- Witness for C12: the command line `a - b`, whose tokens are all plain. -/
theorem positional_output_witness :
    (∀ t ∈ ["a".toList, "-".toList, "b".toList], plain_token t = true) ∧
    parse_command_line ["a".toList, "-".toList, "b".toList] [{ key := "k".toList }]
        ["old".toList]
      = some (.ok ([], ["old".toList] ++ ["a".toList, "-".toList, "b".toList])) :=
  ⟨by decide,
    positional_output.2.2.1 ["a".toList, "-".toList, "b".toList] [{ key := "k".toList }]
      ["old".toList] (by decide)⟩

/-- C13 (`operator>>` on a non-composing option that is not set), the code at
the failing input: with arity `2 ^ 31` the cast `(int)narg` is negative, the
test for enough remaining tokens succeeds with no token left, and the iterator
`begin() + narg` is formed past the end: the behaviour is undefined, where a
positional-arg error is due.  With arity `2 ^ 32 + 1` and one token left the
cast gives 1 and the same happens.  With arity `2 ^ 31 - 1` the cast is exact
and the error is thrown with store and cursor unchanged. -/
theorem consume_arity_cast :
    consume ⟨[], [], 0⟩ ⟨0, { key := "k".toList, narg := 2 ^ 31 }⟩ = .undefined ∧
    consume ⟨[], ["a".toList], 0⟩ ⟨0, { key := "k".toList, narg := 2 ^ 32 + 1 }⟩
      = .undefined ∧
    consume ⟨[], [], 0⟩ ⟨0, { key := "k".toList, narg := 2 ^ 31 - 1 }⟩
      = .throws (.option_error (positional_arg_what "k".toList)) ⟨[], [], 0⟩ := by
  decide

/-- C14 (`operator>>` on a composing option), the code at the failing input:
with no positional token left, be the sequence empty or the cursor at its end,
the token under the cursor is read and the cursor advanced all the same: the
behaviour is undefined.  With a token left the token under the cursor is
appended to the option's values and the cursor advances by one. -/
theorem consume_composing_unchecked :
    consume ⟨[], [], 0⟩ ⟨0, { key := "k".toList, composing := true }⟩ = .undefined ∧
    consume ⟨[(0, ["a".toList])], ["a".toList], 1⟩
        ⟨0, { key := "k".toList, composing := true }⟩
      = .undefined ∧
    consume ⟨[(0, ["a".toList])], ["a".toList, "b".toList], 1⟩
        ⟨0, { key := "k".toList, composing := true }⟩
      = .returns ⟨[(0, ["a".toList, "b".toList])], ["a".toList, "b".toList], 2⟩ := by
  decide

/-- C20 (idempotent skip of `operator>>`): for a non-composing option that has a
value in the store the call returns with the object unchanged: the store, the
cursor and so `done()` are as before, and nothing is thrown, however few
positional tokens remain.  Hence, for a non-composing option of arity at least
1, a call that returns leaves a state in which a second call returns with that
same state, and a call that throws leaves the state it found. -/
theorem consume_idempotent_skip :
    (∀ (c : positional_args_consumer) (o : option_cx),
      o.opt.composing = false → is_set c.values_ o.id = true →
      consume c o = .returns c) ∧
    (∀ (c c1 : positional_args_consumer) (o : option_cx),
      o.opt.composing = false → 1 ≤ o.opt.narg →
      consume c o = .returns c1 → consume c1 o = .returns c1) ∧
    (∀ (c c1 : positional_args_consumer) (o : option_cx) (e : error),
      o.opt.composing = false → consume c o = .throws e c1 → c1 = c) ∧
    consume ⟨[(0, ["hei".toList, "hi".toList])], ["hey".toList], 0⟩
        ⟨1, { key := "one.option".toList }⟩
      = .returns ⟨[(0, ["hei".toList, "hi".toList]), (1, ["hey".toList])], ["hey".toList], 1⟩ ∧
    consume ⟨[(0, ["hei".toList, "hi".toList]), (1, ["hey".toList])], ["hey".toList], 1⟩
        ⟨1, { key := "one.option".toList }⟩
      = .returns ⟨[(0, ["hei".toList, "hi".toList]), (1, ["hey".toList])], ["hey".toList], 1⟩ ∧
    consume ⟨[(1, ["x".toList])], [], 0⟩ ⟨1, { key := "one.option".toList, narg := 3 }⟩
      = .returns ⟨[(1, ["x".toList])], [], 0⟩ := by
  refine ⟨?_, ?_, ?_, by decide, by decide, by decide⟩
  · intro c o hc hs
    exact consume_set c o hc hs
  · intro c c1 o hc hn h
    exact consume_returns_twice c c1 o hc hn h
  · intro c c1 o e hc h
    simp only [consume, hc, Bool.false_eq_true, if_false] at h
    split at h
    · split at h
      · split at h
        · split at h
          · cases h
          · injection h with _ h
            exact h.symm
        · cases h
      · injection h with _ h
        exact h.symm
    · cases h

/-- Witness for C20: the option `one.option` is set and three tokens would be
needed while none is left. -/
theorem consume_idempotent_skip_witness :
    (⟨1, { key := "one.option".toList, narg := 3 }⟩ : option_cx).opt.composing = false ∧
    is_set (⟨[(1, ["x".toList])], [], 0⟩ : positional_args_consumer).values_
      (⟨1, { key := "one.option".toList, narg := 3 }⟩ : option_cx).id = true ∧
    consume ⟨[(1, ["x".toList])], [], 0⟩ ⟨1, { key := "one.option".toList, narg := 3 }⟩
      = .returns ⟨[(1, ["x".toList])], [], 0⟩ :=
  ⟨by decide, by decide,
    consume_idempotent_skip.1 ⟨[(1, ["x".toList])], [], 0⟩
      ⟨1, { key := "one.option".toList, narg := 3 }⟩ (by decide) (by decide)⟩

/-- C17 (composing options consume one token), the code at the failing input: a
composing option of arity 2 named in short form.  The short-option branch has
no case for composing options and takes `narg` tokens: `-c a b` stores the
group `a`, `b` and leaves nothing positional, and `-c a` fails with the
missing-argument error although a token follows.  In long form the same
option takes one token: `--comp a b` stores `a` and leaves `b` positional. -/
theorem composing_short_form_takes_narg :
    parse_command_line ["-c".toList, "a".toList, "b".toList]
        [{ key := "comp".toList, shortkeys := ["c".toList], narg := 2, composing := true }] []
      = some (.ok ([(0, ["a".toList, "b".toList])], [])) ∧
    parse_command_line ["-c".toList, "a".toList]
        [{ key := "comp".toList, shortkeys := ["c".toList], narg := 2, composing := true }] []
      = some (.error (.option_error (missing_short_what "comp".toList))) ∧
    parse_command_line ["--comp".toList, "a".toList, "b".toList]
        [{ key := "comp".toList, shortkeys := ["c".toList], narg := 2, composing := true }] []
      = some (.ok ([(0, ["a".toList])], ["b".toList])) := by
  decide

/-- C18 (short options ignore the implicit value), the code at the failing
input: an option with an implicit value and arity `2 ^ 64 - 1` named in short
form at position 1 with no token after it.  The sum `a + narg` wraps around to
0 and the parse ends in a standard-library exception instead of the
missing-argument `option_error`.  The long form at the same position stores
the implicit value; with arity 2 the short form stores the next two tokens and
fails with the missing-argument error when only one follows. -/
theorem short_form_arity_wraps :
    parse_command_line ["test.exe".toList, "-s".toList]
        [{ key := "setting".toList, shortkeys := ["s".toList], narg := 2 ^ 64 - 1,
           implicit_value := some "i".toList }] []
      = some (.error .std_exception) ∧
    parse_command_line ["test.exe".toList, "--setting".toList]
        [{ key := "setting".toList, shortkeys := ["s".toList], narg := 2 ^ 64 - 1,
           implicit_value := some "i".toList }] []
      = some (.ok ([(0, ["i".toList])], ["test.exe".toList])) ∧
    parse_command_line ["-s".toList, "a".toList, "b".toList]
        [{ key := "setting".toList, shortkeys := ["s".toList], narg := 2,
           implicit_value := some "i".toList }] []
      = some (.ok ([(0, ["a".toList, "b".toList])], [])) ∧
    parse_command_line ["-s".toList, "a".toList]
        [{ key := "setting".toList, shortkeys := ["s".toList], narg := 2,
           implicit_value := some "i".toList }] []
      = some (.error (.option_error (missing_short_what "setting".toList))) := by
  decide

/-- C15 (syntax error, fail-fast): whenever the lines of a config text are
`pre ++ line :: post`, the lines `pre` are read without error, and `line` is not
empty and matches none of `re_comment`, `re_section` and `re_value`, the parse
throws the `option_error` with the message `bad line N: ` followed by the line,
`N` being the 1-based number of the line counted over all lines (the empty ones
too), in decimal; no store is returned, whatever `post` holds.  A line that has
not the shape whitespace, `OPTION_CHARS` key, whitespace, `=`, rest does not
match `re_value`.  The lines ` [one]`, `[one] `, `[]`, `[-x]`, `one setting=1`
and `novalue` are such lines, and a text with an empty second line and ` [one]`
as its third line fails with `bad line 3:  [one]`. -/
theorem syntax_error_fail_fast :
    (∀ (options : option_set) (infile : Str) (pre post : List Str) (line : Str) (st : cf_state),
      getlines infile = pre ++ line :: post →
      config_lines options 1 cf_init pre = .ok st →
      line ≠ [] → match_comment line = false → match_section line = none →
      match_value line = none →
      parse_config_file infile options
        = .error (.option_error
            ("bad line ".toList ++ decimal (pre.length + 1) ++ ": ".toList ++ line))) ∧
    (∀ (line : Str), key_value_shape line = false → match_value line = none) ∧
    (∀ line ∈ [" [one]".toList, "[one] ".toList, "[]".toList, "[-x]".toList,
        "one setting=1".toList, "novalue".toList],
      line ≠ [] ∧ match_comment line = false ∧ match_section line = none ∧
        key_value_shape line = false) ∧
    parse_config_file "a=1\n\n [one]\nb=2\n".toList [{ key := "a".toList }, { key := "b".toList }]
      = .error (.option_error "bad line 3:  [one]".toList) := by
  refine ⟨?_, match_value_key_value_shape, by decide, by decide⟩
  intro options infile pre post line st hl hpre hne hc hs hv
  exact config_bad_line options infile pre post line st hl hpre hne hc hs hv

/-- Witness for C15: the text `a=1`, empty line, ` [one]`, `b=2`, whose third
line has none of the three shapes. -/
theorem syntax_error_fail_fast_witness :
    getlines "a=1\n\n [one]\nb=2\n".toList
      = ["a=1".toList, []] ++ " [one]".toList :: ["b=2".toList] ∧
    config_lines [{ key := "a".toList }, { key := "b".toList }] 1 cf_init ["a=1".toList, []]
      = .ok ⟨[], [(0, ["1".toList])]⟩ ∧
    parse_config_file "a=1\n\n [one]\nb=2\n".toList [{ key := "a".toList }, { key := "b".toList }]
      = .error (.option_error
          ("bad line ".toList ++ decimal (["a=1".toList, []].length + 1) ++ ": ".toList
            ++ " [one]".toList)) :=
  ⟨by decide, by decide,
    syntax_error_fail_fast.1 [{ key := "a".toList }, { key := "b".toList }]
      "a=1\n\n [one]\nb=2\n".toList ["a=1".toList, []] ["b=2".toList] " [one]".toList
      ⟨[], [(0, ["1".toList])]⟩ (by decide) (by decide) (by decide) (by decide) (by decide)
      (by decide)⟩

/-- C21 (wrapped errors): whenever the lines of a config text are
`pre ++ line :: post`, the lines `pre` are read without error, `line` is a
key-value line, and the lookup of its effective key (the current section name
and dot, then the key) or the storing of its value throws an `option_error`
with message `what`, the parse throws the `option_error` whose message is
`lineno `, the raw line, `: ` and then `what`, and returns no store.  This is so
when the effective key is not registered (`what` is the lookup failure) and when
the option found is neither composing nor overwriting and already set (`what`
is the duplicate failure).  The text `[one]`, `setting=hei`, `nope=1` read
with only `one.setting` registered fails with the lookup failure of `one.nope`
after `lineno nope=1: `. -/
theorem wrapped_errors :
    (∀ (options : option_set) (infile : Str) (pre post : List Str) (line key v what : Str)
        (st : cf_state),
      getlines infile = pre ++ line :: post →
      match_value line = some (key, v) →
      config_lines options 1 cf_init pre = .ok st →
      ((find_option options (st.cur_section ++ key) false).bind
        fun o => put st.values o [strip_quotes v]) = .error (.option_error what) →
      parse_config_file infile options
        = .error (.option_error ("lineno ".toList ++ line ++ ": ".toList ++ what))) ∧
    (∀ (options : option_set) (infile : Str) (pre post : List Str) (line key v : Str)
        (st : cf_state),
      getlines infile = pre ++ line :: post →
      match_value line = some (key, v) →
      config_lines options 1 cf_init pre = .ok st →
      unregistered options (st.cur_section ++ key) false →
      parse_config_file infile options
        = .error (.option_error ("lineno ".toList ++ line ++ ": ".toList
            ++ unknown_option_what (st.cur_section ++ key) false))) ∧
    (∀ (options : option_set) (infile : Str) (pre post : List Str) (line key v : Str)
        (st : cf_state) (o : option_cx),
      getlines infile = pre ++ line :: post →
      match_value line = some (key, v) →
      config_lines options 1 cf_init pre = .ok st →
      find_option options (st.cur_section ++ key) false = .ok o →
      o.opt.composing = false → o.opt.overwriting = false → is_set st.values o.id = true →
      parse_config_file infile options
        = .error (.option_error ("lineno ".toList ++ line ++ ": ".toList
            ++ duplicate_option_what o.opt.key))) ∧
    parse_config_file "[one]\nsetting=hei\nnope=1\nsetting=hi\n".toList
        [{ key := "one.setting".toList }]
      = .error (.option_error ("lineno nope=1: ".toList
          ++ unknown_option_what "one.nope".toList false)) := by
  refine ⟨?_, ?_, ?_, by decide⟩
  · intro options infile pre post line key v what st hl hv hpre hin
    exact config_wrapped options infile pre post line key v what st hl hv hpre hin
  · intro options infile pre post line key v st hl hv hpre hu
    refine config_wrapped options infile pre post line key v _ st hl hv hpre ?_
    rw [find_option_unregistered options _ false hu]
    rfl
  · intro options infile pre post line key v st o hl hv hpre hf hc hw hs
    refine config_wrapped options infile pre post line key v _ st hl hv hpre ?_
    rw [hf]
    exact put_duplicate st.values o _ hc hw hs

/-- Witness for C21: the text `[one]`, `setting=hei`, `nope=1`, `setting=hi`,
whose third line has the unregistered effective key `one.nope`. -/
theorem wrapped_errors_witness :
    getlines "[one]\nsetting=hei\nnope=1\nsetting=hi\n".toList
      = ["[one]".toList, "setting=hei".toList] ++ "nope=1".toList :: ["setting=hi".toList] ∧
    match_value "nope=1".toList = some ("nope".toList, "1".toList) ∧
    config_lines [{ key := "one.setting".toList }] 1 cf_init
      ["[one]".toList, "setting=hei".toList] = .ok ⟨"one.".toList, [(0, ["hei".toList])]⟩ ∧
    unregistered [{ key := "one.setting".toList }] ("one.".toList ++ "nope".toList) false ∧
    parse_config_file "[one]\nsetting=hei\nnope=1\nsetting=hi\n".toList
        [{ key := "one.setting".toList }]
      = .error (.option_error ("lineno ".toList ++ "nope=1".toList ++ ": ".toList
          ++ unknown_option_what ("one.".toList ++ "nope".toList) false)) :=
  ⟨by decide, by decide, by decide, by decide,
    wrapped_errors.2.1 [{ key := "one.setting".toList }]
      "[one]\nsetting=hei\nnope=1\nsetting=hi\n".toList ["[one]".toList, "setting=hei".toList]
      ["setting=hi".toList] "nope=1".toList "nope".toList "1".toList
      ⟨"one.".toList, [(0, ["hei".toList])]⟩ (by decide) (by decide) (by decide) (by decide)⟩

/-- Counterexample for C19: inserting the line made of a space and a tab after
the line `k=1` turns a parse that returns a store into a parse that throws
`bad line 2: ` followed by that line. -/
theorem blank_lines_whitespace_only :
    getlines "k=1\n".toList = ["k=1".toList] ++ [] ∧
    getlines "k=1\n \t\n".toList = ["k=1".toList] ++ " \t".toList :: [] ∧
    (" \t".toList.all fun c => c == ' ' || c == '\t') = true ∧
    parse_config_file "k=1\n".toList [{ key := "k".toList }] = .ok [(0, ["1".toList])] ∧
    parse_config_file "k=1\n \t\n".toList [{ key := "k".toList }]
      = .error (.option_error "bad line 2:  \t".toList) := by
  decide

/-- C19 as amended (blank lines): an empty line is ignored: if the lines of the
text `b` are those of the text `a` with one empty line inserted at any position,
then `b` parses exactly when `a` does and to the same store.  A line that is not
empty but consists only of whitespace is not ignored: reached after lines read
without error, it makes the parse throw `bad line N: ` followed by the line.
The texts `k=1`, `j=2` with and without two empty lines in between yield the
same store. -/
theorem blank_lines :
    (∀ (options : option_set) (a b : Str) (pre post : List Str),
      getlines a = pre ++ post → getlines b = pre ++ [] :: post →
      returned (parse_config_file b options) = returned (parse_config_file a options)) ∧
    (∀ (options : option_set) (infile : Str) (pre post : List Str) (line : Str) (st : cf_state),
      getlines infile = pre ++ line :: post →
      config_lines options 1 cf_init pre = .ok st →
      line ≠ [] → line.all isspace = true →
      parse_config_file infile options
        = .error (.option_error (bad_line_what (pre.length + 1) line))) ∧
    parse_config_file "k=1\n\n\nj=2\n".toList [{ key := "k".toList }, { key := "j".toList }]
      = .ok [(0, ["1".toList]), (1, ["2".toList])] ∧
    parse_config_file "k=1\nj=2\n".toList [{ key := "k".toList }, { key := "j".toList }]
      = .ok [(0, ["1".toList]), (1, ["2".toList])] := by
  refine ⟨?_, ?_, by decide, by decide⟩
  · intro options a b pre post ha hb
    exact parse_insert_neutral options a b pre post [] ha hb rfl
  · intro options infile pre post line st hl hpre hne hw
    obtain ⟨hc, hs, hv⟩ := whitespace_line_shape line hne hw
    exact config_bad_line options infile pre post line st hl hpre hne hc hs hv

/-- Witness for C19 as amended: the text `k=1`, `j=2` and the same text with an
empty line between the two lines. -/
theorem blank_lines_witness :
    getlines "k=1\nj=2\n".toList = ["k=1".toList] ++ ["j=2".toList] ∧
    getlines "k=1\n\nj=2\n".toList = ["k=1".toList] ++ [] :: ["j=2".toList] ∧
    returned (parse_config_file "k=1\n\nj=2\n".toList
        [{ key := "k".toList }, { key := "j".toList }])
      = returned (parse_config_file "k=1\nj=2\n".toList
        [{ key := "k".toList }, { key := "j".toList }]) :=
  ⟨by decide, by decide,
    blank_lines.1 [{ key := "k".toList }, { key := "j".toList }] "k=1\nj=2\n".toList
      "k=1\n\nj=2\n".toList ["k=1".toList] ["j=2".toList] (by decide) (by decide)⟩

/-- Counterexample for C22: the first non-whitespace character of the line `#`
followed by a carriage return is `#`, yet the line does not match `re_comment`,
and inserting it after the line `k=1` turns a parse that returns a store into a
parse that throws `bad line 2: ` followed by that line. -/
theorem comment_line_carriage_return :
    ("#\r".toList.dropWhile isspace).head? = some '#' ∧
    match_comment "#\r".toList = false ∧
    getlines "k=1\n".toList = ["k=1".toList] ++ [] ∧
    getlines "k=1\n#\r\n".toList = ["k=1".toList] ++ "#\r".toList :: [] ∧
    parse_config_file "k=1\n".toList [{ key := "k".toList }] = .ok [(0, ["1".toList])] ∧
    parse_config_file "k=1\n#\r\n".toList [{ key := "k".toList }]
      = .error (.option_error "bad line 2: #\r".toList) := by
  decide

/-- C22 as amended (empty and comment lines are neutral): a line matches
`re_comment` exactly when its first non-whitespace character is `#` and neither
a line feed nor a carriage return comes after that `#`; a key-value line is
never a comment line, so that `k=a#b` has the value `a#b`.  If a line is empty or
matches `re_comment`, then the loop run from any line number and any state (the
current section name and the store) over lines with that line inserted at any
position returns exactly when it does without the line, and the same state; and
so a text with such a line inserted parses exactly when the text without it
does, and to the same store.  The text `[one]`, `setting=hei` yields the same
store with a comment line and an empty line after the section line. -/
theorem neutral_lines :
    (∀ (line : Str), match_comment line = true ↔
      (line.dropWhile isspace).head? = some '#' ∧
        ∀ c ∈ (line.dropWhile isspace).tail, c ≠ '\n' ∧ c ≠ '\r') ∧
    (∀ (line key v : Str), match_value line = some (key, v) → match_comment line = false) ∧
    (∀ (options : option_set) (n : Nat) (st : cf_state) (pre post : List Str) (line : Str),
      neutral_line line = true →
      returned (config_lines options n st (pre ++ line :: post))
        = returned (config_lines options n st (pre ++ post))) ∧
    (∀ (options : option_set) (a b : Str) (pre post : List Str) (line : Str),
      getlines a = pre ++ post → getlines b = pre ++ line :: post →
      neutral_line line = true →
      returned (parse_config_file b options) = returned (parse_config_file a options)) ∧
    match_value "k=a#b".toList = some ("k".toList, "a#b".toList) ∧
    parse_config_file "[one]\n  # a comment\n\nsetting=hei\n".toList
        [{ key := "one.setting".toList }] = .ok [(0, ["hei".toList])] ∧
    parse_config_file "[one]\nsetting=hei\n".toList
        [{ key := "one.setting".toList }] = .ok [(0, ["hei".toList])] := by
  refine ⟨match_comment_iff, ?_, ?_, ?_, by decide, by decide, by decide⟩
  · intro line key v h
    exact (match_value_shape h).2.1
  · intro options n st pre post line h
    exact config_lines_insert_neutral options n st pre post line h
  · intro options a b pre post line ha hb h
    exact parse_insert_neutral options a b pre post line ha hb h

/-- Witness for C22 as amended: the text `[one]`, `setting=hei` and the same
text with the comment line `  # a comment` after the section line. -/
theorem neutral_lines_witness :
    getlines "[one]\nsetting=hei\n".toList = ["[one]".toList] ++ ["setting=hei".toList] ∧
    getlines "[one]\n  # a comment\nsetting=hei\n".toList
      = ["[one]".toList] ++ "  # a comment".toList :: ["setting=hei".toList] ∧
    neutral_line "  # a comment".toList = true ∧
    returned (parse_config_file "[one]\n  # a comment\nsetting=hei\n".toList
        [{ key := "one.setting".toList }])
      = returned (parse_config_file "[one]\nsetting=hei\n".toList
        [{ key := "one.setting".toList }]) :=
  ⟨by decide, by decide, by decide,
    neutral_lines.2.2.2.1 [{ key := "one.setting".toList }] "[one]\nsetting=hei\n".toList
      "[one]\n  # a comment\nsetting=hei\n".toList ["[one]".toList] ["setting=hei".toList]
      "  # a comment".toList (by decide) (by decide) (by decide)⟩

/-- Counterexample for C23: in the line `k=a` followed by a carriage return the
text after the `=` has no leading whitespace, so removing its leading
whitespace changes nothing, yet the captured value is `a` without the carriage
return, and `a` is what the parse of that line stores. -/
theorem key_value_trailing_carriage_return :
    match_value "k=a\r".toList = some ("k".toList, "a".toList) ∧
    "a\r".toList.dropWhile isspace = "a\r".toList ∧
    getlines "k=a\r\n".toList = ["k=a\r".toList] ∧
    parse_config_file "k=a\r\n".toList [{ key := "k".toList }] = .ok [(0, ["a".toList])] := by
  decide

/-- C23 as amended (key-value splitting): let a line be whitespace `w1`, a key
made of a character of `[a-zA-Z0-9._]` and characters of `[a-zA-Z0-9._-]`,
whitespace `w2`, `=`, and `rest`.  The line matches `re_value` exactly when,
in `rest` without its leading whitespace, everything from the first line feed
or carriage return on is whitespace; the key captured is that key and the value
captured is `rest` without its leading whitespace, up to that first terminator.
When `rest` holds no terminator the value is `rest` without its leading
whitespace, nothing else changed; when `rest` is whitespace only, the value is
empty.  Every line that matches `re_value` is of this form, with no `=` before
the `=` of the split, and the key ends where the line goes on with a character
outside `[a-zA-Z0-9._-]`.  An empty value is stored as the empty string.  The
line `a = b=c ` has the key `a` and the value `b=c `. -/
theorem key_value_splitting :
    (∀ (w1 t w2 rest : Str) (c : Char),
      w1.all isspace = true → option_char_first c = true → t.all option_char_rest = true →
      w2.all isspace = true →
      match_value (w1 ++ (c :: t) ++ w2 ++ '=' :: rest) =
        if ((rest.dropWhile isspace).dropWhile is_dot).all isspace then
          some (c :: t, (rest.dropWhile isspace).takeWhile is_dot)
        else none) ∧
    (∀ (w1 t w2 rest : Str) (c : Char),
      w1.all isspace = true → option_char_first c = true → t.all option_char_rest = true →
      w2.all isspace = true → (∀ x ∈ rest, x ≠ '\n' ∧ x ≠ '\r') →
      match_value (w1 ++ (c :: t) ++ w2 ++ '=' :: rest)
        = some (c :: t, rest.dropWhile isspace)) ∧
    (∀ (w1 t w2 rest : Str) (c : Char),
      w1.all isspace = true → option_char_first c = true → t.all option_char_rest = true →
      w2.all isspace = true → rest.all isspace = true →
      match_value (w1 ++ (c :: t) ++ w2 ++ '=' :: rest) = some (c :: t, [])) ∧
    (∀ (line key v : Str), match_value line = some (key, v) →
      ∃ (w1 w2 rest t : Str) (c : Char),
        line = w1 ++ key ++ w2 ++ '=' :: rest ∧ key = c :: t ∧
        w1.all isspace = true ∧ option_char_first c = true ∧ t.all option_char_rest = true ∧
        w2.all isspace = true ∧ '=' ∉ w1 ++ key ++ w2 ∧
        (w2 ++ '=' :: rest).takeWhile option_char_rest = [] ∧
        ((rest.dropWhile isspace).dropWhile is_dot).all isspace = true ∧
        v = (rest.dropWhile isspace).takeWhile is_dot) ∧
    strip_quotes [] = [] ∧
    match_value "a = b=c ".toList = some ("a".toList, "b=c ".toList) ∧
    match_value "k=a \r ".toList = some ("k".toList, "a ".toList) ∧
    match_value "k=a\rb".toList = none ∧
    parse_config_file "k= \t\n".toList [{ key := "k".toList }] = .ok [(0, [[]])] := by
  refine ⟨?_, ?_, ?_, ?_, by decide, by decide, by decide, by decide, by decide⟩
  · intro w1 t w2 rest c hw1 hc ht hw2
    exact match_value_split w1 t w2 rest c hw1 hc ht hw2
  · intro w1 t w2 rest c hw1 hc ht hw2 hr
    refine match_value_split_plain w1 t w2 rest c hw1 hc ht hw2 ?_
    rw [List.all_eq_true]
    intro x hx
    have h := hr x hx
    simp [is_dot, h.1, h.2]
  · intro w1 t w2 rest c hw1 hc ht hw2 hr
    exact match_value_split_blank w1 t w2 rest c hw1 hc ht hw2 hr
  · intro line key v h
    obtain ⟨w1, w2, rest, t, c, h1, h2, h3, h4, h5, h6, h7, h8, h9⟩ := match_value_inv h
    exact ⟨w1, w2, rest, t, c, h1, h2, h3, h4, h5, h6, h7, takeWhile_space_eq w2 rest h6, h8, h9⟩

/-- Witness for C23 as amended: the line `a = b=c `, split into the key `a`,
one space, `=`, and the rest ` b=c `, which holds no line terminator. -/
theorem key_value_splitting_witness :
    ([] : Str).all isspace = true ∧ option_char_first 'a' = true ∧
    ([] : Str).all option_char_rest = true ∧ " ".toList.all isspace = true ∧
    (∀ x ∈ " b=c ".toList, x ≠ '\n' ∧ x ≠ '\r') ∧
    match_value ([] ++ ('a' :: []) ++ " ".toList ++ '=' :: " b=c ".toList)
      = some ('a' :: [], " b=c ".toList.dropWhile isspace) :=
  ⟨by decide, by decide, by decide, by decide, by decide,
    key_value_splitting.2.1 [] [] " ".toList " b=c ".toList 'a' (by decide) (by decide)
      (by decide) (by decide) (by decide)⟩

/-- C16 (merge round-trip): let the config texts `a` and `b` both parse, to the
stores `vsA` and `vsB`, with no option set in both, and let the lines of `c` be
the lines of `a` followed by the lines of `b`, where either no key-value line of
`b` comes before the first section line of `b`, or `a` has no section line.
Then `c` parses, and for every option `add` of `vsB` into `vsA` has the same
`is_set` and the same values as the store parsed from `c`.  The lines of a text
`a` that ends with a line feed, followed by the lines of `b`, are the lines of
the text `a` followed by the text `b`.  With the texts of the test
`progopt_values_add` both sides hold `hei` for `one.setting` and `hi` for
`one.option`. -/
theorem merge_round_trip :
    (∀ (options : option_set) (a b c : Str) (vsA vsB : value_set),
      parse_config_file a options = .ok vsA → parse_config_file b options = .ok vsB →
      (∀ id, ¬(is_set vsA id = true ∧ is_set vsB id = true)) →
      getlines c = getlines a ++ getlines b →
      (section_before_values (getlines b) = true ∨ last_section (getlines a) = none) →
      ∃ vsC, parse_config_file c options = .ok vsC ∧
        ∀ id, is_set (add options vsA vsB) id = is_set vsC id ∧
          values (add options vsA vsB) id = values vsC id) ∧
    (∀ (a b : Str), getlines (a ++ '\n' :: b) = getlines (a ++ ['\n']) ++ getlines b) ∧
    parse_config_file "[one]\nsetting=hei\n".toList
        [{ key := "one.setting".toList }, { key := "one.option".toList }]
      = .ok [(0, ["hei".toList])] ∧
    parse_config_file "[one]\noption=hi\n".toList
        [{ key := "one.setting".toList }, { key := "one.option".toList }]
      = .ok [(1, ["hi".toList])] ∧
    add [{ key := "one.setting".toList }, { key := "one.option".toList }]
        [(0, ["hei".toList])] [(1, ["hi".toList])]
      = [(0, ["hei".toList]), (1, ["hi".toList])] ∧
    parse_config_file "[one]\nsetting=hei\n[one]\noption=hi\n".toList
        [{ key := "one.setting".toList }, { key := "one.option".toList }]
      = .ok [(0, ["hei".toList]), (1, ["hi".toList])] := by
  refine ⟨?_, ?_, by decide, by decide, by decide, by decide⟩
  · intro options a b c vsA vsB hA hB hd hc hsec
    exact merge_parse options a b c vsA vsB hA hB hd hc hsec
  · intro a b
    exact getlines_from_append b a []

/-- Witness for C16: the two texts of the test `progopt_values_add` and the
text made of the one followed by the other. -/
theorem merge_round_trip_witness :
    parse_config_file "[one]\nsetting=hei\n".toList
        [{ key := "one.setting".toList }, { key := "one.option".toList }]
      = .ok [(0, ["hei".toList])] ∧
    parse_config_file "[one]\noption=hi\n".toList
        [{ key := "one.setting".toList }, { key := "one.option".toList }]
      = .ok [(1, ["hi".toList])] ∧
    (∀ id, ¬(is_set [(0, ["hei".toList])] id = true ∧ is_set [(1, ["hi".toList])] id = true)) ∧
    getlines "[one]\nsetting=hei\n[one]\noption=hi\n".toList
      = getlines "[one]\nsetting=hei\n".toList ++ getlines "[one]\noption=hi\n".toList ∧
    section_before_values (getlines "[one]\noption=hi\n".toList) = true ∧
    ∃ vsC, parse_config_file "[one]\nsetting=hei\n[one]\noption=hi\n".toList
        [{ key := "one.setting".toList }, { key := "one.option".toList }] = .ok vsC ∧
      ∀ id, is_set (add [{ key := "one.setting".toList }, { key := "one.option".toList }]
            [(0, ["hei".toList])] [(1, ["hi".toList])]) id = is_set vsC id ∧
        values (add [{ key := "one.setting".toList }, { key := "one.option".toList }]
            [(0, ["hei".toList])] [(1, ["hi".toList])]) id = values vsC id :=
  ⟨by decide, by decide,
    fun id h => by
      have h1 : id = 0 := by
        by_contra hne
        simp [is_set, values, Ne.symm hne] at h
      subst h1
      simp [is_set, values] at h,
    by decide, by decide,
    merge_round_trip.1 [{ key := "one.setting".toList }, { key := "one.option".toList }]
      "[one]\nsetting=hei\n".toList "[one]\noption=hi\n".toList
      "[one]\nsetting=hei\n[one]\noption=hi\n".toList [(0, ["hei".toList])] [(1, ["hi".toList])]
      (by decide) (by decide)
      (fun id h => by
        have h1 : id = 0 := by
          by_contra hne
          simp [is_set, values, Ne.symm hne] at h
        subst h1
        simp [is_set, values] at h)
      (by decide) (Or.inl (by decide))⟩

end program_options
